import Mathlib

/-!
# ircd-hybrid-6: compressed server links (`src/s_zip.c`) and string matching (`src/match.c`)

A shallow embedding of `zip_init`, `zip_free`, `unzip_packet` and `zip_buffer`
(namespace `S_zip`), of the result codes and state flags of `include/s_crypt.h`
(namespace `S_crypt`), and of `match`, `collapse`, `irccmp` and the character
tables (namespace `Match`), and theorems about them.

Conventions of the embedding.

* A C buffer is a `Mem`: the bytes found at successive offsets from the
  address the pointer holds.  No bound is attached to a `Mem`; where the C
  code would run past the end of an array the embedding keeps copying, and
  the theorems that depend on array sizes say so in their hypotheses.
* `int` is `Int`.  The counts handed to `bcopy` and to zlib are converted
  with `Int.toNat`; every count the code produces itself is non-negative.
* zlib is not part of the repository.  Its four entry points used here are
  fields of a `Zlib` record; `inflate` and `deflate` below wrap them with the
  bookkeeping zlib documents for `next_in`, `avail_in`, `next_out`,
  `avail_out`, `total_in` and `total_out`.
* `config.h` and `struct.h` are not among the sources.  The constants they
  define are fields of `Config`.
* Every call into zlib and every `sendto_ops` notice is appended to
  `World.trace`, so that "the compressor was invoked" is a statement about
  the trace.
-/

namespace S_zip

/-! ## Memory -/

/-- A region of bytes, addressed by offset from its base. -/
abbrev Mem := Nat → Nat

/-- The `n` bytes of `m` starting at offset `off`. -/
def readBytes (m : Mem) (off n : Nat) : List Nat :=
  (List.range n).map (fun i => m (off + i))

/-- Store the bytes `bs` into `m` from offset `off` on. -/
def writeBytes (m : Mem) (off : Nat) (bs : List Nat) : Mem :=
  fun i => if off ≤ i ∧ i < off + bs.length then bs.getD (i - off) 0 else m i

/-- The libc call `bcopy(src + soff, dst + doff, n)`; source and destination are
distinct buffers at every call site of `s_zip.c`. -/
def bcopy (src : Mem) (soff : Nat) (dst : Mem) (doff : Nat) (n : Nat) : Mem :=
  fun i => if doff ≤ i ∧ i < doff + n then src (soff + (i - doff)) else dst i

/-- A string literal as it lies in memory: its characters, then NUL. -/
def cstr (s : List Nat) : Mem := fun i => s.getD i 0

/-- The libc call `strncmp(s1, s2, n)`: the difference at the first position
where the two differ, 0 when the first `n` bytes agree or both strings end
earlier. -/
def strncmp (s1 s2 : Mem) : Nat → Int
  | 0 => 0
  | n + 1 =>
    if s1 0 ≠ s2 0 then (s1 0 : Int) - (s2 0 : Int)
    else if s1 0 = 0 then 0
    else strncmp (fun i => s1 (i + 1)) (fun i => s2 (i + 1)) n

/-- The characters of the literal `"ERROR "`. -/
def ERROR_ : List Nat := [69, 82, 82, 79, 82, 32]

/-! ## Constants -/

/-- The constant `READBUF_SIZE` of `include/ircd_defs.h`. -/
def READBUF_SIZE : Nat := 16384

/-- The constant `BUFSIZE` of `include/ircd_defs.h`. -/
def BUFSIZE : Nat := 512

/-- The constants `s_zip.c` takes from `config.h` and `struct.h`. -/
structure Config where
  /-- accumulated size from which compression is worthwhile -/
  ZIP_MINIMUM : Nat
  /-- size of `inbuf` and `outbuf` -/
  ZIP_MAXIMUM : Nat
  /-- compression level handed to `deflateInit` -/
  ZIP_LEVEL : Int
  /-- bit of `flags2`: the link is compressed -/
  FLAGS2_ZIP : Nat
  /-- bit of `flags2`: the connect burst is being sent -/
  FLAGS2_CBURST : Nat
  /-- bit of `caps`: the peer supports compression -/
  CAP_ZIP : Nat

/-- The macro `#define ZIP_BUFFER_SIZE (ZIP_MAXIMUM + READBUF_SIZE)`. -/
def ZIP_BUFFER_SIZE (C : Config) : Nat := C.ZIP_MAXIMUM + READBUF_SIZE

/-- The macro `#define UNZIP_BUFFER_SIZE 4*ZIP_BUFFER_SIZE`. -/
def UNZIP_BUFFER_SIZE (C : Config) : Nat := 4 * ZIP_BUFFER_SIZE C

/-- zlib return code `Z_OK`. -/
def Z_OK : Int := 0

/-- zlib return code `Z_STREAM_END`. -/
def Z_STREAM_END : Int := 1

/-- zlib return code `Z_DATA_ERROR`. -/
def Z_DATA_ERROR : Int := -3

/-- zlib return code `Z_BUF_ERROR`. -/
def Z_BUF_ERROR : Int := -5

/-- zlib flush mode `Z_PARTIAL_FLUSH`. -/
def Z_PARTIAL_FLUSH : Int := 1

/-- zlib data type `Z_ASCII`. -/
def Z_ASCII : Int := 1

/-! ## zlib -/

/-- The fields of zlib's `z_stream` that `s_zip.c` touches.  `next_in` and
`next_out` are offsets from the base of the buffer they were last pointed at;
`state` is zlib's private state. -/
structure z_stream where
  next_in : Nat
  avail_in : Nat
  total_in : Nat
  next_out : Nat
  avail_out : Nat
  total_out : Nat
  msg : Option String
  data_type : Int
  state : List Nat

/-- What one call of `inflate` or `deflate` does: its return value, how many
input bytes it took, the bytes it wrote, its message and its new private
state. -/
structure ZCall where
  ret : Int
  consumed : Nat
  produced : List Nat
  msg : Option String
  state : List Nat

/-- What `inflateInit` or `deflateInit` does. -/
structure ZInit where
  ret : Int
  msg : Option String
  state : List Nat

/-- The zlib entry points.  `inflate st input room flush` is a call with private
state `st`, the `avail_in` bytes at `next_in`, `avail_out = room` and the given
flush mode; likewise `deflate`. -/
structure Zlib where
  inflateInit : ZInit
  deflateInit : Int → ZInit
  inflate : List Nat → List Nat → Nat → Int → ZCall
  deflate : List Nat → List Nat → Nat → Int → ZCall

/-- One step of a zlib stream on the caller's side: the call takes at most
`avail_in` bytes and writes at most `avail_out` bytes, and advances the six
counters of the stream accordingly. -/
def zstep (c : ZCall) (strm : z_stream) (dst : Mem) : Int × z_stream × Mem :=
  let k := min c.consumed strm.avail_in
  let out := c.produced.take strm.avail_out
  (c.ret,
   { strm with
       next_in := strm.next_in + k
       avail_in := strm.avail_in - k
       total_in := strm.total_in + k
       next_out := strm.next_out + out.length
       avail_out := strm.avail_out - out.length
       total_out := strm.total_out + out.length
       msg := c.msg
       state := c.state },
   writeBytes dst strm.next_out out)

/-- The input a stream offers: the `avail_in` bytes at `next_in`. -/
def offered (strm : z_stream) (src : Mem) : List Nat :=
  readBytes src strm.next_in strm.avail_in

/-- The call `inflate(strm, flush)`, reading from `src` and writing to `dst`. -/
def inflate (Z : Zlib) (strm : z_stream) (src dst : Mem) (flush : Int) :
    Int × z_stream × Mem :=
  zstep (Z.inflate strm.state (offered strm src) strm.avail_out flush) strm dst

/-- The call `deflate(strm, flush)`, reading from `src` and writing to `dst`. -/
def deflate (Z : Zlib) (strm : z_stream) (src dst : Mem) (flush : Int) :
    Int × z_stream × Mem :=
  zstep (Z.deflate strm.state (offered strm src) strm.avail_out flush) strm dst

/-! ## Links -/

/-- The record `aZdata` behind `cptr->zip`. -/
structure aZdata where
  in_ : Option z_stream
  out : Option z_stream
  inbuf : Mem
  incount : Int
  outbuf : Mem
  outcount : Int

/-- The fields of `aClient` that `s_zip.c` touches. -/
structure aClient where
  flags2 : Nat
  caps : Nat
  zip : Option aZdata

/-- What the code does that is visible outside the link. -/
inductive Event where
  | sendto_ops (pattern : String) (args : List String)
  | inflateInit
  | deflateInit (level : Int)
  | inflate (input : List Nat) (avail_out : Nat) (flush : Int)
  | deflate (input : List Nat) (avail_out : Nat) (flush : Int)
  | inflateEnd
  | deflateEnd

/-- The two static buffers of `s_zip.c`, and the record of calls made. -/
structure World where
  unzipbuf : Mem
  zipbuf : Mem
  trace : List Event

/-- The pointer a codec call returns. -/
inductive RetPtr where
  | NULL
  | unzipbuf
  | zipbuf
  | buffer
deriving DecidableEq, Repr

/-- The state after a codec call, the pointer returned and `*length`. -/
structure Outcome where
  world : World
  cptr : aClient
  ret : RetPtr
  length : Int

/-- The expression `x & ~m`. -/
def clearBits (x m : Nat) : Nat := Nat.ldiff x m

/-- Modelled from the spec: the macro `IsCapable` is defined in `struct.h`, which
is not among the sources.  The spec speaks of a per-link capability that the
downgrade disables; the code disables it with `cptr->caps &= ~CAP_ZIP`, so the
test is that of the same bits of `caps`. -/
def IsCapable (cptr : aClient) (cap : Nat) : Bool := cptr.caps &&& cap != 0

/-- Modelled from the spec: the macro `CBurst` is defined in `struct.h`, which is
not among the sources.  The spec calls it the link being in its initial
bulk-synchronization phase, a per-link boolean; it is taken as a bit of
`flags2`. -/
def CBurst (C : Config) (cptr : aClient) : Bool := cptr.flags2 &&& C.FLAGS2_CBURST != 0

/-- The text `(strm->msg) ? strm->msg : "?"`. -/
def msgText (strm : z_stream) : String := strm.msg.getD "?"

/-! ## `zip_init` -/

/-- The call `inflateInit(strm)`. -/
def inflateInit (Z : Zlib) (strm : z_stream) : Int × z_stream :=
  (Z.inflateInit.ret, { strm with msg := Z.inflateInit.msg, state := Z.inflateInit.state })

/-- The call `deflateInit(strm, level)`. -/
def deflateInit (Z : Zlib) (strm : z_stream) (level : Int) : Int × z_stream :=
  ((Z.deflateInit level).ret,
   { strm with msg := (Z.deflateInit level).msg, state := (Z.deflateInit level).state })

/-- The function `zip_init`.  `m`, `s_in` and `s_out` are the three blocks
`MyMalloc` returns, with whatever they hold. -/
def zip_init (Z : Zlib) (C : Config) (m : aZdata) (s_in s_out : z_stream)
    (w : World) (cptr : aClient) : World × aClient × Int :=
  let zip := { m with incount := 0, outcount := 0 }
  let zin := { s_in with total_in := 0, total_out := 0, data_type := Z_ASCII }
  let (r, zin) := inflateInit Z zin
  let w := { w with trace := w.trace ++ [Event.inflateInit] }
  if r ≠ Z_OK then
    (w, { cptr with zip := some { zip with in_ := some zin, out := none } }, -1)
  else
    let zout := { s_out with total_in := 0, total_out := 0, data_type := Z_ASCII }
    let (r, zout) := deflateInit Z zout C.ZIP_LEVEL
    let w := { w with trace := w.trace ++ [Event.deflateInit C.ZIP_LEVEL] }
    let cptr := { cptr with zip := some { zip with in_ := some zin, out := some zout } }
    if r ≠ Z_OK then (w, cptr, -1) else (w, cptr, 0)

/-! ## `unzip_packet` -/

/-- The function `unzip_packet(cptr, buffer, &length)`.  The result is `none`
when the call dereferences a null `cptr->zip` or `cptr->zip->in`.  The copies
are not cut at the end of an array: `zipbuf` has `ZIP_BUFFER_SIZE` bytes and
`inbuf`, by the sizing comment of the source, `ZIP_MAXIMUM`; a call that copies
more writes past the array in C and stays inside the buffer here, so a theorem
about what else such a call leaves untouched carries the bounds as hypotheses. -/
def unzip_packet (Z : Zlib) (C : Config) (w : World) (cptr : aClient)
    (buffer : Mem) (length : Int) : Option Outcome :=
  match cptr.zip with
  | none => none
  | some zip =>
  match zip.in_ with
  | none => none
  | some zin =>
    -- the sanity check of the source has an empty body
    let w := if zip.incount + length > ZIP_BUFFER_SIZE C then w else w
    -- put everything in zipbuf
    let zipbuf := bcopy zip.inbuf 0 w.zipbuf 0 zip.incount.toNat
    let zipbuf := bcopy buffer 0 zipbuf zip.incount.toNat length.toNat
    let zin := { zin with
                   next_in := 0
                   avail_in := (zip.incount + length).toNat
                   next_out := 0
                   avail_out := UNZIP_BUFFER_SIZE C }
    let call := Event.inflate (offered zin zipbuf) zin.avail_out Z_PARTIAL_FLUSH
    let (r, zin, unzipbuf) := inflate Z zin zipbuf w.unzipbuf Z_PARTIAL_FLUSH
    let w := { w with zipbuf := zipbuf, unzipbuf := unzipbuf, trace := w.trace ++ [call] }
    let zip := { zip with in_ := some zin }
    if r = Z_OK then
      let zip :=
        if zin.avail_in ≠ 0 then
          -- put the leftover in cptr->zip->inbuf
          { zip with
              inbuf := bcopy zipbuf zin.next_in zip.inbuf 0 zin.avail_in
              incount := zin.avail_in }
        else zip
      some { world := w, cptr := { cptr with zip := some zip },
             ret := RetPtr.unzipbuf, length := (UNZIP_BUFFER_SIZE C : Int) - zin.avail_out }
    else if r = Z_BUF_ERROR then
      if zin.avail_out = 0 then
        some { world := { w with trace := w.trace ++
                 [Event.sendto_ops "inflate() returned Z_BUF_ERROR: %s" [msgText zin]] },
               cptr := { cptr with zip := some zip }, ret := RetPtr.NULL, length := -1 }
      else
        some { world := w, cptr := { cptr with zip := some zip },
               ret := RetPtr.NULL, length := length }
    else if r = Z_DATA_ERROR ∧ IsCapable cptr C.CAP_ZIP = true ∧
        strncmp (cstr ERROR_) buffer 6 = 0 then
      some { world := w,
             cptr := { cptr with
                         flags2 := clearBits cptr.flags2 C.FLAGS2_ZIP
                         caps := clearBits cptr.caps C.CAP_ZIP
                         zip := some zip },
             ret := RetPtr.buffer, length := length }
    else
      some { world := { w with trace := w.trace ++
               [Event.sendto_ops "inflate() error(%d): %s" [toString r, msgText zin]] },
             cptr := { cptr with zip := some zip }, ret := RetPtr.NULL, length := -1 }

/-! ## `zip_buffer` -/

/-- The first statement of `zip_buffer`: a non-null `buffer` is copied to the end
of the accumulation and counted. -/
def zip_append (zip : aZdata) (buffer : Option Mem) (length : Int) : aZdata :=
  match buffer with
  | none => zip
  | some b =>
    { zip with
        outbuf := bcopy b 0 zip.outbuf zip.outcount.toNat length.toNat
        outcount := zip.outcount + length }

/-- The condition under which `zip_buffer` returns without compressing. -/
def zip_defer (C : Config) (cptr : aClient) (outcount : Int) (flush : Int) : Bool :=
  flush = 0 ∧ (outcount < C.ZIP_MINIMUM ∨
    (outcount < (C.ZIP_MAXIMUM : Int) - BUFSIZE ∧ CBurst C cptr = true))

/-- The second half of `zip_buffer`, from `zout->next_in = cptr->zip->outbuf` on:
one pass of `deflate` over the accumulation `zip`, on the stream `zout`. -/
def zip_compress (Z : Zlib) (C : Config) (w : World) (cptr : aClient)
    (zip : aZdata) (zout : z_stream) : Outcome :=
  let zout := { zout with
                  next_in := 0
                  avail_in := zip.outcount.toNat
                  next_out := 0
                  avail_out := ZIP_BUFFER_SIZE C }
  let call := Event.deflate (offered zout zip.outbuf) zout.avail_out Z_PARTIAL_FLUSH
  let (r, zout, zipbuf) := deflate Z zout zip.outbuf w.zipbuf Z_PARTIAL_FLUSH
  let w := { w with zipbuf := zipbuf, trace := w.trace ++ [call] }
  let zip := { zip with out := some zout }
  if r = Z_OK then
    let w :=
      if zout.avail_in ≠ 0 then
        -- can this occur?? I hope not...
        { w with trace := w.trace ++
            [Event.sendto_ops "deflate() didn't process all available data!" []] }
      else w
    { world := w, cptr := { cptr with zip := some { zip with outcount := 0 } },
      ret := RetPtr.zipbuf, length := (ZIP_BUFFER_SIZE C : Int) - zout.avail_out }
  else
    { world := { w with trace := w.trace ++
        [Event.sendto_ops "deflate() error(%d): %s" [toString r, msgText zout]] },
      cptr := { cptr with zip := some zip }, ret := RetPtr.NULL, length := -1 }

/-- The function `zip_buffer(cptr, buffer, &length, flush)`.  The result is
`none` when the call dereferences a null `cptr->zip` or `cptr->zip->out`. -/
def zip_buffer (Z : Zlib) (C : Config) (w : World) (cptr : aClient)
    (buffer : Option Mem) (length : Int) (flush : Int) : Option Outcome :=
  match cptr.zip with
  | none => none
  | some zip =>
    let zip := zip_append zip buffer length
    if zip_defer C cptr zip.outcount flush = true then
      some { world := w, cptr := { cptr with zip := some zip }, ret := RetPtr.NULL, length := 0 }
    else
      match zip.out with
      | none => none
      | some zout => some (zip_compress Z C w cptr zip zout)

/-! ## A store-only codec

A small lossless codec with the interface of zlib, used to run the code on
concrete inputs: the compressed stream is the byte 120 followed by the plain
bytes.  The private state is `[]` before the leading byte has passed and `[1]`
after. -/

/-- Decompression of the store-only codec. -/
def stored_inflate (st input : List Nat) (room : Nat) (_flush : Int) : ZCall :=
  match st, input with
  | [], [] => { ret := Z_BUF_ERROR, consumed := 0, produced := [], msg := none, state := [] }
  | [], x :: rest =>
    if x = 120 then
      { ret := Z_OK, consumed := 1 + min rest.length room, produced := rest.take room,
        msg := none, state := [1] }
    else
      { ret := Z_DATA_ERROR, consumed := 0, produced := [],
        msg := some "incorrect header check", state := [] }
  | _ :: _, input =>
    { ret := if input.take room = [] then Z_BUF_ERROR else Z_OK,
      consumed := min input.length room, produced := input.take room,
      msg := none, state := st }

/-- Compression of the store-only codec. -/
def stored_deflate (st input : List Nat) (room : Nat) (_flush : Int) : ZCall :=
  let out := if st = [] then 120 :: input else input
  if out.length ≤ room ∧ out ≠ [] then
    { ret := Z_OK, consumed := input.length, produced := out, msg := none, state := [1] }
  else
    { ret := Z_BUF_ERROR, consumed := 0, produced := [], msg := none, state := st }

/-- The store-only codec. -/
def stored : Zlib where
  inflateInit := { ret := Z_OK, msg := none, state := [] }
  deflateInit := fun _ => { ret := Z_OK, msg := none, state := [] }
  inflate := stored_inflate
  deflate := stored_deflate

/-- A configuration on which the code is run in the concrete examples below. -/
def cfg : Config where
  ZIP_MINIMUM := 4096
  ZIP_MAXIMUM := 8192
  ZIP_LEVEL := 2
  FLAGS2_ZIP := 0x80
  FLAGS2_CBURST := 0x10000
  CAP_ZIP := 0x1

/-- A stream as `MyMalloc` may return it. -/
def z0 : z_stream :=
  { next_in := 0, avail_in := 0, total_in := 0, next_out := 0, avail_out := 0,
    total_out := 0, msg := none, data_type := 0, state := [] }

/-- A block of zeroes. -/
def mem0 : Mem := fun _ => 0

/-- The static buffers before any call. -/
def w0 : World := { unzipbuf := mem0, zipbuf := mem0, trace := [] }

/-! ## `unzip_packet`: the call into zlib -/

/-- The compressed scratch buffer once `unzip_packet` has copied the carry-over
and the chunk into it. -/
def scratch (zipbuf : Mem) (zip : aZdata) (buffer : Mem) (length : Int) : Mem :=
  bcopy buffer 0 (bcopy zip.inbuf 0 zipbuf 0 zip.incount.toNat) zip.incount.toNat length.toNat

/-- The bytes `unzip_packet` offers to `inflate`. -/
def offeredIn (w : World) (zip : aZdata) (buffer : Mem) (length : Int) : List Nat :=
  readBytes (scratch w.zipbuf zip buffer length) 0 (zip.incount + length).toNat

/-- The call of the zlib entry point that `unzip_packet` makes. -/
def inflateCall (Z : Zlib) (C : Config) (w : World) (zip : aZdata) (zin : z_stream)
    (buffer : Mem) (length : Int) : ZCall :=
  Z.inflate zin.state (offeredIn w zip buffer length) (UNZIP_BUFFER_SIZE C) Z_PARTIAL_FLUSH

/-- The output space a call leaves unused out of `room`. -/
def spaceLeft (room : Nat) (c : ZCall) : Nat := room - (c.produced.take room).length

/-- The carry-over followed by the chunk. -/
def pending (zip : aZdata) (buffer : Mem) (length : Int) : List Nat :=
  readBytes zip.inbuf 0 zip.incount.toNat ++ readBytes buffer 0 length.toNat

/-! ## Concrete inputs -/

/-- A link whose carry-over buffer is full: 8192 bytes, each 120. -/
def linkFull : aClient :=
  { flags2 := 0x80, caps := 0x1,
    zip := some { in_ := some z0, out := some z0, inbuf := fun _ => 120, incount := 8192,
                  outbuf := mem0, outcount := 0 } }

/-- The record behind `linkFull`. -/
def zipFull : aZdata :=
  { in_ := some z0, out := some z0, inbuf := fun _ => 120, incount := 8192,
    outbuf := mem0, outcount := 0 }

/-- A stream of the store-only codec past its leading byte. -/
def z1 : z_stream := { z0 with state := [1] }

/-- A link in mid-stream that carries one byte over. -/
def zipCarry : aZdata :=
  { in_ := some z1, out := some z1, inbuf := fun _ => 65, incount := 1,
    outbuf := mem0, outcount := 0 }

/-- The link of `zipCarry`. -/
def linkCarry : aClient := { flags2 := 0x80, caps := 0x1, zip := some zipCarry }

/-- The record of a link right after `zip_init`. -/
def zipFresh : aZdata :=
  { in_ := some z0, out := some z0, inbuf := mem0, incount := 0, outbuf := mem0, outcount := 0 }

/-- A compressed link right after `zip_init`. -/
def linkFresh : aClient := { flags2 := 0x80, caps := 0x1, zip := some zipFresh }

/-- The line `ERROR :x` as it lies in the read buffer. -/
def errorLine : Mem := cstr [69, 82, 82, 79, 82, 32, 58, 120]

/-! ## When the compressor runs -/

/-- The number of `deflate` calls recorded in a trace. -/
def deflate_calls : List Event → Nat
  | [] => 0
  | Event.deflate _ _ _ :: rest => deflate_calls rest + 1
  | _ :: rest => deflate_calls rest

/-- The condition of the specification for running the compressor, in its words:
`flush` is requested, or the accumulated size is at least the minimum, or it is
at least the maximum less the read-chunk size and the link is not in its
burst. -/
def spec_compress_now (C : Config) (cptr : aClient) (n : Int) (flush : Int) : Bool :=
  flush ≠ 0 ∨ (C.ZIP_MINIMUM : Int) ≤ n ∨
    ((C.ZIP_MAXIMUM : Int) - READBUF_SIZE ≤ n ∧ CBurst C cptr = false)

/-- The condition under which the code runs the compressor: `flush` is set, or
the accumulated size is at least `ZIP_MINIMUM` and either the link is not in its
connect burst or the size is at least `ZIP_MAXIMUM - BUFSIZE`. -/
def compress_now (C : Config) (cptr : aClient) (n : Int) (flush : Int) : Bool :=
  flush ≠ 0 ∨ ((C.ZIP_MINIMUM : Int) ≤ n ∧
    ((C.ZIP_MAXIMUM : Int) - BUFSIZE ≤ n ∨ CBurst C cptr = false))

/-- A link in its connect burst, right after `zip_init`. -/
def linkBurst : aClient := { flags2 := 0x10080, caps := 0x1, zip := some zipFresh }

/-! ## Sequences of `unzip_packet` calls -/

/-- A sequence of `unzip_packet` calls on one link, each on the state the call
before it left: the state after the last one. -/
def unzip_calls (Z : Zlib) (C : Config) (w : World) (cptr : aClient) :
    List (Mem × Int) → Option (World × aClient)
  | [] => some (w, cptr)
  | (buffer, length) :: rest =>
    match unzip_packet Z C w cptr buffer length with
    | none => none
    | some o => unzip_calls Z C o.world o.cptr rest

/-- The value `inflate` returns to `unzip_packet` in a given state. -/
def inflateRet (Z : Zlib) (C : Config) (w : World) (cptr : aClient)
    (buffer : Mem) (length : Int) : Option Int :=
  match cptr.zip with
  | none => none
  | some zip =>
    match zip.in_ with
    | none => none
    | some zin => some (inflateCall Z C w zip zin buffer length).ret

/-! ## Compression -/

/-- The call of the zlib entry point that `zip_buffer` makes on the
accumulation `zip`. -/
def deflateCall (Z : Zlib) (C : Config) (zip : aZdata) (zout : z_stream) : ZCall :=
  Z.deflate zout.state (readBytes zip.outbuf 0 zip.outcount.toNat) (ZIP_BUFFER_SIZE C)
    Z_PARTIAL_FLUSH

/-- The accumulation of a link, as bytes. -/
def accumulated (zip : aZdata) : List Nat := readBytes zip.outbuf 0 zip.outcount.toNat

/-! ## Sequences of `zip_buffer` calls -/

/-- The accumulation length of a link. -/
def outcountOf (cptr : aClient) : Int :=
  match cptr.zip with
  | some zip => zip.outcount
  | none => 0

/-- A sequence of `zip_buffer` calls `(buffer, length, flush)` on one link, each
on the state the call before it left.  For every call made: the accumulation
length right after the append, and the outcome.  The sequence ends with the
first call that is fatal or dereferences a null pointer. -/
def zip_calls (Z : Zlib) (C : Config) (w : World) (cptr : aClient) :
    List (Option Mem × Int × Int) → List (Int × Outcome)
  | [] => []
  | (buffer, length, flush) :: rest =>
    match cptr.zip, zip_buffer Z C w cptr buffer length flush with
    | some zip, some o =>
      ((zip_append zip buffer length).outcount, o) ::
        (if o.length = -1 then [] else zip_calls Z C o.world o.cptr rest)
    | _, _ => []

/-- The bound on one call of a sequence: at most `ZIP_MAXIMUM` bytes are
accumulated after the append, and a call that is not fatal returns with fewer
than `ZIP_MAXIMUM - BUFSIZE` bytes accumulated, or none. -/
def within_burst (C : Config) (p : Int × Outcome) : Bool :=
  p.1 ≤ (C.ZIP_MAXIMUM : Int) ∧
    (p.2.length = -1 ∨ outcountOf p.2.cptr < (C.ZIP_MAXIMUM : Int) - BUFSIZE ∨
      outcountOf p.2.cptr = 0)

/-! ## The streaming round trip -/

/-- The bytes a `zip_buffer` call hands back: `*length` bytes of the compressed
scratch buffer when the call returned it, nothing otherwise. -/
def emitted (o : Outcome) : List Nat :=
  match o.ret with
  | RetPtr.zipbuf => readBytes o.world.zipbuf 0 o.length.toNat
  | _ => []

/-- The bytes an `unzip_packet` call on the chunk `p` hands back: `*length` bytes
of the decompressed scratch buffer when the call returned it, of the chunk when
the call returned the chunk, nothing otherwise. -/
def delivered (p : List Nat) (o : Outcome) : List Nat :=
  match o.ret with
  | RetPtr.unzipbuf => readBytes o.world.unzipbuf 0 o.length.toNat
  | RetPtr.buffer => readBytes (cstr p) 0 o.length.toNat
  | _ => []

/-- The outcomes of a sequence of `zip_buffer` calls `(chunk, flush)` on a
sending link, each call on the state the call before it left. -/
def zip_outcomes (Z : Zlib) (C : Config) (w : World) (cptr : aClient) :
    List (List Nat × Int) → List Outcome
  | [] => []
  | (x, flush) :: rest =>
    match zip_buffer Z C w cptr (some (cstr x)) x.length flush with
    | none => []
    | some o => o :: zip_outcomes Z C o.world o.cptr rest

/-- The outcomes of a sequence of `unzip_packet` calls on a receiving link, one
for each chunk read, each call on the state the call before it left. -/
def unzip_outcomes (Z : Zlib) (C : Config) (w : World) (cptr : aClient) :
    List (List Nat) → List (List Nat × Outcome)
  | [] => []
  | p :: rest =>
    match unzip_packet Z C w cptr (cstr p) p.length with
    | none => []
    | some o => (p, o) :: unzip_outcomes Z C o.world o.cptr rest

/-- Everything a sending link emitted over a sequence of calls. -/
def zip_stream (Z : Zlib) (C : Config) (w : World) (cptr : aClient)
    (calls : List (List Nat × Int)) : List Nat :=
  ((zip_outcomes Z C w cptr calls).map emitted).flatten

/-- Everything a receiving link delivered over a sequence of reads. -/
def unzip_stream (Z : Zlib) (C : Config) (w : World) (cptr : aClient)
    (pieces : List (List Nat)) : List Nat :=
  ((unzip_outcomes Z C w cptr pieces).map (fun po => delivered po.1 po.2)).flatten

/-- The link `zip_init` sets up from `cptr`. -/
def linkInit (Z : Zlib) (C : Config) (cptr : aClient) : aClient :=
  (zip_init Z C zipFresh z0 z0 w0 cptr).2.1

/-! ## A run-length codec

A second lossless codec with the interface of zlib, one that compresses: the
stream is the byte 120 followed by pairs `count, byte` with `count` from 1 to
255, each standing for `count` copies of `byte`.  The private state of the
decompressor is `[]` before the leading byte, `[0]` between pairs, `[1, c]` after
a count `c`, and `[2, c, b]` while `c` copies of `b` wait for output space. -/

/-- The pairs for a block of plain bytes. -/
def rle_encode : List Nat → List Nat
  | [] => []
  | b :: rest =>
    match rle_encode rest with
    | c :: b2 :: toks =>
      if b = b2 ∧ c < 255 then (c + 1) :: b2 :: toks else 1 :: b :: c :: b2 :: toks
    | _ => [1, b]

/-- Compression of the run-length codec. -/
def rle_deflate (st input : List Nat) (room : Nat) (_flush : Int) : ZCall :=
  let out := if st = [] then 120 :: rle_encode input else rle_encode input
  if out.length ≤ room ∧ out ≠ [] then
    { ret := Z_OK, consumed := input.length, produced := out, msg := none, state := [1] }
  else
    { ret := Z_BUF_ERROR, consumed := 0, produced := [], msg := none, state := st }

/-- One more input byte taken in front of what `r` reports. -/
def rle_took (r : ZCall) : ZCall := { r with consumed := r.consumed + 1 }

/-- The run-length decompressor on input, from a state with no output
waiting. -/
def rle_feed : List Nat → List Nat → Nat → ZCall
  | st, [], _ => { ret := Z_OK, consumed := 0, produced := [], msg := none, state := st }
  | st, x :: rest, room =>
    match st with
    | [] =>
      if x = 120 then rle_took (rle_feed [0] rest room)
      else { ret := Z_DATA_ERROR, consumed := 0, produced := [],
             msg := some "incorrect header check", state := [] }
    | [1, c] =>
      if c ≤ room then
        let r := rle_feed [0] rest (room - c)
        { r with consumed := r.consumed + 1, produced := List.replicate c x ++ r.produced }
      else
        { ret := Z_OK, consumed := 1, produced := List.replicate room x, msg := none,
          state := [2, c - room, x] }
    | _ =>
      if x = 0 then
        { ret := Z_DATA_ERROR, consumed := 0, produced := [],
          msg := some "invalid run length", state := st }
      else rle_took (rle_feed [1, x] rest room)

/-- Decompression of the run-length codec: output that was waiting goes first;
a call that neither takes input nor writes output reports `Z_BUF_ERROR`. -/
def rle_inflate (st input : List Nat) (room : Nat) (_flush : Int) : ZCall :=
  let r :=
    match st with
    | [2, c, b] =>
      if c ≤ room then
        let r := rle_feed [0] input (room - c)
        { r with produced := List.replicate c b ++ r.produced }
      else
        { ret := Z_OK, consumed := 0, produced := List.replicate room b, msg := none,
          state := [2, c - room, b] }
    | _ => rle_feed st input room
  if r.ret = Z_OK ∧ r.consumed = 0 ∧ r.produced = [] then { r with ret := Z_BUF_ERROR } else r

/-- The run-length codec. -/
def rle : Zlib where
  inflateInit := { ret := Z_OK, msg := none, state := [] }
  deflateInit := fun _ => { ret := Z_OK, msg := none, state := [] }
  inflate := rle_inflate
  deflate := rle_deflate

/-- The pairs for `255 * q` copies of `b`. -/
def runs (q b : Nat) : List Nat := (List.replicate q [255, b]).flatten

/-- What the round trip asks of zlib.  `R sd si flight owed` relates the private
states of a compressor and of the decompressor at the other end to the
compressed bytes `flight` still on their way and the plain bytes `owed` that
the decompressor has yet to write.

/-! ## What the round trip asks of zlib -/

* `init`: two fresh streams are related, with nothing on the way.
* `send`: a `deflate` pass with partial flush that returns `Z_OK` and leaves
  output space has taken all its input; what it wrote joins the bytes on the
  way, what it took joins the bytes owed.
* `recv`: an `inflate` pass that returns `Z_OK` and leaves output space has
  taken all its input, and what it wrote is the front of the bytes owed.
* `done`: with nothing on the way, nothing is owed. -/
structure Lossless (Z : Zlib) (R : List Nat → List Nat → List Nat → List Nat → Prop) :
    Prop where
  init : ∀ level : Int, Z.inflateInit.ret = Z_OK → (Z.deflateInit level).ret = Z_OK →
    R (Z.deflateInit level).state Z.inflateInit.state [] []
  send : ∀ (sd si flight owed x : List Nat) (room : Nat), R sd si flight owed →
    (Z.deflate sd x room Z_PARTIAL_FLUSH).ret = Z_OK →
    (Z.deflate sd x room Z_PARTIAL_FLUSH).produced.length < room →
    x.length ≤ (Z.deflate sd x room Z_PARTIAL_FLUSH).consumed ∧
    R (Z.deflate sd x room Z_PARTIAL_FLUSH).state si
      (flight ++ (Z.deflate sd x room Z_PARTIAL_FLUSH).produced) (owed ++ x)
  recv : ∀ (sd si a b owed : List Nat) (room : Nat), R sd si (a ++ b) owed →
    (Z.inflate si a room Z_PARTIAL_FLUSH).ret = Z_OK →
    (Z.inflate si a room Z_PARTIAL_FLUSH).produced.length < room →
    a.length ≤ (Z.inflate si a room Z_PARTIAL_FLUSH).consumed ∧
    ∃ rest, owed = (Z.inflate si a room Z_PARTIAL_FLUSH).produced ++ rest ∧
      R sd (Z.inflate si a room Z_PARTIAL_FLUSH).state b rest
  done : ∀ (sd si owed : List Nat), R sd si [] owed → owed = []

/-- The relation of `Lossless` for the store-only codec. -/
def stored_sync (sd si flight owed : List Nat) : Prop :=
  (si = [] ∧ sd = [] ∧ flight = [] ∧ owed = []) ∨
  (si = [] ∧ sd ≠ [] ∧ flight = 120 :: owed) ∨
  (si ≠ [] ∧ sd ≠ [] ∧ flight = owed)

/-- A `zip_buffer` call that is not fatal and leaves compressed scratch space. -/
def zip_ok (C : Config) (o : Outcome) : Bool :=
  o.length ≠ -1 ∧ o.length < (ZIP_BUFFER_SIZE C : Int)

/-- An `unzip_packet` call that returns decompressed data and leaves
decompressed scratch space. -/
def unzip_ok (C : Config) (po : List Nat × Outcome) : Bool :=
  po.2.ret = RetPtr.unzipbuf ∧ po.2.length < (UNZIP_BUFFER_SIZE C : Int)

/-- The last call of a sending sequence has the flush flag set. -/
def ends_with_flush : List (List Nat × Int) → Bool
  | [] => false
  | [c] => c.2 != 0
  | _ :: c :: rest => ends_with_flush (c :: rest)

/-! ## `zip_free` -/

/-- The function `zip_free`.  `MyFree(x)` is `if ((x)) free((x))`; what is freed is
no longer reachable from the link, whose `zip` is set to null. -/
def zip_free (C : Config) (w : World) (cptr : aClient) : World × aClient :=
  let cptr := { cptr with flags2 := clearBits cptr.flags2 C.FLAGS2_ZIP }
  match cptr.zip with
  | none => (w, cptr)
  | some zip =>
    let w :=
      match zip.in_ with
      | some _ => { w with trace := w.trace ++ [Event.inflateEnd] }
      | none => w
    let w :=
      match zip.out with
      | some _ => { w with trace := w.trace ++ [Event.deflateEnd] }
      | none => w
    (w, { cptr with zip := none })

/-- The number of `inflateEnd` calls recorded in a trace. -/
def inflateEnd_calls : List Event → Nat
  | [] => 0
  | Event.inflateEnd :: rest => inflateEnd_calls rest + 1
  | _ :: rest => inflateEnd_calls rest

/-- The number of `deflateEnd` calls recorded in a trace. -/
def deflateEnd_calls : List Event → Nat
  | [] => 0
  | Event.deflateEnd :: rest => deflateEnd_calls rest + 1
  | _ :: rest => deflateEnd_calls rest

/-- The link has an inbound stream: `cptr->zip` and `cptr->zip->in` are not
null. -/
def has_in (cptr : aClient) : Bool :=
  match cptr.zip with
  | some zip => zip.in_.isSome
  | none => false

/-- The link has an outbound stream: `cptr->zip` and `cptr->zip->out` are not
null. -/
def has_out (cptr : aClient) : Bool :=
  match cptr.zip with
  | some zip => zip.out.isSome
  | none => false

/-- A stand-in for zlib whose every call reports `c`. -/
def scripted (c : ZCall) : Zlib where
  inflateInit := { ret := Z_OK, msg := none, state := [] }
  deflateInit := fun _ => { ret := Z_OK, msg := none, state := [] }
  inflate := fun _ _ _ _ => c
  deflate := fun _ _ _ _ => c

/-- A call that reports the end of the stream and does nothing else. -/
def streamEnd : ZCall :=
  { ret := Z_STREAM_END, consumed := 0, produced := [], msg := none, state := [] }

/-- A call that reports malformed data and does nothing else. -/
def dataError : ZCall :=
  { ret := Z_DATA_ERROR, consumed := 0, produced := [], msg := none, state := [] }

/-! ## The shared scratch buffers -/

end S_zip

/-! # `include/s_crypt.h` -/

namespace S_crypt

/-- The return value `CRYPT_OK`. -/
def CRYPT_OK : Int := 0
/-- The return value `CRYPT_BADPARAM`. -/
def CRYPT_BADPARAM : Int := 1
/-- The return value `CRYPT_ENCRYPTED`. -/
def CRYPT_ENCRYPTED : Int := 2
/-- The return value `CRYPT_DECRYPTED`. -/
def CRYPT_DECRYPTED : Int := 3
/-- The return value `CRYPT_NOT_ENCRYPTED`. -/
def CRYPT_NOT_ENCRYPTED : Int := 4
/-- The return value `CRYPT_NOT_DECRYPTED`. -/
def CRYPT_NOT_DECRYPTED : Int := 5
/-- The return value `CRYPT_ERROR`. -/
def CRYPT_ERROR : Int := 6

/-- The state flag `CRYPTFLAG_ENCRYPT`. -/
def CRYPTFLAG_ENCRYPT : Nat := 1
/-- The state flag `CRYPTFLAG_DECRYPT`. -/
def CRYPTFLAG_DECRYPT : Nat := 2

/-- Modelled from the spec: setting a state flag, `flags |= f` on the bit
pattern of `CryptData.flags`. The code that sets the flags is in `s_crypt.c`,
which is not among the sources. -/
def setFlag (flags f : Nat) : Nat := flags ||| f

/-- Modelled from the spec: clearing a state flag, `flags &= ~f`. -/
def clearFlag (flags f : Nat) : Nat := Nat.ldiff flags f

/-- Modelled from the spec: the test of a state flag, `flags & f`. -/
def testFlag (flags f : Nat) : Bool := decide (flags &&& f ≠ 0)

end S_crypt

/-! # `src/match.c` -/

namespace Match

/-! ## Character tables -/

/-- The table `ToLowerTab`, entry by entry in source order (character literals written as their codes). -/
def ToLowerTab : List Nat := [
  0, 1, 2, 3, 4, 5, 6, 7, 8, 9, 10, 11, 12, 13, 14, 15,
  16, 17, 18, 19, 20, 21, 22, 23, 24, 25, 26, 27, 28, 29, 30, 31,
  32, 33, 34, 35, 36, 37, 38, 39, 40, 41, 42, 43, 44, 45, 46, 47,
  48, 49, 50, 51, 52, 53, 54, 55, 56, 57, 58, 59, 60, 61, 62, 63,
  64, 97, 98, 99, 100, 101, 102, 103, 104, 105, 106, 107, 108, 109, 110, 111,
  112, 113, 114, 115, 116, 117, 118, 119, 120, 121, 122, 123, 124, 125, 126, 95,
  96, 97, 98, 99, 100, 101, 102, 103, 104, 105, 106, 107, 108, 109, 110, 111,
  112, 113, 114, 115, 116, 117, 118, 119, 120, 121, 122, 123, 124, 125, 126, 127,
  128, 129, 130, 131, 132, 133, 134, 135, 136, 137, 138, 139, 140, 141, 142, 143,
  144, 145, 146, 147, 148, 149, 150, 151, 152, 153, 154, 155, 156, 157, 158, 159,
  160, 161, 162, 163, 164, 165, 166, 167, 168, 169, 170, 171, 172, 173, 174, 175,
  176, 177, 178, 179, 180, 181, 182, 183, 184, 185, 186, 187, 188, 189, 190, 191,
  192, 193, 194, 195, 196, 197, 198, 199, 200, 201, 202, 203, 204, 205, 206, 207,
  208, 209, 210, 211, 212, 213, 214, 215, 216, 217, 218, 219, 220, 221, 222, 223,
  224, 225, 226, 227, 228, 229, 230, 231, 232, 233, 234, 235, 236, 237, 238, 239,
  240, 241, 242, 243, 244, 245, 246, 247, 248, 249, 250, 251, 252, 253, 254, 255]

/-- The table `ToUpperTab`, entry by entry in source order (character literals written as their codes). -/
def ToUpperTab : List Nat := [
  0, 1, 2, 3, 4, 5, 6, 7, 8, 9, 10, 11, 12, 13, 14, 15,
  16, 17, 18, 19, 20, 21, 22, 23, 24, 25, 26, 27, 28, 29, 30, 31,
  32, 33, 34, 35, 36, 37, 38, 39, 40, 41, 42, 43, 44, 45, 46, 47,
  48, 49, 50, 51, 52, 53, 54, 55, 56, 57, 58, 59, 60, 61, 62, 63,
  64, 65, 66, 67, 68, 69, 70, 71, 72, 73, 74, 75, 76, 77, 78, 79,
  80, 81, 82, 83, 84, 85, 86, 87, 88, 89, 90, 91, 92, 93, 94, 95,
  96, 65, 66, 67, 68, 69, 70, 71, 72, 73, 74, 75, 76, 77, 78, 79,
  80, 81, 82, 83, 84, 85, 86, 87, 88, 89, 90, 91, 92, 93, 94, 127,
  128, 129, 130, 131, 132, 133, 134, 135, 136, 137, 138, 139, 140, 141, 142, 143,
  144, 145, 146, 147, 148, 149, 150, 151, 152, 153, 154, 155, 156, 157, 158, 159,
  160, 161, 162, 163, 164, 165, 166, 167, 168, 169, 170, 171, 172, 173, 174, 175,
  176, 177, 178, 179, 180, 181, 182, 183, 184, 185, 186, 187, 188, 189, 190, 191,
  192, 193, 194, 195, 196, 197, 198, 199, 200, 201, 202, 203, 204, 205, 206, 207,
  208, 209, 210, 211, 212, 213, 214, 215, 216, 217, 218, 219, 220, 221, 222, 223,
  224, 225, 226, 227, 228, 229, 230, 231, 232, 233, 234, 235, 236, 237, 238, 239,
  240, 241, 242, 243, 244, 245, 246, 247, 248, 249, 250, 251, 252, 253, 254, 255]

/-- Modelled from the spec: the macro `ToLower` of `irc_string.h`, the lookup
of the byte in `ToLowerTab`. -/
def ToLower (c : Nat) : Nat := ToLowerTab.getD (c % 256) 0

/-- Modelled from the spec: the macro `ToUpper` of `irc_string.h`, the lookup
of the byte in `ToUpperTab`. -/
def ToUpper (c : Nat) : Nat := ToUpperTab.getD (c % 256) 0

/-- Modelled from the spec: the attribute flags that `CharAttrs` combines.
Their values are in `irc_string.h`; each is taken as a bit of its own. -/
inductive Attr
  | CNTRL_C | SPACE_C | PRINT_C | NICK_C | DIGIT_C | ALPHA_C
  deriving DecidableEq, Repr

/-- The table `CharAttrs`, entry by entry in source order; an entry is the list
of the flags or-ed together, `0` being the empty list. -/
def CharAttrs : List (List Attr) := [
  [Attr.CNTRL_C], [Attr.CNTRL_C], [Attr.CNTRL_C], [Attr.CNTRL_C],
  [Attr.CNTRL_C], [Attr.CNTRL_C], [Attr.CNTRL_C], [Attr.CNTRL_C],
  [Attr.CNTRL_C], [Attr.CNTRL_C, Attr.SPACE_C], [Attr.CNTRL_C, Attr.SPACE_C], [Attr.CNTRL_C, Attr.SPACE_C],
  [Attr.CNTRL_C, Attr.SPACE_C], [Attr.CNTRL_C, Attr.SPACE_C], [Attr.CNTRL_C], [Attr.CNTRL_C],
  [Attr.CNTRL_C], [Attr.CNTRL_C], [Attr.CNTRL_C], [Attr.CNTRL_C],
  [Attr.CNTRL_C], [Attr.CNTRL_C], [Attr.CNTRL_C], [Attr.CNTRL_C],
  [Attr.CNTRL_C], [Attr.CNTRL_C], [Attr.CNTRL_C], [Attr.CNTRL_C],
  [Attr.CNTRL_C], [Attr.CNTRL_C], [Attr.CNTRL_C], [Attr.CNTRL_C],
  [Attr.PRINT_C, Attr.SPACE_C], [Attr.PRINT_C], [Attr.PRINT_C], [Attr.PRINT_C],
  [Attr.PRINT_C], [Attr.PRINT_C], [Attr.PRINT_C], [Attr.PRINT_C],
  [Attr.PRINT_C], [Attr.PRINT_C], [Attr.PRINT_C], [Attr.PRINT_C],
  [Attr.PRINT_C], [Attr.PRINT_C, Attr.NICK_C], [Attr.PRINT_C], [Attr.PRINT_C],
  [Attr.PRINT_C, Attr.DIGIT_C, Attr.NICK_C], [Attr.PRINT_C, Attr.DIGIT_C, Attr.NICK_C], [Attr.PRINT_C, Attr.DIGIT_C, Attr.NICK_C], [Attr.PRINT_C, Attr.DIGIT_C, Attr.NICK_C],
  [Attr.PRINT_C, Attr.DIGIT_C, Attr.NICK_C], [Attr.PRINT_C, Attr.DIGIT_C, Attr.NICK_C], [Attr.PRINT_C, Attr.DIGIT_C, Attr.NICK_C], [Attr.PRINT_C, Attr.DIGIT_C, Attr.NICK_C],
  [Attr.PRINT_C, Attr.DIGIT_C, Attr.NICK_C], [Attr.PRINT_C, Attr.DIGIT_C, Attr.NICK_C], [Attr.PRINT_C], [Attr.PRINT_C],
  [Attr.PRINT_C], [Attr.PRINT_C], [Attr.PRINT_C], [Attr.PRINT_C],
  [Attr.PRINT_C], [Attr.PRINT_C], [Attr.PRINT_C, Attr.ALPHA_C, Attr.NICK_C], [Attr.PRINT_C, Attr.ALPHA_C, Attr.NICK_C],
  [Attr.PRINT_C, Attr.ALPHA_C, Attr.NICK_C], [Attr.PRINT_C, Attr.ALPHA_C, Attr.NICK_C], [Attr.PRINT_C, Attr.ALPHA_C, Attr.NICK_C], [Attr.PRINT_C, Attr.ALPHA_C, Attr.NICK_C],
  [Attr.PRINT_C, Attr.ALPHA_C, Attr.NICK_C], [Attr.PRINT_C, Attr.ALPHA_C, Attr.NICK_C], [Attr.PRINT_C, Attr.ALPHA_C, Attr.NICK_C], [Attr.PRINT_C, Attr.ALPHA_C, Attr.NICK_C],
  [Attr.PRINT_C, Attr.ALPHA_C, Attr.NICK_C], [Attr.PRINT_C, Attr.ALPHA_C, Attr.NICK_C], [Attr.PRINT_C, Attr.ALPHA_C, Attr.NICK_C], [Attr.PRINT_C, Attr.ALPHA_C, Attr.NICK_C],
  [Attr.PRINT_C, Attr.ALPHA_C, Attr.NICK_C], [Attr.PRINT_C, Attr.ALPHA_C, Attr.NICK_C], [Attr.PRINT_C, Attr.ALPHA_C, Attr.NICK_C], [Attr.PRINT_C, Attr.ALPHA_C, Attr.NICK_C],
  [Attr.PRINT_C, Attr.ALPHA_C, Attr.NICK_C], [Attr.PRINT_C, Attr.ALPHA_C, Attr.NICK_C], [Attr.PRINT_C, Attr.ALPHA_C, Attr.NICK_C], [Attr.PRINT_C, Attr.ALPHA_C, Attr.NICK_C],
  [Attr.PRINT_C, Attr.ALPHA_C, Attr.NICK_C], [Attr.PRINT_C, Attr.ALPHA_C, Attr.NICK_C], [Attr.PRINT_C, Attr.ALPHA_C, Attr.NICK_C], [Attr.PRINT_C, Attr.ALPHA_C, Attr.NICK_C],
  [Attr.PRINT_C, Attr.ALPHA_C, Attr.NICK_C], [Attr.PRINT_C, Attr.ALPHA_C, Attr.NICK_C], [Attr.PRINT_C, Attr.ALPHA_C, Attr.NICK_C], [Attr.PRINT_C, Attr.ALPHA_C, Attr.NICK_C],
  [Attr.PRINT_C, Attr.NICK_C], [Attr.PRINT_C, Attr.ALPHA_C, Attr.NICK_C], [Attr.PRINT_C, Attr.ALPHA_C, Attr.NICK_C], [Attr.PRINT_C, Attr.ALPHA_C, Attr.NICK_C],
  [Attr.PRINT_C, Attr.ALPHA_C, Attr.NICK_C], [Attr.PRINT_C, Attr.ALPHA_C, Attr.NICK_C], [Attr.PRINT_C, Attr.ALPHA_C, Attr.NICK_C], [Attr.PRINT_C, Attr.ALPHA_C, Attr.NICK_C],
  [Attr.PRINT_C, Attr.ALPHA_C, Attr.NICK_C], [Attr.PRINT_C, Attr.ALPHA_C, Attr.NICK_C], [Attr.PRINT_C, Attr.ALPHA_C, Attr.NICK_C], [Attr.PRINT_C, Attr.ALPHA_C, Attr.NICK_C],
  [Attr.PRINT_C, Attr.ALPHA_C, Attr.NICK_C], [Attr.PRINT_C, Attr.ALPHA_C, Attr.NICK_C], [Attr.PRINT_C, Attr.ALPHA_C, Attr.NICK_C], [Attr.PRINT_C, Attr.ALPHA_C, Attr.NICK_C],
  [Attr.PRINT_C, Attr.ALPHA_C, Attr.NICK_C], [Attr.PRINT_C, Attr.ALPHA_C, Attr.NICK_C], [Attr.PRINT_C, Attr.ALPHA_C, Attr.NICK_C], [Attr.PRINT_C, Attr.ALPHA_C, Attr.NICK_C],
  [Attr.PRINT_C, Attr.ALPHA_C, Attr.NICK_C], [Attr.PRINT_C, Attr.ALPHA_C, Attr.NICK_C], [Attr.PRINT_C, Attr.ALPHA_C, Attr.NICK_C], [Attr.PRINT_C, Attr.ALPHA_C, Attr.NICK_C],
  [Attr.PRINT_C, Attr.ALPHA_C, Attr.NICK_C], [Attr.PRINT_C, Attr.ALPHA_C, Attr.NICK_C], [Attr.PRINT_C, Attr.ALPHA_C, Attr.NICK_C], [Attr.PRINT_C, Attr.ALPHA_C, Attr.NICK_C],
  [Attr.PRINT_C, Attr.ALPHA_C, Attr.NICK_C], [Attr.PRINT_C, Attr.ALPHA_C, Attr.NICK_C], [Attr.PRINT_C, Attr.ALPHA_C, Attr.NICK_C], [],
  [], [], [], [],
  [], [], [], [],
  [], [], [], [],
  [], [], [], [],
  [], [], [], [],
  [], [], [], [],
  [], [], [], [],
  [], [], [], [],
  [], [], [], [],
  [], [], [], [],
  [], [], [], [],
  [], [], [], [],
  [], [], [], [],
  [], [], [], [],
  [], [], [], [],
  [], [], [], [],
  [], [], [], [],
  [], [], [], [],
  [], [], [], [],
  [], [], [], [],
  [], [], [], [],
  [], [], [], [],
  [], [], [], [],
  [], [], [], [],
  [], [], [], [],
  [], [], [], [],
  [], [], [], [],
  [], [], [], [],
  [], [], [], [],
  [], [], [], [],
  [], [], [], [],
  [], [], [], []]

/-- The entry `CharAttrs[c]` has flag `a` set. -/
def hasAttr (c : Nat) (a : Attr) : Bool := decide (a ∈ CharAttrs.getD c [])

/-- The entry the row labels of `CharAttrs` give to character code `c`
(the labels name the codes 0 to 127 except 96, and 128 to 255). -/
def labelled (c : Nat) : List Attr :=
  if c < 9 then [Attr.CNTRL_C]
  else if c < 14 then [Attr.CNTRL_C, Attr.SPACE_C]
  else if c < 32 then [Attr.CNTRL_C]
  else if c = 32 then [Attr.PRINT_C, Attr.SPACE_C]
  else if c = 45 then [Attr.PRINT_C, Attr.NICK_C]
  else if c < 48 then [Attr.PRINT_C]
  else if c < 58 then [Attr.PRINT_C, Attr.DIGIT_C, Attr.NICK_C]
  else if c < 65 then [Attr.PRINT_C]
  else if c < 95 then [Attr.PRINT_C, Attr.ALPHA_C, Attr.NICK_C]
  else if c = 95 then [Attr.PRINT_C, Attr.NICK_C]
  else if c = 96 then []
  else if c < 127 then [Attr.PRINT_C, Attr.ALPHA_C, Attr.NICK_C]
  else []

/-! ## Strings -/

/-- A C string as the list of its bytes before the terminating NUL: every byte
is an `unsigned char` other than 0. -/
def isStr (s : List Nat) : Bool := s.all (fun c => decide (0 < c) && decide (c < 256))

/-! ## `irccmp` -/

/-- The function `irccmp`. The arguments are the bytes from `str1` and `str2`
up to the terminator; `*str` is the head, 0 at the terminator, and `str++`
drops the head. -/
def irccmp : List Nat → List Nat → Int
  | [], str2 =>
    let res : Int := (ToUpper 0 : Int) - (ToUpper (str2.headD 0) : Int)
    if res = 0 then 0 else res
  | c :: str1, str2 =>
    let res : Int := (ToUpper c : Int) - (ToUpper (str2.headD 0) : Int)
    if res = 0 then (if c = 0 then 0 else irccmp str1 str2.tail) else res

/-- Lexicographic order on byte strings: the first differing position decides,
and a proper prefix is less. -/
def lexLt : List Nat → List Nat → Bool
  | _, [] => false
  | [], _ :: _ => true
  | a :: s, b :: t => decide (a < b) || (decide (a = b) && lexLt s t)

/-- The string with every byte folded by `ToUpper`. -/
def upper (s : List Nat) : List Nat := s.map ToUpper

/-! ## `collapse` -/

/-- The inner loop `while ('*' == *t) ++t;` of `collapse` on the string `buf`:
the index `t` after the loop. A read at the end of the string gives the
terminator 0. -/
def skipStars (buf : List Nat) : Nat → Nat → Nat
  | 0, t => t
  | fuel + 1, t => if buf.getD t 0 = 42 then skipStars buf fuel (t + 1) else t

/-- The copy loop `while ((*s1++ = *t++));` of `collapse` on the string `buf`:
each round stores the byte at `t` at `s1`; storing the terminator ends the
loop, and the string then ends at `s1`. -/
def copyDown : Nat → List Nat → Nat → Nat → List Nat
  | 0, buf, _, _ => buf
  | fuel + 1, buf, s1, t =>
    let v := buf.getD t 0
    if v = 0 then buf.take s1
    else copyDown fuel (buf.set s1 v) (s1 + 1) (t + 1)

/-- The loop `for (; *s; s++)` of `collapse` from index `s` on. -/
def collapseLoop : Nat → List Nat → Nat → List Nat
  | 0, buf, _ => buf
  | fuel + 1, buf, s =>
    if buf.getD s 0 = 0 then buf
    else if 42 = buf.getD s 0 then
      let s1 := s + 1
      let t := skipStars buf buf.length s1
      let buf := if s1 ≠ t then copyDown (buf.length + 1) buf s1 t else buf
      collapseLoop fuel buf (s + 1)
    else collapseLoop fuel buf (s + 1)

/-- The function `collapse`: `none` is the null pointer, `some pattern` a
pointer to the string `pattern`, which is rewritten in place; the result is
the pointer passed in, here with the string it then points to. -/
def collapse : Option (List Nat) → Option (List Nat)
  | none => none
  | some pattern => some (collapseLoop (pattern.length + 1) pattern 0)

/-- The pattern with each maximal run of `'*'` replaced by one `'*'`: a `'*'`
that is followed by another `'*'` is dropped, every other byte is kept. -/
def squeezeStars : List Nat → List Nat
  | [] => []
  | c :: r => if c = 42 ∧ r.head? = some 42 then squeezeStars r else c :: squeezeStars r

/-- No two adjacent bytes of the string are both `'*'`. -/
def noAdjacentStars : List Nat → Bool
  | [] => true
  | c :: r => !(decide (c = 42) && decide (r.head? = some 42)) && noAdjacentStars r

/-! ## `match` -/

/-- The constant `MATCH_MAX_CALLS`. -/
def MATCH_MAX_CALLS : Nat := 512

/-- The local variables of `match` other than `calls`: the pointers `m` and
`ma` as offsets from `mask`, `n` and `na` as offsets from `name`, and `wild`. -/
structure MatchState where
  m : Nat
  n : Nat
  ma : Nat
  na : Nat
  wild : Bool

/-- What one round of the loop of `match` does: `return v`, or go on to the
next round with new values of the variables. -/
inductive MatchStep
  | ret (v : Int)
  | next (s : MatchState)

/-- The byte `*m` for a pointer at offset `i` from the start of the string.
After `m--` the offset can be `-1`; the byte before the string is not part of
the model and reads as 0 (the test `m > mask` that goes with that read fails
whatever the byte is). -/
def byteAt (s : List Nat) (i : Int) : Nat := if i < 0 then 0 else s.getD i.toNat 0

/-- The loop `for (m--; (m > mask) && (*m == '?'); m--) ;` of `match`, started
after the initial `m--`: the offset of `m` when it ends. -/
def backScan (mask : List Nat) : Nat → Int → Int
  | 0, m => m
  | fuel + 1, m => if m > 0 ∧ byteAt mask m = 63 then backScan mask fuel (m - 1) else m

/-- The last statement of the loop body of `match`:
`if (ToLower(*m) != ToLower(*n) && *m != '?') { ... } else { ... }`. -/
def matchCompare (mask name : List Nat) (s : MatchState) : MatchStep :=
  if ToLower (mask.getD s.m 0) ≠ ToLower (name.getD s.n 0) ∧ mask.getD s.m 0 ≠ 63 then
    if !s.wild then MatchStep.ret 0
    else MatchStep.next { s with m := s.ma, n := s.na + 1, na := s.na + 1 }
  else
    let m := if mask.getD s.m 0 ≠ 0 then s.m + 1 else s.m
    let n := if name.getD s.n 0 ≠ 0 then s.n + 1 else s.n
    MatchStep.next { s with m := m, n := n }

/-- The first statement of the loop body of `match`:
`if (*m == '*') { while (*m == '*') m++; wild = 1; ma = m; na = n; }`. -/
def matchStar (mask : List Nat) (s : MatchState) : MatchState :=
  if mask.getD s.m 0 = 42 then
    let m := skipStars mask mask.length s.m
    { s with m := m, wild := true, ma := m, na := s.n }
  else s

/-- One round of the loop of `match`. -/
def matchBody (mask name : List Nat) (s : MatchState) : MatchStep :=
  let s := matchStar mask s
  if mask.getD s.m 0 = 0 then
    if name.getD s.n 0 = 0 then MatchStep.ret 1
    else
      let m := backScan mask mask.length ((s.m : Int) - 1)
      if byteAt mask m = 42 ∧ m > 0 then MatchStep.ret 1
      else if !s.wild then MatchStep.ret 0
      else matchCompare mask name { s with m := s.ma, n := s.na + 1, na := s.na + 1 }
  else if name.getD s.n 0 = 0 then
    let m := skipStars mask mask.length s.m
    MatchStep.ret (if mask.getD m 0 = 0 then 1 else 0)
  else matchCompare mask name s

/-- The loop `while (calls++ < MATCH_MAX_CALLS)` of `match` with `fuel` rounds
left: the value returned from inside the loop, or `none` when the rounds run
out. -/
def matchLoop (mask name : List Nat) : Nat → MatchState → Option Int
  | 0, _ => none
  | fuel + 1, s =>
    match matchBody mask name s with
    | MatchStep.ret v => some v
    | MatchStep.next s => matchLoop mask name fuel s

/-- The values of the variables of `match` before the loop. -/
def matchStart : MatchState := { m := 0, n := 0, ma := 0, na := 0, wild := false }

/-- The function `match` (a keyword here, hence the underscore): at most
`MATCH_MAX_CALLS` rounds of the loop, and `return 0` after it. -/
def match_ (mask name : List Nat) : Int :=
  (matchLoop mask name MATCH_MAX_CALLS matchStart).getD 0

/-- The wildcard semantics: `'*'` matches any number of bytes of the name,
none included, `'?'` matches exactly one byte, and any other mask byte matches
one name byte equal to it under `ToLower`. -/
def wmatch : List Nat → List Nat → Bool
  | [], name => name.isEmpty
  | c :: mask, name =>
    if c = 42 then (List.range (name.length + 1)).any (fun k => wmatch mask (name.drop k))
    else
      match name with
      | [] => false
      | x :: name => (decide (c = 63) || decide (ToLower c = ToLower x)) && wmatch mask name

/-- The loop invariant of `match` for the mask `M` and the name `N`: the
offsets are in range, the mask from `ma` to `m` is free of `'*'` and agrees
byte by byte with the name from `na` to `n`, and the whole match is decided by
the mask from `ma` on: against the name from `na` when no `'*'` has been seen,
against the name from some offset not before `na` when one has. -/
def MatchInv (M N : List Nat) (s : MatchState) : Prop :=
  s.ma ≤ s.m ∧ s.m ≤ M.length ∧ s.n ≤ N.length ∧ s.na + (s.m - s.ma) = s.n ∧
  (∀ k, k < s.m - s.ma → M.getD (s.ma + k) 0 ≠ 42 ∧
    (M.getD (s.ma + k) 0 = 63 ∨
      ToLower (M.getD (s.ma + k) 0) = ToLower (N.getD (s.na + k) 0))) ∧
  (s.wild = false → s.ma = 0 ∧ s.na = 0) ∧
  (wmatch M N = true ↔
    if s.wild = true then
      ∃ p, s.na ≤ p ∧ p ≤ N.length ∧ wmatch (M.drop s.ma) (N.drop p) = true
    else wmatch (M.drop s.ma) (N.drop s.na) = true)

/-- The measure that falls with every round of the loop of `match`. -/
def matchPhi (M N : List Nat) (s : MatchState) : Nat :=
  (N.length - s.na) * (M.length + 1) + (M.length - s.m)

/-- The mask contains neither `'*'` nor `'?'`. -/
def noWild (mask : List Nat) : Bool := mask.all (fun c => decide (c ≠ 42) && decide (c ≠ 63))

end Match

/-! # Theorems -/

namespace S_zip


/-! ## Memory lemmas -/

theorem readBytes_length (m : Mem) (off n : Nat) : (readBytes m off n).length = n := by
  simp [readBytes]

theorem readBytes_zero (m : Mem) (off : Nat) : readBytes m off 0 = [] := by
  simp [readBytes]

theorem readBytes_succ (m : Mem) (off n : Nat) :
    readBytes m off (n + 1) = m off :: readBytes m (off + 1) n := by
  simp only [readBytes, List.range_succ_eq_map, List.map_cons, List.map_map, Nat.add_zero]
  congr 1
  apply List.map_congr_left
  intro i _
  simp only [Function.comp_apply]
  congr 1
  omega

theorem readBytes_add (m : Mem) (off a b : Nat) :
    readBytes m off (a + b) = readBytes m off a ++ readBytes m (off + a) b := by
  induction a generalizing off with
  | zero => simp [readBytes_zero]
  | succ a ih =>
    have h : a + 1 + b = (a + b) + 1 := by omega
    rw [h, readBytes_succ, readBytes_succ, ih]
    simp only [List.cons_append]
    congr 3
    omega

theorem readBytes_congr (m m2 : Mem) (off off2 n : Nat)
    (h : ∀ i, i < n → m (off + i) = m2 (off2 + i)) :
    readBytes m off n = readBytes m2 off2 n := by
  simp only [readBytes]
  apply List.map_congr_left
  intro i hi
  exact h i (List.mem_range.mp hi)

theorem readBytes_getD (m : Mem) (off n i : Nat) (h : i < n) :
    (readBytes m off n).getD i 0 = m (off + i) := by
  simp [readBytes, List.getD_eq_getElem?_getD, List.getElem?_map, List.getElem?_range h]

/-- What lies in the compressed scratch buffer once `unzip_packet` has copied
the carry-over and the chunk there: the one followed by the other. -/
theorem readBytes_scratch (inbuf buffer zipbuf : Mem) (a b : Nat) :
    readBytes (bcopy buffer 0 (bcopy inbuf 0 zipbuf 0 a) a b) 0 (a + b)
      = readBytes inbuf 0 a ++ readBytes buffer 0 b := by
  rw [readBytes_add]
  congr 1
  · apply readBytes_congr
    intro i hi
    simp only [bcopy, Nat.zero_add]
    rw [if_neg (by omega), if_pos (by omega)]
    simp
  · apply readBytes_congr
    intro i hi
    simp only [bcopy, Nat.zero_add]
    rw [if_pos (by omega)]
    congr 1
    omega

/-! ## `unzip_packet`: the bytes offered to `inflate` -/

theorem offeredIn_eq (w : World) (zip : aZdata) (buffer : Mem) (length : Int)
    (h0 : 0 ≤ zip.incount) (h1 : 0 ≤ length) :
    offeredIn w zip buffer length = pending zip buffer length := by
  have h : (zip.incount + length).toNat = zip.incount.toNat + length.toNat := by omega
  simp only [offeredIn, pending, scratch, h]
  exact readBytes_scratch _ _ _ _ _

theorem strncmp_eq_zero_iff (n : Nat) (s1 s2 : Mem) (hnz : ∀ i, i < n → s1 i ≠ 0) :
    strncmp s1 s2 n = 0 ↔ ∀ i, i < n → s1 i = s2 i := by
  induction n generalizing s1 s2 with
  | zero => simp [strncmp]
  | succ n ih =>
    unfold strncmp
    by_cases h : s1 0 = s2 0
    · have hz : s1 0 ≠ 0 := hnz 0 (by omega)
      rw [if_neg (by simpa using h), if_neg hz,
        ih (fun i => s1 (i + 1)) (fun i => s2 (i + 1)) (fun i hi => hnz (i + 1) (by omega))]
      constructor
      · intro hall i hi
        cases i with
        | zero => exact h
        | succ i => exact hall i (by omega)
      · intro hall i hi
        exact hall (i + 1) (by omega)
    · rw [if_pos h]
      constructor
      · intro hd
        exfalso
        apply h
        omega
      · intro hall
        exact absurd (hall 0 (by omega)) h

theorem readBytes_six (buffer : Mem) :
    readBytes buffer 0 6
      = [buffer 0, buffer 1, buffer 2, buffer 3, buffer 4, buffer 5] := rfl

theorem strncmp_ERROR (buffer : Mem) :
    strncmp (cstr ERROR_) buffer 6 = 0 ↔ readBytes buffer 0 6 = ERROR_ := by
  rw [strncmp_eq_zero_iff 6 (cstr ERROR_) buffer
    (by intro i hi; interval_cases i <;> simp [cstr, ERROR_]), readBytes_six]
  constructor
  · intro h
    have h0 := h 0 (by omega)
    have h1 := h 1 (by omega)
    have h2 := h 2 (by omega)
    have h3 := h 3 (by omega)
    have h4 := h 4 (by omega)
    have h5 := h 5 (by omega)
    simp only [cstr, ERROR_, List.getD_cons_zero, List.getD_cons_succ] at h0 h1 h2 h3 h4 h5
    simp [ERROR_, ← h0, ← h1, ← h2, ← h3, ← h4, ← h5]
  · intro h i hi
    simp only [ERROR_, List.cons.injEq, and_true] at h
    obtain ⟨h0, h1, h2, h3, h4, h5⟩ := h
    interval_cases i <;> simp [cstr, ERROR_, *]

theorem clearBits_land (x m : Nat) : clearBits x m &&& m = 0 := by
  apply Nat.eq_of_testBit_eq
  intro i
  simp only [clearBits, Nat.testBit_land, Nat.testBit_ldiff, Nat.zero_testBit]
  cases x.testBit i <;> cases m.testBit i <;> rfl

/-! ## Decompression -/

/-- C1 (the code departs from the claim).  A call whose carry-over and chunk
together exceed `ZIP_BUFFER_SIZE` is not rejected: both are copied into the
compressed scratch buffer, `inflate` is invoked on all of them, and when it
returns `Z_OK` the call returns the decompressed buffer with a length that is
not -1. -/
theorem unzip_packet_oversize_not_rejected (Z : Zlib) (C : Config) (w : World)
    (cptr : aClient) (zip : aZdata) (zin : z_stream) (buffer : Mem) (length : Int)
    (hz : cptr.zip = some zip) (hi : zip.in_ = some zin)
    (h0 : 0 ≤ zip.incount) (h1 : 0 ≤ length)
    (hov : (ZIP_BUFFER_SIZE C : Int) < zip.incount + length)
    (hok : (Z.inflate zin.state (pending zip buffer length) (UNZIP_BUFFER_SIZE C)
              Z_PARTIAL_FLUSH).ret = Z_OK) :
    ∃ o, unzip_packet Z C w cptr buffer length = some o ∧
      o.ret = RetPtr.unzipbuf ∧ 0 ≤ o.length ∧
      readBytes o.world.zipbuf 0 (zip.incount + length).toNat = pending zip buffer length ∧
      ZIP_BUFFER_SIZE C < (pending zip buffer length).length ∧
      o.world.trace = w.trace ++
        [Event.inflate (pending zip buffer length) (UNZIP_BUFFER_SIZE C) Z_PARTIAL_FLUSH] := by
  have hp := offeredIn_eq w zip buffer length h0 h1
  simp only [offeredIn, scratch] at hp
  have hlen : ZIP_BUFFER_SIZE C < (pending zip buffer length).length := by
    simp only [pending, List.length_append, readBytes_length]
    omega
  simp only [unzip_packet, hz, hi, inflate, zstep, offered, ite_self, hp, hok]
  simp [hlen, hp]

/-- C1, on a concrete input: a full carry-over of 8192 bytes and a chunk of
16385 bytes, one byte more than the scratch buffer holds. -/
theorem unzip_packet_oversize_not_rejected_witness :
    ∃ o, unzip_packet stored cfg w0 linkFull mem0 16385 = some o ∧
      o.ret = RetPtr.unzipbuf ∧ 0 ≤ o.length ∧
      readBytes o.world.zipbuf 0 ((8192 : Int) + 16385).toNat = pending zipFull mem0 16385 ∧
      ZIP_BUFFER_SIZE cfg < (pending zipFull mem0 16385).length ∧
      o.world.trace = w0.trace ++
        [Event.inflate (pending zipFull mem0 16385) (UNZIP_BUFFER_SIZE cfg) Z_PARTIAL_FLUSH] :=
  unzip_packet_oversize_not_rejected stored cfg w0 linkFull zipFull z0 mem0 16385 rfl rfl
    (by decide) (by decide) (by decide)
    (by
      have h : pending zipFull mem0 16385
          = 120 :: (readBytes (fun _ => 120) 1 8191 ++ readBytes mem0 0 16385) := by
        simp only [pending, zipFull]
        rw [show ((8192 : Int).toNat) = 8191 + 1 from rfl, readBytes_succ]
        rfl
      rw [h]
      rfl)

/-- C2 (the code departs from the claim).  When `inflate` returns `Z_OK` and has
taken every byte offered, the carry-over is not emptied: `incount` and `inbuf`
stay as they were before the call, so a link that came in with a carry-over
keeps it. -/
theorem unzip_packet_keeps_stale_carry (Z : Zlib) (C : Config) (w : World)
    (cptr : aClient) (zip : aZdata) (zin : z_stream) (buffer : Mem) (length : Int)
    (hz : cptr.zip = some zip) (hi : zip.in_ = some zin)
    (hcarry : 0 < zip.incount)
    (hok : (inflateCall Z C w zip zin buffer length).ret = Z_OK)
    (hall : (zip.incount + length).toNat ≤ (inflateCall Z C w zip zin buffer length).consumed) :
    ∃ o zip2, unzip_packet Z C w cptr buffer length = some o ∧
      o.ret = RetPtr.unzipbuf ∧ o.cptr.zip = some zip2 ∧
      zip2.incount = zip.incount ∧ zip2.incount ≠ 0 ∧ zip2.inbuf = zip.inbuf := by
  simp only [inflateCall, offeredIn, scratch] at hok hall
  simp only [unzip_packet, hz, hi, inflate, zstep, offered, ite_self, hok]
  simp only [true_and, if_true, Nat.min_eq_right hall, Nat.sub_self, ne_eq, not_true_eq_false,
    if_false, Option.some.injEq, exists_and_left, exists_eq_left']
  exact ⟨by omega, trivial⟩

/-- C2, on a concrete input: a link in mid-stream with one byte carried over
receives three more bytes and the codec takes all four. -/
theorem unzip_packet_keeps_stale_carry_witness :
    ∃ o zip2, unzip_packet stored cfg w0 linkCarry mem0 3 = some o ∧
      o.ret = RetPtr.unzipbuf ∧ o.cptr.zip = some zip2 ∧
      zip2.incount = zipCarry.incount ∧ zip2.incount ≠ 0 ∧ zip2.inbuf = zipCarry.inbuf :=
  unzip_packet_keeps_stale_carry stored cfg w0 linkCarry zipCarry z1 mem0 3 rfl rfl
    (by decide) (by decide) (by decide)

/-! ## When the compressor runs -/

theorem deflate_calls_append (a b : List Event) :
    deflate_calls (a ++ b) = deflate_calls a + deflate_calls b := by
  induction a with
  | nil => simp [deflate_calls]
  | cons e a ih =>
    cases e <;> simp [deflate_calls, ih]
    omega

theorem zip_defer_eq (C : Config) (cptr : aClient) (n flush : Int) :
    zip_defer C cptr n flush = !compress_now C cptr n flush := by
  simp only [zip_defer, compress_now]
  by_cases hf : flush = 0 <;> by_cases hm : n < (C.ZIP_MINIMUM : Int) <;>
    by_cases hb : CBurst C cptr = true <;>
    by_cases hx : n < (C.ZIP_MAXIMUM : Int) - (BUFSIZE : Int) <;>
    simp [hf, hm, hb, hx, not_le.mpr, not_lt.mp]

/-- C3 as stated fails: with 5000 bytes accumulated, no flush and the link in
its connect burst, the condition of the specification holds (5000 is above the
minimum of 4096) but `zip_buffer` returns no data, length 0, and makes no call
to `deflate`. -/
theorem zip_buffer_defers_in_burst :
    spec_compress_now cfg linkBurst 5000 0 = true ∧
    (zip_buffer stored cfg w0 linkBurst (some mem0) 5000 0).map
        (fun o => (o.ret, o.length, deflate_calls o.world.trace))
      = some (RetPtr.NULL, 0, 0) := by
  constructor
  · decide
  · decide

/-- C3, amended.  Let `n` be the accumulation length after the append.
`zip_buffer` makes exactly one call to `deflate` when `flush` is set, or
`n ≥ ZIP_MINIMUM` and (`n ≥ ZIP_MAXIMUM - BUFSIZE` or the link is not in its
connect burst); otherwise it makes none, leaves the static buffers and the trace
as they were, and returns no data with length 0. -/
theorem zip_buffer_compresses_iff (Z : Zlib) (C : Config) (w : World) (cptr : aClient)
    (zip : aZdata) (zout : z_stream) (buffer : Option Mem) (length flush : Int)
    (hz : cptr.zip = some zip) (ho : zip.out = some zout) :
    ∃ o, zip_buffer Z C w cptr buffer length flush = some o ∧
      if flush ≠ 0 ∨ ((C.ZIP_MINIMUM : Int) ≤ (zip_append zip buffer length).outcount ∧
          ((C.ZIP_MAXIMUM : Int) - BUFSIZE ≤ (zip_append zip buffer length).outcount ∨
            CBurst C cptr = false)) then
        deflate_calls o.world.trace = deflate_calls w.trace + 1
      else
        o.world = w ∧ o.ret = RetPtr.NULL ∧ o.length = 0 := by
  have hout : (zip_append zip buffer length).out = some zout := by
    cases buffer <;> simpa [zip_append] using ho
  have hd := zip_defer_eq C cptr (zip_append zip buffer length).outcount flush
  by_cases hc : compress_now C cptr (zip_append zip buffer length).outcount flush = true
  · have hc2 := hc
    simp only [compress_now, decide_eq_true_eq] at hc2
    refine ⟨zip_compress Z C w cptr (zip_append zip buffer length) zout, ?_, ?_⟩
    · simp [zip_buffer, hz, hd, hc, hout]
    · rw [if_pos hc2]
      simp only [zip_compress, deflate, zstep]
      split
      · split <;> simp [deflate_calls_append, deflate_calls]
      · simp [deflate_calls_append, deflate_calls]
  · have hc2 := hc
    simp only [compress_now, decide_eq_true_eq] at hc2
    simp only [Bool.not_eq_true] at hc
    refine ⟨_, by simp only [zip_buffer, hz, hd, hc]; rfl, ?_⟩
    rw [if_neg hc2]
    exact ⟨rfl, rfl, rfl⟩

/-- C3 amended, on a concrete input: a fresh link, 100 bytes, flush set. -/
theorem zip_buffer_compresses_iff_witness :
    ∃ o, zip_buffer stored cfg w0 linkFresh (some mem0) 100 1 = some o ∧
      if (1 : Int) ≠ 0 ∨ ((cfg.ZIP_MINIMUM : Int) ≤ (zip_append zipFresh (some mem0) 100).outcount ∧
          ((cfg.ZIP_MAXIMUM : Int) - BUFSIZE ≤ (zip_append zipFresh (some mem0) 100).outcount ∨
            CBurst cfg linkFresh = false)) then
        deflate_calls o.world.trace = deflate_calls w0.trace + 1
      else
        o.world = w0 ∧ o.ret = RetPtr.NULL ∧ o.length = 0 :=
  zip_buffer_compresses_iff stored cfg w0 linkFresh zipFresh z0 (some mem0) 100 1 rfl rfl

/-! ## Decompression errors -/

/-- C4 as stated fails: on a fresh link and an empty chunk the store-only codec
returns `Z_BUF_ERROR` with the whole output space unused, and `unzip_packet`
returns no data with the length left at 0, not -1. -/
theorem unzip_packet_buf_error_not_fatal :
    (inflateCall stored cfg w0 zipFresh z0 mem0 0).ret = Z_BUF_ERROR ∧
    spaceLeft (UNZIP_BUFFER_SIZE cfg) (inflateCall stored cfg w0 zipFresh z0 mem0 0)
      = UNZIP_BUFFER_SIZE cfg ∧
    (unzip_packet stored cfg w0 linkFresh mem0 0).map (fun o => (o.ret, o.length))
      = some (RetPtr.NULL, 0) := by
  refine ⟨by decide, by decide, by decide⟩

/-- C4, amended.  When `inflate` returns `Z_BUF_ERROR`, `unzip_packet` returns no
data; it sets the length to -1 when `inflate` left no output space, and leaves
the length as it was passed in when output space remains. -/
theorem unzip_packet_buf_error (Z : Zlib) (C : Config) (w : World)
    (cptr : aClient) (zip : aZdata) (zin : z_stream) (buffer : Mem) (length : Int)
    (hz : cptr.zip = some zip) (hi : zip.in_ = some zin)
    (hbuf : (inflateCall Z C w zip zin buffer length).ret = Z_BUF_ERROR) :
    ∃ o, unzip_packet Z C w cptr buffer length = some o ∧ o.ret = RetPtr.NULL ∧
      o.length =
        if spaceLeft (UNZIP_BUFFER_SIZE C) (inflateCall Z C w zip zin buffer length) = 0
        then -1 else length := by
  simp only [inflateCall, offeredIn, scratch, spaceLeft] at hbuf ⊢
  have hne : ¬ (Z_BUF_ERROR = Z_OK) := by decide
  simp only [unzip_packet, hz, hi, inflate, zstep, offered, ite_self, hbuf, hne, if_false,
    if_true]
  split
  · next h => exact ⟨_, rfl, rfl, by simp [h]⟩
  · next h => exact ⟨_, rfl, rfl, by simp [h]⟩

/-- C4 amended, on a concrete input: a fresh link and an empty chunk. -/
theorem unzip_packet_buf_error_witness :
    ∃ o, unzip_packet stored cfg w0 linkFresh mem0 0 = some o ∧ o.ret = RetPtr.NULL ∧
      o.length =
        if spaceLeft (UNZIP_BUFFER_SIZE cfg) (inflateCall stored cfg w0 zipFresh z0 mem0 0) = 0
        then -1 else 0 :=
  unzip_packet_buf_error stored cfg w0 linkFresh zipFresh z0 mem0 0 rfl rfl (by decide)

/-- What `unzip_packet` does when `inflate` returns `Z_DATA_ERROR`: the test is
on the capability and on the six bytes of memory at `buffer`; the carry-over
of the link stays as it was on both paths. -/
theorem unzip_packet_data_error_cases (Z : Zlib) (C : Config) (w : World)
    (cptr : aClient) (zip : aZdata) (zin : z_stream) (buffer : Mem) (length : Int)
    (hz : cptr.zip = some zip) (hi : zip.in_ = some zin)
    (hde : (inflateCall Z C w zip zin buffer length).ret = Z_DATA_ERROR) :
    ∃ o zip2, unzip_packet Z C w cptr buffer length = some o ∧
      o.cptr.zip = some zip2 ∧ zip2.inbuf = zip.inbuf ∧ zip2.incount = zip.incount ∧
      if cptr.caps &&& C.CAP_ZIP ≠ 0 ∧ readBytes buffer 0 6 = ERROR_ then
        o.ret = RetPtr.buffer ∧ o.length = length ∧
        o.cptr.flags2 = clearBits cptr.flags2 C.FLAGS2_ZIP ∧
        o.cptr.caps = clearBits cptr.caps C.CAP_ZIP ∧
        o.cptr.flags2 &&& C.FLAGS2_ZIP = 0 ∧ o.cptr.caps &&& C.CAP_ZIP = 0
      else
        o.ret = RetPtr.NULL ∧ o.length = -1 ∧
        o.cptr.flags2 = cptr.flags2 ∧ o.cptr.caps = cptr.caps := by
  simp only [inflateCall, offeredIn, scratch] at hde
  have hne1 : ¬ (Z_DATA_ERROR = Z_OK) := by decide
  have hne2 : ¬ (Z_DATA_ERROR = Z_BUF_ERROR) := by decide
  simp only [unzip_packet, hz, hi, inflate, zstep, offered, ite_self, hde, strncmp_ERROR,
    IsCapable, hne1, hne2, if_false, true_and, bne_iff_ne]
  by_cases hc : cptr.caps &&& C.CAP_ZIP ≠ 0 ∧ readBytes buffer 0 6 = ERROR_
  · rw [if_pos hc]
    refine ⟨_, _, rfl, rfl, rfl, rfl, ?_⟩
    rw [if_pos hc]
    exact ⟨rfl, rfl, rfl, rfl, clearBits_land _ _, clearBits_land _ _⟩
  · rw [if_neg hc]
    refine ⟨_, _, rfl, rfl, rfl, rfl, ?_⟩
    rw [if_neg hc]
    exact ⟨rfl, rfl, rfl, rfl⟩

/-- On a link without carry-over and a chunk of at least six bytes, the six
bytes at `buffer` are the first six pending bytes. -/
theorem pending_take_six (zip : aZdata) (buffer : Mem) (length : Int)
    (h0 : zip.incount = 0) (h6 : 6 ≤ length) :
    (pending zip buffer length).take 6 = readBytes buffer 0 6 := by
  obtain ⟨n, hn⟩ : ∃ n : Nat, length.toNat = 6 + n := ⟨length.toNat - 6, by omega⟩
  unfold pending
  rw [h0, hn, readBytes_add]
  show (readBytes zip.inbuf 0 0 ++ _).take 6 = _
  rw [readBytes_zero, List.nil_append, List.take_left' (readBytes_length buffer 0 6)]

/-- C5 as claimed fails in two ways, the pending bytes being the carry-over
followed by the chunk.
(1) A chunk of the three bytes `ERR` arrives on a fresh link that has the
capability, with `OR :x` behind it in memory; the pending bytes are `ERR` and
do not begin with `ERROR `, yet `unzip_packet` takes the downgrade path: it
returns `buffer` with length 3 and clears `CAP_ZIP` and `FLAGS2_ZIP`.
(2) The chunk `ERROR :x` arrives on a link that carries over the byte `A`;
the nine pending bytes begin with `AERROR`, yet `unzip_packet` takes the
downgrade path and returns the chunk alone, with length 8. -/
theorem unzip_packet_downgrade_not_pending :
    (pending zipFresh errorLine 3 = [69, 82, 82] ∧
      (pending zipFresh errorLine 3).take 6 ≠ ERROR_ ∧
      (inflateCall stored cfg w0 zipFresh z0 errorLine 3).ret = Z_DATA_ERROR ∧
      ∃ o, unzip_packet stored cfg w0 linkFresh errorLine 3 = some o ∧
        o.ret = RetPtr.buffer ∧ o.length = 3 ∧
        o.cptr.flags2 &&& cfg.FLAGS2_ZIP = 0 ∧ o.cptr.caps &&& cfg.CAP_ZIP = 0) ∧
    (pending zipCarry errorLine 8 = [65, 69, 82, 82, 79, 82, 32, 58, 120] ∧
      (pending zipCarry errorLine 8).take 6 ≠ ERROR_ ∧
      (inflateCall (scripted dataError) cfg w0 zipCarry z1 errorLine 8).ret = Z_DATA_ERROR ∧
      ∃ o, unzip_packet (scripted dataError) cfg w0 linkCarry errorLine 8 = some o ∧
        o.ret = RetPtr.buffer ∧ o.length = 8 ∧
        o.cptr.flags2 &&& cfg.FLAGS2_ZIP = 0 ∧ o.cptr.caps &&& cfg.CAP_ZIP = 0) := by
  refine ⟨⟨by decide, by decide, by decide, ?_⟩, ⟨by decide, by decide, by decide, ?_⟩⟩
  · obtain ⟨o, _, ho, _, _, _, hif⟩ :=
      unzip_packet_data_error_cases stored cfg w0 linkFresh zipFresh z0 errorLine 3 rfl rfl
        (by decide)
    rw [if_pos (by decide)] at hif
    exact ⟨o, ho, hif.1, hif.2.1, hif.2.2.2.2.1, hif.2.2.2.2.2⟩
  · obtain ⟨o, _, ho, _, _, _, hif⟩ :=
      unzip_packet_data_error_cases (scripted dataError) cfg w0 linkCarry zipCarry z1
        errorLine 8 rfl rfl (by decide)
    rw [if_pos (by decide)] at hif
    exact ⟨o, ho, hif.1, hif.2.1, hif.2.2.2.2.1, hif.2.2.2.2.2⟩

/-- C5, amended.  When `inflate` returns `Z_DATA_ERROR`: if the link has the
capability `CAP_ZIP` and the six bytes of memory at `buffer` are `ERROR `,
whatever the length of the chunk and the carry-over of the link, then
`unzip_packet` clears `FLAGS2_ZIP` in `flags2` and `CAP_ZIP` in `caps` and
returns `buffer` itself with the length it was given; in every other case it
returns no data, sets the length to -1 and leaves `flags2` and `caps` as they
were.  On both paths the carry-over stays in the link and is not returned.
When the link has no carry-over and the chunk has at least six bytes, the six
bytes tested are the first six pending bytes. -/
theorem unzip_packet_data_error (Z : Zlib) (C : Config) (w : World)
    (cptr : aClient) (zip : aZdata) (zin : z_stream) (buffer : Mem) (length : Int)
    (hz : cptr.zip = some zip) (hi : zip.in_ = some zin)
    (hde : (inflateCall Z C w zip zin buffer length).ret = Z_DATA_ERROR) :
    (∃ o zip2, unzip_packet Z C w cptr buffer length = some o ∧
      o.cptr.zip = some zip2 ∧ zip2.inbuf = zip.inbuf ∧ zip2.incount = zip.incount ∧
      if cptr.caps &&& C.CAP_ZIP ≠ 0 ∧ readBytes buffer 0 6 = ERROR_ then
        o.ret = RetPtr.buffer ∧ o.length = length ∧
        o.cptr.flags2 = clearBits cptr.flags2 C.FLAGS2_ZIP ∧
        o.cptr.caps = clearBits cptr.caps C.CAP_ZIP ∧
        o.cptr.flags2 &&& C.FLAGS2_ZIP = 0 ∧ o.cptr.caps &&& C.CAP_ZIP = 0
      else
        o.ret = RetPtr.NULL ∧ o.length = -1 ∧
        o.cptr.flags2 = cptr.flags2 ∧ o.cptr.caps = cptr.caps) ∧
    (zip.incount = 0 → 6 ≤ length →
      (readBytes buffer 0 6 = ERROR_ ↔ (pending zip buffer length).take 6 = ERROR_)) :=
  ⟨unzip_packet_data_error_cases Z C w cptr zip zin buffer length hz hi hde,
    fun h0 h6 => by rw [pending_take_six zip buffer length h0 h6]⟩

/-- C5, amended, on a concrete input: the line `ERROR :x` arrives on a fresh
link that has the capability. -/
theorem unzip_packet_data_error_witness :
    (∃ o zip2, unzip_packet stored cfg w0 linkFresh errorLine 8 = some o ∧
      o.cptr.zip = some zip2 ∧ zip2.inbuf = zipFresh.inbuf ∧
      zip2.incount = zipFresh.incount ∧
      if linkFresh.caps &&& cfg.CAP_ZIP ≠ 0 ∧ readBytes errorLine 0 6 = ERROR_ then
        o.ret = RetPtr.buffer ∧ o.length = 8 ∧
        o.cptr.flags2 = clearBits linkFresh.flags2 cfg.FLAGS2_ZIP ∧
        o.cptr.caps = clearBits linkFresh.caps cfg.CAP_ZIP ∧
        o.cptr.flags2 &&& cfg.FLAGS2_ZIP = 0 ∧ o.cptr.caps &&& cfg.CAP_ZIP = 0
      else
        o.ret = RetPtr.NULL ∧ o.length = -1 ∧
        o.cptr.flags2 = linkFresh.flags2 ∧ o.cptr.caps = linkFresh.caps) ∧
    (zipFresh.incount = 0 → (6 : Int) ≤ 8 →
      (readBytes errorLine 0 6 = ERROR_ ↔ (pending zipFresh errorLine 8).take 6 = ERROR_)) :=
  unzip_packet_data_error stored cfg w0 linkFresh zipFresh z0 errorLine 8 rfl rfl (by decide)

/-! ## The downgrade happens once -/

theorem unzip_packet_caps (Z : Zlib) (C : Config) (w : World) (cptr : aClient)
    (buffer : Mem) (length : Int) (o : Outcome)
    (h : unzip_packet Z C w cptr buffer length = some o)
    (hc : cptr.caps &&& C.CAP_ZIP = 0 ∨ o.ret = RetPtr.buffer) :
    o.cptr.caps &&& C.CAP_ZIP = 0 := by
  unfold unzip_packet at h
  split at h
  · exact absurd h (by simp)
  · split at h
    · exact absurd h (by simp)
    · simp only [inflate, zstep, offered, ite_self] at h
      split at h
      · simp only [Option.some.injEq] at h
        subst h
        rcases hc with hc | hc
        · exact hc
        · exact absurd hc (by simp)
      · split at h
        · split at h <;>
          · simp only [Option.some.injEq] at h
            subst h
            rcases hc with hc | hc
            · exact hc
            · exact absurd hc (by simp)
        · split at h
          · simp only [Option.some.injEq] at h
            subst h
            exact clearBits_land _ _
          · simp only [Option.some.injEq] at h
            subst h
            rcases hc with hc | hc
            · exact hc
            · exact absurd hc (by simp)

theorem unzip_calls_caps (Z : Zlib) (C : Config) (calls : List (Mem × Int)) :
    ∀ (w : World) (cptr : aClient) (s : World × aClient),
      unzip_calls Z C w cptr calls = some s → cptr.caps &&& C.CAP_ZIP = 0 →
      s.2.caps &&& C.CAP_ZIP = 0 := by
  induction calls with
  | nil =>
    intro w cptr s h hc
    simp only [unzip_calls, Option.some.injEq] at h
    subst h
    exact hc
  | cons c rest ih =>
    intro w cptr s h hc
    obtain ⟨buffer, length⟩ := c
    simp only [unzip_calls] at h
    split at h
    · exact absurd h (by simp)
    · next o ho =>
      exact ih o.world o.cptr s h (unzip_packet_caps Z C w cptr buffer length o ho (Or.inl hc))

theorem unzip_packet_data_error_fatal (Z : Zlib) (C : Config) (w : World) (cptr : aClient)
    (buffer : Mem) (length : Int)
    (hde : inflateRet Z C w cptr buffer length = some Z_DATA_ERROR)
    (hc : cptr.caps &&& C.CAP_ZIP = 0) :
    (unzip_packet Z C w cptr buffer length).map (fun o => (o.ret, o.length))
      = some (RetPtr.NULL, -1) := by
  unfold inflateRet at hde
  split at hde
  · exact absurd hde (by simp)
  · next zip hz =>
    split at hde
    · exact absurd hde (by simp)
    · next zin hi =>
      simp only [Option.some.injEq, inflateCall, offeredIn, scratch] at hde
      have hne1 : ¬ (Z_DATA_ERROR = Z_OK) := by decide
      have hne2 : ¬ (Z_DATA_ERROR = Z_BUF_ERROR) := by decide
      simp [unzip_packet, hz, hi, inflate, zstep, offered, hde, IsCapable, hne1, hne2, hc]

/-- C6.  In a sequence of `unzip_packet` calls on one link, once a call has
taken the downgrade path (it returned the chunk itself), every later call on
which `inflate` returns `Z_DATA_ERROR` returns no data and sets the length to
-1, whatever its bytes are. -/
theorem unzip_packet_downgrade_once (Z : Zlib) (C : Config) (w : World) (cptr : aClient)
    (b1 : Mem) (l1 : Int) (mid : List (Mem × Int)) (b2 : Mem) (l2 : Int)
    (hdown : (unzip_packet Z C w cptr b1 l1).map (fun o => o.ret) = some RetPtr.buffer)
    (hde : (unzip_calls Z C w cptr ((b1, l1) :: mid)).bind
        (fun s => inflateRet Z C s.1 s.2 b2 l2) = some Z_DATA_ERROR) :
    ((unzip_calls Z C w cptr ((b1, l1) :: mid)).bind
        (fun s => unzip_packet Z C s.1 s.2 b2 l2)).map (fun o => (o.ret, o.length))
      = some (RetPtr.NULL, -1) := by
  simp only [unzip_calls] at hde ⊢
  cases h1 : unzip_packet Z C w cptr b1 l1 with
  | none => simp [h1] at hdown
  | some o1 =>
    simp only [h1, Option.map_some', Option.some.injEq] at hdown
    simp only [h1] at hde ⊢
    have hc1 := unzip_packet_caps Z C w cptr b1 l1 o1 h1 (Or.inr hdown)
    cases h2 : unzip_calls Z C o1.world o1.cptr mid with
    | none => simp [h2] at hde
    | some s =>
      simp only [h2, Option.some_bind] at hde ⊢
      exact unzip_packet_data_error_fatal Z C s.1 s.2 b2 l2 hde
        (unzip_calls_caps Z C mid o1.world o1.cptr s h2 hc1)

/-- C6, on a concrete input: the line `ERROR :x` arrives twice on a fresh
link. -/
theorem unzip_packet_downgrade_once_witness :
    ((unzip_calls stored cfg w0 linkFresh ((errorLine, 8) :: [])).bind
        (fun s => unzip_packet stored cfg s.1 s.2 errorLine 8)).map (fun o => (o.ret, o.length))
      = some (RetPtr.NULL, -1) :=
  unzip_packet_downgrade_once stored cfg w0 linkFresh errorLine 8 [] errorLine 8
    (by decide) (by decide)

/-! ## Compression -/

theorem accumulated_append (zip : aZdata) (buffer : Mem) (length : Int)
    (h0 : 0 ≤ zip.outcount) (h1 : 0 ≤ length) :
    accumulated (zip_append zip (some buffer) length)
      = accumulated zip ++ readBytes buffer 0 length.toNat := by
  have h : (zip.outcount + length).toNat = zip.outcount.toNat + length.toNat := by omega
  simp only [accumulated, zip_append, h]
  rw [readBytes_add]
  congr 1
  · apply readBytes_congr
    intro i hi
    simp only [bcopy, Nat.zero_add]
    rw [if_neg (by omega)]
  · apply readBytes_congr
    intro i hi
    simp only [bcopy, Nat.zero_add]
    rw [if_pos (by omega)]
    congr 1
    omega

/-- C7.  When `zip_buffer` runs the compressor and `deflate` returns `Z_OK`: the
one call to `deflate` is offered the whole accumulation (the old contents
followed by the new chunk, `outcount` bytes) with `ZIP_BUFFER_SIZE` bytes of
output space and flush mode `Z_PARTIAL_FLUSH`; `outcount` is reset to 0; the
call returns the compressed scratch buffer, and the length is `ZIP_BUFFER_SIZE`
less the output space `deflate` left unused. -/
theorem zip_buffer_compress_ok (Z : Zlib) (C : Config) (w : World) (cptr : aClient)
    (zip : aZdata) (zout : z_stream) (buffer : Mem) (length flush : Int)
    (hz : cptr.zip = some zip) (ho : zip.out = some zout)
    (h0 : 0 ≤ zip.outcount) (h1 : 0 ≤ length)
    (hrun : zip_defer C cptr (zip.outcount + length) flush = false)
    (hok : (Z.deflate zout.state (accumulated zip ++ readBytes buffer 0 length.toNat)
              (ZIP_BUFFER_SIZE C) Z_PARTIAL_FLUSH).ret = Z_OK) :
    ∃ o zip2 notices, zip_buffer Z C w cptr (some buffer) length flush = some o ∧
      o.world.trace = w.trace ++
        Event.deflate (accumulated zip ++ readBytes buffer 0 length.toNat)
          (ZIP_BUFFER_SIZE C) Z_PARTIAL_FLUSH :: notices ∧
      deflate_calls notices = 0 ∧
      (accumulated zip ++ readBytes buffer 0 length.toNat).length
        = (zip.outcount + length).toNat ∧
      o.cptr.zip = some zip2 ∧ zip2.outcount = 0 ∧
      o.ret = RetPtr.zipbuf ∧
      o.length = (ZIP_BUFFER_SIZE C : Int) - spaceLeft (ZIP_BUFFER_SIZE C)
        (Z.deflate zout.state (accumulated zip ++ readBytes buffer 0 length.toNat)
          (ZIP_BUFFER_SIZE C) Z_PARTIAL_FLUSH) := by
  have hacc : readBytes (zip_append zip (some buffer) length).outbuf 0
      (zip.outcount + length).toNat = accumulated zip ++ readBytes buffer 0 length.toNat :=
    accumulated_append zip buffer length h0 h1
  have hout : (zip_append zip (some buffer) length).out = some zout := by
    simpa [zip_append] using ho
  have hcnt : (zip_append zip (some buffer) length).outcount = zip.outcount + length := rfl
  have hlen : (accumulated zip ++ readBytes buffer 0 length.toNat).length
      = (zip.outcount + length).toNat := by
    simp only [accumulated, List.length_append, readBytes_length]
    omega
  have hzb : zip_buffer Z C w cptr (some buffer) length flush
      = some (zip_compress Z C w cptr (zip_append zip (some buffer) length) zout) := by
    simp only [zip_buffer, hz, hcnt, hrun, hout, Bool.false_eq_true, if_false]
  rw [hzb]
  simp only [zip_compress, deflate, zstep, offered, hcnt, hacc, hok, if_true, spaceLeft]
  split
  · exact ⟨_, _, [Event.sendto_ops "deflate() didn't process all available data!" []],
      rfl, by simp, rfl, hlen, rfl, rfl, rfl, rfl⟩
  · exact ⟨_, _, [], rfl, by simp, rfl, hlen, rfl, rfl, rfl, rfl⟩

/-- C7, on a concrete input: a fresh link, a chunk of 100 bytes, flush set. -/
theorem zip_buffer_compress_ok_witness :
    ∃ o zip2 notices, zip_buffer stored cfg w0 linkFresh (some mem0) 100 1 = some o ∧
      o.world.trace = w0.trace ++
        Event.deflate (accumulated zipFresh ++ readBytes mem0 0 (100 : Int).toNat)
          (ZIP_BUFFER_SIZE cfg) Z_PARTIAL_FLUSH :: notices ∧
      deflate_calls notices = 0 ∧
      (accumulated zipFresh ++ readBytes mem0 0 (100 : Int).toNat).length
        = (zipFresh.outcount + 100).toNat ∧
      o.cptr.zip = some zip2 ∧ zip2.outcount = 0 ∧
      o.ret = RetPtr.zipbuf ∧
      o.length = (ZIP_BUFFER_SIZE cfg : Int) - spaceLeft (ZIP_BUFFER_SIZE cfg)
        (stored.deflate z0.state (accumulated zipFresh ++ readBytes mem0 0 (100 : Int).toNat)
          (ZIP_BUFFER_SIZE cfg) Z_PARTIAL_FLUSH) :=
  zip_buffer_compress_ok stored cfg w0 linkFresh zipFresh z0 mem0 100 1 rfl rfl
    (by decide) (by decide) (by decide) (by decide)

/-- C8.  When `flush` is not requested and the accumulation length after the
append is below `ZIP_MINIMUM`, `zip_buffer` returns no data with length 0,
makes no call (the static buffers and the trace are as before, and so are both
streams of the link), and the accumulation holds its previous contents followed
by the chunk, `outcount` having grown by the length of the chunk. -/
theorem zip_buffer_below_minimum (Z : Zlib) (C : Config) (w : World) (cptr : aClient)
    (zip : aZdata) (buffer : Mem) (length : Int)
    (hz : cptr.zip = some zip)
    (h0 : 0 ≤ zip.outcount) (h1 : 0 ≤ length)
    (hlt : zip.outcount + length < C.ZIP_MINIMUM) :
    ∃ o zip2, zip_buffer Z C w cptr (some buffer) length 0 = some o ∧
      o.ret = RetPtr.NULL ∧ o.length = 0 ∧ o.world = w ∧
      o.cptr.zip = some zip2 ∧ zip2.out = zip.out ∧ zip2.in_ = zip.in_ ∧
      zip2.outcount = zip.outcount + length ∧
      accumulated zip2 = accumulated zip ++ readBytes buffer 0 length.toNat := by
  have hcnt : (zip_append zip (some buffer) length).outcount = zip.outcount + length := rfl
  have hdef : zip_defer C cptr (zip.outcount + length) 0 = true := by
    simp [zip_defer, hlt]
  have hzb : zip_buffer Z C w cptr (some buffer) length 0
      = some { world := w, cptr := { cptr with zip := some (zip_append zip (some buffer) length) },
               ret := RetPtr.NULL, length := 0 } := by
    simp only [zip_buffer, hz, hcnt, hdef, if_true]
  rw [hzb]
  exact ⟨_, zip_append zip (some buffer) length, rfl, rfl, rfl, rfl, rfl, rfl, rfl, rfl,
    accumulated_append zip buffer length h0 h1⟩

/-- C8, on a concrete input: a fresh link and a chunk of 100 bytes. -/
theorem zip_buffer_below_minimum_witness :
    ∃ o zip2, zip_buffer stored cfg w0 linkFresh (some mem0) 100 0 = some o ∧
      o.ret = RetPtr.NULL ∧ o.length = 0 ∧ o.world = w0 ∧
      o.cptr.zip = some zip2 ∧ zip2.out = zipFresh.out ∧ zip2.in_ = zipFresh.in_ ∧
      zip2.outcount = zipFresh.outcount + 100 ∧
      accumulated zip2 = accumulated zipFresh ++ readBytes mem0 0 (100 : Int).toNat :=
  zip_buffer_below_minimum stored cfg w0 linkFresh zipFresh mem0 100 rfl
    (by decide) (by decide) (by decide)

/-! ## Bound on the accumulation -/

theorem zip_compress_cases (Z : Zlib) (C : Config) (w : World) (cptr : aClient)
    (zip : aZdata) (zout : z_stream) :
    (zip_compress Z C w cptr zip zout).length = -1 ∨
      outcountOf (zip_compress Z C w cptr zip zout).cptr = 0 := by
  simp only [zip_compress, deflate, zstep]
  split
  · right
    rfl
  · left
    rfl

theorem zip_calls_within (Z : Zlib) (C : Config)
    (hcfg : (C.ZIP_MINIMUM : Int) ≤ (C.ZIP_MAXIMUM : Int) - BUFSIZE)
    (calls : List (Option Mem × Int × Int)) :
    ∀ (w : World) (cptr : aClient),
      (∀ c, c ∈ calls → c.2.1 ≤ (BUFSIZE : Int)) →
      (outcountOf cptr < (C.ZIP_MAXIMUM : Int) - BUFSIZE ∨ outcountOf cptr = 0) →
      (zip_calls Z C w cptr calls).all (within_burst C) = true := by
  induction calls with
  | nil => intro w cptr _ _; rfl
  | cons c rest ih =>
    intro w cptr hlen hinv
    obtain ⟨buffer, length, flush⟩ := c
    have hl : length ≤ (BUFSIZE : Int) := hlen (buffer, length, flush) (List.mem_cons_self _ _)
    have hrest : ∀ c, c ∈ rest → c.2.1 ≤ (BUFSIZE : Int) :=
      fun c hc => hlen c (List.mem_cons_of_mem _ hc)
    have hB : (BUFSIZE : Int) = 512 := rfl
    cases hz : cptr.zip with
    | none => simp [zip_calls, hz]
    | some zip =>
      simp only [outcountOf, hz] at hinv
      have hn : (zip_append zip buffer length).outcount ≤ (C.ZIP_MAXIMUM : Int) := by
        cases buffer with
        | none => simp only [zip_append]; omega
        | some b => simp only [zip_append]; omega
      cases ho : zip_buffer Z C w cptr buffer length flush with
      | none => simp [zip_calls, hz, ho]
      | some o =>
        have hafter : o.length = -1 ∨ outcountOf o.cptr < (C.ZIP_MAXIMUM : Int) - BUFSIZE ∨
            outcountOf o.cptr = 0 := by
          simp only [zip_buffer, hz] at ho
          split at ho
          · next hd =>
            simp only [Option.some.injEq] at ho
            subst ho
            simp only [zip_defer, decide_eq_true_eq] at hd
            simp only [outcountOf]
            omega
          · split at ho
            · exact absurd ho (by simp)
            · simp only [Option.some.injEq] at ho
              subst ho
              rcases zip_compress_cases Z C w cptr (zip_append zip buffer length) _ with h | h
              · exact Or.inl h
              · exact Or.inr (Or.inr h)
        simp only [zip_calls, hz, ho, List.all_cons, Bool.and_eq_true]
        refine ⟨?_, ?_⟩
        · simp only [within_burst, decide_eq_true_eq]
          exact ⟨hn, hafter⟩
        · split
          · rfl
          · next hnf =>
            apply ih o.world o.cptr hrest
            rcases hafter with h | h
            · exact absurd h hnf
            · exact h

/-- C10.  Assume `ZIP_MINIMUM ≤ ZIP_MAXIMUM - BUFSIZE`.  In a sequence of
`zip_buffer` calls on a link set up by `zip_init`, with chunks of at most
`BUFSIZE` bytes and each call made in a state that non-fatal calls have led to:
after the append of every call `outcount ≤ ZIP_MAXIMUM`, and when a call that
is not fatal returns, `outcount < ZIP_MAXIMUM - BUFSIZE` or `outcount = 0`. -/
theorem zip_buffer_outcount_bounded (Z : Zlib) (C : Config) (m : aZdata)
    (s_in s_out : z_stream) (w : World) (cptr : aClient)
    (calls : List (Option Mem × Int × Int))
    (hcfg : (C.ZIP_MINIMUM : Int) ≤ (C.ZIP_MAXIMUM : Int) - BUFSIZE)
    (hlen : ∀ c, c ∈ calls → c.2.1 ≤ (BUFSIZE : Int)) :
    (zip_calls Z C (zip_init Z C m s_in s_out w cptr).1 (zip_init Z C m s_in s_out w cptr).2.1
      calls).all (within_burst C) = true := by
  apply zip_calls_within Z C hcfg calls _ _ hlen
  right
  simp only [zip_init, inflateInit, deflateInit]
  split <;> try split
  all_goals rfl

/-- C10, on a concrete input: nine chunks of 512 bytes sent on a link that is
not in its burst; the eighth call finds 4096 bytes accumulated and compresses. -/
theorem zip_buffer_outcount_bounded_witness :
    (zip_calls stored cfg (zip_init stored cfg zipFresh z0 z0 w0 linkFresh).1
      (zip_init stored cfg zipFresh z0 z0 w0 linkFresh).2.1
      (List.replicate 9 (some mem0, 512, 0))).all (within_burst cfg) = true :=
  zip_buffer_outcount_bounded stored cfg zipFresh z0 z0 w0 linkFresh
    (List.replicate 9 (some mem0, 512, 0)) (by decide)
    (by
      intro c hc
      rw [List.eq_of_mem_replicate hc]
      decide)

/-! ## The streaming round trip -/

theorem readBytes_cstr (l : List Nat) : readBytes (cstr l) 0 l.length = l := by
  apply List.ext_getElem
  · simp [readBytes_length]
  · intro i h1 h2
    simp [readBytes, cstr, List.getD_eq_getElem?_getD, List.getElem?_eq_getElem h2]

theorem readBytes_writeBytes (m : Mem) (bs : List Nat) :
    readBytes (writeBytes m 0 bs) 0 bs.length = bs := by
  apply List.ext_getElem
  · simp [readBytes_length]
  · intro i h1 h2
    simp [readBytes, writeBytes, List.getD_eq_getElem?_getD, List.getElem?_eq_getElem h2, h2]

theorem accumulated_append_cstr (zip : aZdata) (x : List Nat) (h0 : 0 ≤ zip.outcount) :
    accumulated (zip_append zip (some (cstr x)) x.length) = accumulated zip ++ x := by
  rw [accumulated_append zip (cstr x) x.length h0 (by omega)]
  simp [readBytes_cstr]

theorem stored_deflate_ok (sd x : List Nat) (room : Nat) (f : Int)
    (h : (stored_deflate sd x room f).ret = Z_OK) :
    stored_deflate sd x room f
      = { ret := Z_OK, consumed := x.length, produced := if sd = [] then 120 :: x else x,
          msg := none, state := [1] } := by
  unfold stored_deflate at h ⊢
  by_cases hc : (if sd = [] then 120 :: x else x).length ≤ room ∧
      (if sd = [] then 120 :: x else x) ≠ []
  · simp only []
    rw [if_pos hc]
  · simp only [] at h
    rw [if_neg hc] at h
    exact absurd h (by simp [Z_BUF_ERROR, Z_OK])

theorem stored_lossless : Lossless stored stored_sync := by
  constructor
  · intro level _ _
    exact Or.inl ⟨rfl, rfl, rfl, rfl⟩
  · intro sd si flight owed x room hR hok hroom
    simp only [stored] at hok hroom ⊢
    rw [stored_deflate_ok sd x room _ hok]
    refine ⟨le_refl _, ?_⟩
    rcases hR with ⟨h1, h2, h3, h4⟩ | ⟨h1, h2, h3⟩ | ⟨h1, h2, h3⟩
    · subst h1 h2 h3 h4
      exact Or.inr (Or.inl ⟨rfl, by simp, by simp⟩)
    · subst h1 h3
      exact Or.inr (Or.inl ⟨rfl, by simp, by simp [h2]⟩)
    · subst h3
      exact Or.inr (Or.inr ⟨h1, by simp, by simp [h2]⟩)
  · intro sd si a b owed room hR hok hroom
    simp only [stored] at hok hroom ⊢
    rcases hR with ⟨h1, h2, h3, h4⟩ | ⟨h1, h2, h3⟩ | ⟨h1, h2, h3⟩
    · subst h1
      have ha : a = [] := (List.append_eq_nil.mp h3).1
      subst ha
      exact absurd hok (by simp [stored_inflate, Z_BUF_ERROR, Z_OK])
    · subst h1
      cases a with
      | nil => exact absurd hok (by simp [stored_inflate, Z_BUF_ERROR, Z_OK])
      | cons x rest =>
        simp only [List.cons_append, List.cons.injEq] at h3
        obtain ⟨hx, h3⟩ := h3
        subst hx
        simp only [stored_inflate, if_true, List.length_take] at hroom ⊢
        have hlt : rest.length < room := by omega
        have htake : List.take room rest = rest := List.take_of_length_le (by omega)
        refine ⟨by simp; omega, b, ?_, ?_⟩
        · rw [htake, h3]
        · exact Or.inr (Or.inr ⟨by simp, h2, rfl⟩)
    · cases si with
      | nil => exact absurd rfl h1
      | cons s0 srest =>
        simp only [stored_inflate, List.length_take] at hroom hok ⊢
        have hlt : a.length < room := by omega
        have htake : List.take room a = a := List.take_of_length_le (by omega)
        refine ⟨by omega, b, ?_, ?_⟩
        · rw [htake, h3]
        · exact Or.inr (Or.inr ⟨by simp, h2, rfl⟩)
  · intro sd si owed hR
    rcases hR with ⟨_, _, _, h4⟩ | ⟨_, _, h3⟩ | ⟨_, _, h3⟩
    · exact h4
    · exact absurd h3 (by simp)
    · exact h3.symm

theorem zip_compress_fatal (Z : Zlib) (C : Config) (w : World) (cptr : aClient)
    (zip : aZdata) (zout : z_stream)
    (h : (deflateCall Z C zip zout).ret ≠ Z_OK) :
    (zip_compress Z C w cptr zip zout).length = -1 := by
  simp only [deflateCall] at h
  simp only [zip_compress, deflate, zstep, offered, h, if_false]

theorem zip_compress_ok_length (Z : Zlib) (C : Config) (w : World) (cptr : aClient)
    (zip : aZdata) (zout : z_stream)
    (h : (deflateCall Z C zip zout).ret = Z_OK) :
    (zip_compress Z C w cptr zip zout).length
      = (((deflateCall Z C zip zout).produced.take (ZIP_BUFFER_SIZE C)).length : Int) := by
  simp only [deflateCall] at h ⊢
  simp only [zip_compress, deflate, zstep, offered, h, if_true, List.length_take]
  omega

theorem zip_compress_ok_state (Z : Zlib) (C : Config) (w : World) (cptr : aClient)
    (zip : aZdata) (zout : z_stream)
    (h : (deflateCall Z C zip zout).ret = Z_OK) :
    ∃ zip2 zout2, (zip_compress Z C w cptr zip zout).cptr.zip = some zip2 ∧
      zip2.out = some zout2 ∧ zip2.outcount = 0 ∧
      zout2.state = (deflateCall Z C zip zout).state ∧
      (zip_compress Z C w cptr zip zout).ret = RetPtr.zipbuf ∧
      readBytes (zip_compress Z C w cptr zip zout).world.zipbuf 0
          ((deflateCall Z C zip zout).produced.take (ZIP_BUFFER_SIZE C)).length
        = (deflateCall Z C zip zout).produced.take (ZIP_BUFFER_SIZE C) := by
  simp only [deflateCall] at h ⊢
  simp only [zip_compress, deflate, zstep, offered, h, if_true]
  refine ⟨_, _, rfl, rfl, rfl, rfl, trivial, ?_⟩
  split <;> exact readBytes_writeBytes _ _

/-- One `zip_buffer` call of a successful sending sequence, in terms of the
relation of `Lossless`. -/
theorem zip_step (Z : Zlib) (C : Config) (R : List Nat → List Nat → List Nat → List Nat → Prop)
    (hL : Lossless Z R) (w : World) (cptr : aClient) (zip : aZdata) (zout : z_stream)
    (x : List Nat) (flush : Int) (si S P : List Nat) (o : Outcome)
    (hz : cptr.zip = some zip) (ho : zip.out = some zout) (h0 : 0 ≤ zip.outcount)
    (hR : R zout.state si S P)
    (hcall : zip_buffer Z C w cptr (some (cstr x)) x.length flush = some o)
    (hok : zip_ok C o = true) :
    ∃ zip2 zout2 P2, o.cptr.zip = some zip2 ∧ zip2.out = some zout2 ∧ 0 ≤ zip2.outcount ∧
      R zout2.state si (S ++ emitted o) P2 ∧
      P2 ++ accumulated zip2 = P ++ accumulated zip ++ x ∧
      (flush ≠ 0 → zip2.outcount = 0) := by
  have hacc := accumulated_append_cstr zip x h0
  have hout : (zip_append zip (some (cstr x)) x.length).out = some zout := by
    simpa [zip_append] using ho
  have hcnt : (zip_append zip (some (cstr x)) x.length).outcount = zip.outcount + x.length := rfl
  simp only [zip_ok, decide_eq_true_eq] at hok
  simp only [zip_buffer, hz] at hcall
  split at hcall
  · next hd =>
    simp only [Option.some.injEq] at hcall
    subst hcall
    refine ⟨_, zout, P, rfl, hout, by rw [hcnt]; omega, ?_, ?_, ?_⟩
    · simpa [emitted] using hR
    · rw [hacc, List.append_assoc]
    · intro hf
      simp only [zip_defer, decide_eq_true_eq] at hd
      exact absurd hd.1 hf
  · simp only [hout, Option.some.injEq] at hcall
    subst hcall
    by_cases hret : (deflateCall Z C (zip_append zip (some (cstr x)) x.length) zout).ret = Z_OK
    · have hlen := zip_compress_ok_length Z C w cptr _ zout hret
      obtain ⟨zip2, zout2, hz2, ho2, hc2, hs2, hr2, hrb⟩ :=
        zip_compress_ok_state Z C w cptr _ zout hret
      rw [hlen] at hok
      have hfit : (deflateCall Z C (zip_append zip (some (cstr x)) x.length)
          zout).produced.length < ZIP_BUFFER_SIZE C := by
        have := hok.2
        simp only [List.length_take] at this
        omega
      have htake : (deflateCall Z C (zip_append zip (some (cstr x)) x.length)
          zout).produced.take (ZIP_BUFFER_SIZE C)
          = (deflateCall Z C (zip_append zip (some (cstr x)) x.length) zout).produced :=
        List.take_of_length_le (by omega)
      rw [htake] at hrb hlen
      have hem : emitted (zip_compress Z C w cptr (zip_append zip (some (cstr x)) x.length) zout)
          = (deflateCall Z C (zip_append zip (some (cstr x)) x.length) zout).produced := by
        simp only [emitted, hr2, hlen, Int.toNat_ofNat]
        exact hrb
      have hdc : deflateCall Z C (zip_append zip (some (cstr x)) x.length) zout
          = Z.deflate zout.state (accumulated zip ++ x) (ZIP_BUFFER_SIZE C) Z_PARTIAL_FLUSH := by
        simp only [deflateCall]
        rw [← hacc]
        rfl
      rw [hdc] at hret hfit hem hs2
      obtain ⟨_, hR2⟩ := hL.send zout.state si S P (accumulated zip ++ x) (ZIP_BUFFER_SIZE C)
        hR hret hfit
      refine ⟨zip2, zout2, P ++ (accumulated zip ++ x), hz2, ho2, by omega, ?_, ?_, ?_⟩
      · rw [hem, hs2]
        exact hR2
      · simp [accumulated, hc2, readBytes_zero]
      · intro _
        exact hc2
    · exact absurd (zip_compress_fatal Z C w cptr _ zout hret) hok.1

theorem zip_run_sync (Z : Zlib) (C : Config)
    (R : List Nat → List Nat → List Nat → List Nat → Prop) (hL : Lossless Z R) (si : List Nat)
    (calls : List (List Nat × Int)) :
    ∀ (w : World) (cptr : aClient) (zip : aZdata) (zout : z_stream) (S P : List Nat),
      cptr.zip = some zip → zip.out = some zout → 0 ≤ zip.outcount →
      R zout.state si S P →
      (zip_outcomes Z C w cptr calls).length = calls.length →
      (zip_outcomes Z C w cptr calls).all (zip_ok C) = true →
      (calls = [] → zip.outcount = 0) → (calls ≠ [] → ends_with_flush calls = true) →
      ∃ sd, R sd si (S ++ zip_stream Z C w cptr calls)
        (P ++ accumulated zip ++ (calls.map Prod.fst).flatten) := by
  induction calls with
  | nil =>
    intro w cptr zip zout S P hz ho h0 hR _ _ hnil _
    have hacc : accumulated zip = [] := by
      simp [accumulated, hnil rfl, readBytes_zero]
    exact ⟨zout.state, by simpa [zip_stream, zip_outcomes, hacc] using hR⟩
  | cons c rest ih =>
    intro w cptr zip zout S P hz ho h0 hR hlen hall _ hend
    obtain ⟨x, flush⟩ := c
    cases hcall : zip_buffer Z C w cptr (some (cstr x)) x.length flush with
    | none => simp [zip_outcomes, hcall] at hlen
    | some o =>
      simp only [zip_outcomes, hcall, List.length_cons, add_left_inj] at hlen
      simp only [zip_outcomes, hcall, List.all_cons, Bool.and_eq_true] at hall
      obtain ⟨zip2, zout2, P2, hz2, ho2, h02, hR2, hP2, hfl⟩ :=
        zip_step Z C R hL w cptr zip zout x flush si S P o hz ho h0 hR hcall hall.1
      have hend2 : rest ≠ [] → ends_with_flush rest = true := by
        intro hne
        cases rest with
        | nil => exact absurd rfl hne
        | cons c2 rest2 => simpa [ends_with_flush] using hend (by simp)
      have hnil2 : rest = [] → zip2.outcount = 0 := by
        intro hr
        subst hr
        have := hend (by simp)
        simp only [ends_with_flush, bne_iff_ne, ne_eq] at this
        exact hfl this
      obtain ⟨sd, hsd⟩ := ih o.world o.cptr zip2 zout2 (S ++ emitted o) P2 hz2 ho2 h02 hR2
        hlen hall.2 hnil2 hend2
      refine ⟨sd, ?_⟩
      have e1 : S ++ zip_stream Z C w cptr ((x, flush) :: rest)
          = S ++ emitted o ++ zip_stream Z C o.world o.cptr rest := by
        simp [zip_stream, zip_outcomes, hcall]
      have e2 : P ++ accumulated zip ++ (((x, flush) :: rest).map Prod.fst).flatten
          = P2 ++ accumulated zip2 ++ (rest.map Prod.fst).flatten := by
        rw [hP2]
        simp
      rw [e1, e2]
      exact hsd

theorem unzip_step (Z : Zlib) (C : Config) (w : World) (cptr : aClient) (zip : aZdata)
    (zin : z_stream) (p : List Nat) (o : Outcome)
    (hz : cptr.zip = some zip) (hi : zip.in_ = some zin) (h0 : zip.incount = 0)
    (hcall : unzip_packet Z C w cptr (cstr p) p.length = some o)
    (hret : o.ret = RetPtr.unzipbuf) :
    (Z.inflate zin.state p (UNZIP_BUFFER_SIZE C) Z_PARTIAL_FLUSH).ret = Z_OK ∧
    o.length = (((Z.inflate zin.state p (UNZIP_BUFFER_SIZE C) Z_PARTIAL_FLUSH).produced.take
      (UNZIP_BUFFER_SIZE C)).length : Int) ∧
    readBytes o.world.unzipbuf 0 ((Z.inflate zin.state p (UNZIP_BUFFER_SIZE C)
        Z_PARTIAL_FLUSH).produced.take (UNZIP_BUFFER_SIZE C)).length
      = (Z.inflate zin.state p (UNZIP_BUFFER_SIZE C) Z_PARTIAL_FLUSH).produced.take
          (UNZIP_BUFFER_SIZE C) ∧
    ∃ zip2 zin2, o.cptr.zip = some zip2 ∧ zip2.in_ = some zin2 ∧
      zin2.state = (Z.inflate zin.state p (UNZIP_BUFFER_SIZE C) Z_PARTIAL_FLUSH).state ∧
      (p.length ≤ (Z.inflate zin.state p (UNZIP_BUFFER_SIZE C) Z_PARTIAL_FLUSH).consumed →
        zip2.incount = 0) := by
  have hp : offeredIn w zip (cstr p) p.length = p := by
    rw [offeredIn_eq w zip (cstr p) p.length (by omega) (by omega)]
    simp [pending, h0, readBytes_zero, readBytes_cstr]
  simp only [offeredIn, scratch] at hp
  simp only [unzip_packet, hz, hi, inflate, zstep, offered, ite_self, hp] at hcall
  split at hcall
  · next hok =>
    simp only [Option.some.injEq] at hcall
    subst hcall
    refine ⟨hok, ?_, readBytes_writeBytes _ _, ?_⟩
    · simp only [List.length_take]
      omega
    · split
      · next hne =>
        refine ⟨_, _, rfl, rfl, rfl, ?_⟩
        intro hle
        exfalso
        apply hne
        have : ((zip.incount + (p.length : Int)).toNat) = p.length := by omega
        rw [this]
        omega
      · exact ⟨_, _, rfl, rfl, rfl, fun _ => h0⟩
  · split at hcall
    · split at hcall <;>
      · simp only [Option.some.injEq] at hcall
        subst hcall
        exact absurd hret (by simp)
    · split at hcall <;>
      · simp only [Option.some.injEq] at hcall
        subst hcall
        exact absurd hret (by simp)

theorem unzip_run_sync (Z : Zlib) (C : Config)
    (R : List Nat → List Nat → List Nat → List Nat → Prop) (hL : Lossless Z R) (sd : List Nat)
    (pieces : List (List Nat)) :
    ∀ (w : World) (cptr : aClient) (zip : aZdata) (zin : z_stream) (owed : List Nat),
      cptr.zip = some zip → zip.in_ = some zin → zip.incount = 0 →
      R sd zin.state pieces.flatten owed →
      (unzip_outcomes Z C w cptr pieces).length = pieces.length →
      (unzip_outcomes Z C w cptr pieces).all (unzip_ok C) = true →
      unzip_stream Z C w cptr pieces = owed := by
  induction pieces with
  | nil =>
    intro w cptr zip zin owed _ _ _ hR _ _
    have := hL.done sd zin.state owed (by simpa using hR)
    simp [unzip_stream, unzip_outcomes, this]
  | cons p rest ih =>
    intro w cptr zip zin owed hz hi h0 hR hlen hall
    cases hcall : unzip_packet Z C w cptr (cstr p) p.length with
    | none => simp [unzip_outcomes, hcall] at hlen
    | some o =>
      simp only [unzip_outcomes, hcall, List.length_cons, add_left_inj] at hlen
      simp only [unzip_outcomes, hcall, List.all_cons, Bool.and_eq_true] at hall
      obtain ⟨hok, hall2⟩ := hall
      simp only [unzip_ok, Bool.and_eq_true, decide_eq_true_eq] at hok
      obtain ⟨hret1, hlt⟩ := hok
      obtain ⟨hzok, hlen1, hrb, zip2, zin2, hz2, hi2, hs2, hinc⟩ :=
        unzip_step Z C w cptr zip zin p o hz hi h0 hcall hret1
      rw [hlen1] at hlt
      have hfit : (Z.inflate zin.state p (UNZIP_BUFFER_SIZE C) Z_PARTIAL_FLUSH).produced.length
          < UNZIP_BUFFER_SIZE C := by
        simp only [List.length_take] at hlt
        omega
      have htake : (Z.inflate zin.state p (UNZIP_BUFFER_SIZE C) Z_PARTIAL_FLUSH).produced.take
          (UNZIP_BUFFER_SIZE C)
          = (Z.inflate zin.state p (UNZIP_BUFFER_SIZE C) Z_PARTIAL_FLUSH).produced :=
        List.take_of_length_le (by omega)
      rw [htake] at hrb hlen1
      have hR1 : R sd zin.state (p ++ rest.flatten) owed := by simpa using hR
      obtain ⟨hcons, owed2, how, hR2⟩ := hL.recv sd zin.state p rest.flatten owed
        (UNZIP_BUFFER_SIZE C) hR1 hzok hfit
      have hdel : delivered p o
          = (Z.inflate zin.state p (UNZIP_BUFFER_SIZE C) Z_PARTIAL_FLUSH).produced := by
        simp only [delivered, hret1, hlen1, Int.toNat_ofNat]
        exact hrb
      rw [← hs2] at hR2
      have hrest := ih o.world o.cptr zip2 zin2 owed2 hz2 hi2 (hinc hcons) hR2 hlen hall2
      have e1 : unzip_stream Z C w cptr (p :: rest)
          = delivered p o ++ unzip_stream Z C o.world o.cptr rest := by
        simp [unzip_stream, unzip_outcomes, hcall]
      rw [e1, hdel, hrest, how]

theorem zip_init_ok (Z : Zlib) (C : Config) (m : aZdata) (s_in s_out : z_stream)
    (w : World) (cptr : aClient) (h : (zip_init Z C m s_in s_out w cptr).2.2 = 0) :
    Z.inflateInit.ret = Z_OK ∧ (Z.deflateInit C.ZIP_LEVEL).ret = Z_OK ∧
    ∃ zip zin zout, (zip_init Z C m s_in s_out w cptr).2.1.zip = some zip ∧
      zip.in_ = some zin ∧ zip.out = some zout ∧ zip.incount = 0 ∧ zip.outcount = 0 ∧
      zin.state = Z.inflateInit.state ∧ zout.state = (Z.deflateInit C.ZIP_LEVEL).state := by
  simp only [zip_init, inflateInit, deflateInit] at h ⊢
  by_cases h1 : Z.inflateInit.ret = Z_OK
  · by_cases h2 : (Z.deflateInit C.ZIP_LEVEL).ret = Z_OK
    · simp only [h1, h2, ne_eq, not_true_eq_false, if_false, true_and]
      exact ⟨_, _, _, rfl, rfl, rfl, rfl, rfl, rfl, rfl⟩
    · simp [h1, h2] at h
  · simp [h1] at h

/-- C9, amended.  Let zlib satisfy `Lossless`, and let a sending and a receiving
link be set up by successful `zip_init` calls.  Take any sequence of chunks
passed to `zip_buffer` on the sending link, ending with a flush, in which no
call is fatal or fills the compressed scratch buffer, and any split of what the
calls emitted into pieces read by `unzip_packet` on the receiving link, in
which every call returns decompressed data without filling the decompressed
scratch buffer.  Then the concatenation of what `unzip_packet` delivered equals
the concatenation of the chunks. -/
theorem zip_unzip_roundtrip (Z : Zlib) (C : Config)
    (R : List Nat → List Nat → List Nat → List Nat → Prop) (hL : Lossless Z R)
    (mS mR : aZdata) (aS bS aR bR : z_stream) (wS wR : World) (cS cR : aClient)
    (calls : List (List Nat × Int)) (pieces : List (List Nat))
    (hinitS : (zip_init Z C mS aS bS wS cS).2.2 = 0)
    (hinitR : (zip_init Z C mR aR bR wR cR).2.2 = 0)
    (hflush : ends_with_flush calls = true)
    (hsl : (zip_outcomes Z C (zip_init Z C mS aS bS wS cS).1 (zip_init Z C mS aS bS wS cS).2.1
      calls).length = calls.length)
    (hsok : (zip_outcomes Z C (zip_init Z C mS aS bS wS cS).1 (zip_init Z C mS aS bS wS cS).2.1
      calls).all (zip_ok C) = true)
    (hsplit : pieces.flatten = zip_stream Z C (zip_init Z C mS aS bS wS cS).1
      (zip_init Z C mS aS bS wS cS).2.1 calls)
    (hrl : (unzip_outcomes Z C (zip_init Z C mR aR bR wR cR).1 (zip_init Z C mR aR bR wR cR).2.1
      pieces).length = pieces.length)
    (hrok : (unzip_outcomes Z C (zip_init Z C mR aR bR wR cR).1
      (zip_init Z C mR aR bR wR cR).2.1 pieces).all (unzip_ok C) = true) :
    unzip_stream Z C (zip_init Z C mR aR bR wR cR).1 (zip_init Z C mR aR bR wR cR).2.1 pieces
      = (calls.map Prod.fst).flatten := by
  obtain ⟨hi1, hd1, zipS, zinS, zoutS, hzS, _, hoS, _, hcS, _, hsS⟩ :=
    zip_init_ok Z C mS aS bS wS cS hinitS
  obtain ⟨_, _, zipR, zinR, zoutR, hzR, hiR, _, hcR, _, hsR, _⟩ :=
    zip_init_ok Z C mR aR bR wR cR hinitR
  have hR0 : R zoutS.state zinR.state [] [] := by
    rw [hsS, hsR]
    exact hL.init C.ZIP_LEVEL hi1 hd1
  have hne : calls ≠ [] := by
    intro h
    subst h
    simp [ends_with_flush] at hflush
  obtain ⟨sd, hsd⟩ := zip_run_sync Z C R hL zinR.state calls _ _ zipS zoutS [] [] hzS hoS
    (by omega) hR0 hsl hsok (fun h => absurd h hne) (fun _ => hflush)
  have hacc : accumulated zipS = [] := by simp [accumulated, hcS, readBytes_zero]
  rw [← hsplit, hacc] at hsd
  simp only [List.nil_append] at hsd
  exact unzip_run_sync Z C R hL sd pieces _ _ zipR zinR _ hzR hiR hcR hsd hrl hrok

/-- C9 amended, on a concrete input: the store-only codec, the chunks `1 2 3`
(held back) and `4 5` (flushed), read as the pieces `120 1` and `2 3 4 5`. -/
theorem zip_unzip_roundtrip_witness :
    unzip_stream stored cfg (zip_init stored cfg zipFresh z0 z0 w0 linkFresh).1
        (zip_init stored cfg zipFresh z0 z0 w0 linkFresh).2.1 [[120, 1], [2, 3, 4, 5]]
      = ([([1, 2, 3], (0 : Int)), ([4, 5], 1)].map Prod.fst).flatten :=
  zip_unzip_roundtrip stored cfg stored_sync stored_lossless zipFresh zipFresh z0 z0 z0 z0
    w0 w0 linkFresh linkFresh [([1, 2, 3], 0), ([4, 5], 1)] [[120, 1], [2, 3, 4, 5]]
    (by decide) (by decide) (by decide) (by decide) (by decide) (by decide) (by decide)
    (by decide)

/-! ## The run-length codec on long runs -/

theorem runs_succ (q b : Nat) : runs (q + 1) b = 255 :: b :: runs q b := by
  simp [runs, List.replicate_succ]

theorem runs_add (p q b : Nat) : runs (p + q) b = runs p b ++ runs q b := by
  induction p with
  | zero => simp [runs]
  | succ p ih =>
    have : p + 1 + q = (p + q) + 1 := by omega
    rw [this, runs_succ, runs_succ, ih]
    rfl

theorem runs_length (q b : Nat) : (runs q b).length = 2 * q := by
  induction q with
  | zero => simp [runs]
  | succ q ih => rw [runs_succ]; simp [ih]; omega

theorem rle_encode_cons (b c : Nat) (l toks : List Nat)
    (h : rle_encode l = c :: b :: toks) :
    rle_encode (b :: l)
      = if c < 255 then (c + 1) :: b :: toks else 1 :: b :: c :: b :: toks := by
  simp only [rle_encode, h, true_and]

theorem rle_encode_replicate (b : Nat) :
    ∀ q r, r < 255 → rle_encode (List.replicate (255 * q + (r + 1)) b) = (r + 1) :: b :: runs q b := by
  intro q
  induction q with
  | zero =>
    intro r
    induction r with
    | zero => intro _; simp [rle_encode, runs]
    | succ r ih =>
      intro hr
      have e : List.replicate (255 * 0 + (r + 1 + 1)) b
          = b :: List.replicate (255 * 0 + (r + 1)) b := by
        simp [List.replicate_succ]
      rw [e, rle_encode_cons b (r + 1) _ _ (ih (by omega)), if_pos (by omega)]
  | succ q ihq =>
    intro r
    induction r with
    | zero =>
      intro _
      have e : List.replicate (255 * (q + 1) + (0 + 1)) b
          = b :: List.replicate (255 * q + (254 + 1)) b := by
        have : 255 * (q + 1) + (0 + 1) = (255 * q + (254 + 1)) + 1 := by omega
        rw [this, List.replicate_succ]
      rw [e, rle_encode_cons b (254 + 1) _ _ (ihq 254 (by omega)), if_neg (by omega), runs_succ]
    | succ r ih =>
      intro hr
      have e : List.replicate (255 * (q + 1) + (r + 1 + 1)) b
          = b :: List.replicate (255 * (q + 1) + (r + 1)) b := by
        have : 255 * (q + 1) + (r + 1 + 1) = (255 * (q + 1) + (r + 1)) + 1 := by omega
        rw [this, List.replicate_succ]
      rw [e, rle_encode_cons b (r + 1) _ _ (ih (by omega)), if_pos (by omega)]

theorem rle_encode_runs (q b : Nat) :
    rle_encode (List.replicate (255 * (q + 1)) b) = runs (q + 1) b := by
  have := rle_encode_replicate b q 254 (by omega)
  have e : 255 * (q + 1) = 255 * q + (254 + 1) := by omega
  rw [e, this, runs_succ]

theorem rle_feed_count (x : Nat) (rest : List Nat) (room : Nat) (hx : x ≠ 0) :
    rle_feed [0] (x :: rest) room = rle_took (rle_feed [1, x] rest room) := by
  simp only [rle_feed, hx, if_false]

theorem rle_feed_byte_fit (c x : Nat) (rest : List Nat) (room : Nat) (h : c ≤ room) :
    rle_feed [1, c] (x :: rest) room
      = { rle_feed [0] rest (room - c) with
          consumed := (rle_feed [0] rest (room - c)).consumed + 1
          produced := List.replicate c x ++ (rle_feed [0] rest (room - c)).produced } := by
  simp only [rle_feed, h, if_true]

theorem rle_feed_byte_full (c x : Nat) (rest : List Nat) (room : Nat) (h : ¬ c ≤ room) :
    rle_feed [1, c] (x :: rest) room
      = { ret := Z_OK, consumed := 1, produced := List.replicate room x, msg := none,
          state := [2, c - room, x] } := by
  simp only [rle_feed, h, if_false]

theorem rle_feed_header (rest : List Nat) (room : Nat) :
    rle_feed [] (120 :: rest) room = rle_took (rle_feed [0] rest room) := by
  simp only [rle_feed, if_true]

theorem rle_feed_runs (b : Nat) (rest : List Nat) :
    ∀ (q room : Nat), 255 * q ≤ room →
      rle_feed [0] (runs q b ++ rest) room
        = { rle_feed [0] rest (room - 255 * q) with
            consumed := (rle_feed [0] rest (room - 255 * q)).consumed + 2 * q
            produced := List.replicate (255 * q) b
              ++ (rle_feed [0] rest (room - 255 * q)).produced } := by
  intro q
  induction q with
  | zero => intro room _; simp [runs]
  | succ q ih =>
    intro room h
    rw [runs_succ]
    simp only [List.cons_append]
    rw [rle_feed_count 255 _ _ (by omega), rle_feed_byte_fit 255 b _ _ (by omega),
      ih (room - 255) (by omega)]
    have e1 : room - 255 - 255 * q = room - 255 * (q + 1) := by omega
    have e2 : List.replicate 255 b ++ List.replicate (255 * q) b
        = List.replicate (255 * (q + 1)) b := by
      rw [List.append_replicate_replicate]
      congr 1
      omega
    simp only [rle_took, e1, ← List.append_assoc, e2]
    have e3 : (rle_feed [0] rest (room - 255 * (q + 1))).consumed + 2 * q + 1 + 1
        = (rle_feed [0] rest (room - 255 * (q + 1))).consumed + 2 * (q + 1) := by omega
    rw [e3]

theorem rle_inflate_start (input : List Nat) (room : Nat) (f : Int) :
    rle_inflate [] input room f
      = if (rle_feed [] input room).ret = Z_OK ∧ (rle_feed [] input room).consumed = 0 ∧
            (rle_feed [] input room).produced = [] then
          { rle_feed [] input room with ret := Z_BUF_ERROR }
        else rle_feed [] input room := rfl

theorem rle_inflate_full :
    rle_inflate [] (120 :: runs 416 97) 98304 Z_PARTIAL_FLUSH
      = { ret := Z_OK, consumed := 773, produced := List.replicate 98304 97, msg := none,
          state := [2, 126, 97] } := by
  have e : runs 416 97 = runs 385 97 ++ (255 :: 97 :: runs 30 97) := by
    rw [show (416 : Nat) = 385 + (30 + 1) from rfl, runs_add, runs_succ 30 97]
  have hfeed : rle_feed [] (120 :: runs 416 97) 98304
      = { ret := Z_OK, consumed := 773, produced := List.replicate 98304 97, msg := none,
          state := [2, 126, 97] } := by
    rw [rle_feed_header, e, rle_feed_runs 97 _ 385 98304 (by omega),
      rle_feed_count 255 _ _ (by omega), rle_feed_byte_full 255 97 _ _ (by omega)]
    simp only [rle_took]
    rw [List.append_replicate_replicate]
  rw [rle_inflate_start, hfeed]
  exact if_neg (fun h => absurd h.2.1 (by decide))

theorem zip_stream_cons (Z : Zlib) (C : Config) (w : World) (cptr : aClient)
    (x : List Nat) (flush : Int) (rest : List (List Nat × Int)) (o : Outcome)
    (h : zip_buffer Z C w cptr (some (cstr x)) x.length flush = some o) :
    zip_stream Z C w cptr ((x, flush) :: rest)
      = emitted o ++ zip_stream Z C o.world o.cptr rest := by
  simp [zip_stream, zip_outcomes, h]

theorem zip_flush_emit (Z : Zlib) (C : Config) (w : World) (cptr : aClient) (zip : aZdata)
    (zout : z_stream) (x : List Nat) (flush : Int)
    (hz : cptr.zip = some zip) (ho : zip.out = some zout) (hc : zip.outcount = 0)
    (hf : flush ≠ 0)
    (hok : (Z.deflate zout.state x (ZIP_BUFFER_SIZE C) Z_PARTIAL_FLUSH).ret = Z_OK)
    (hfit : (Z.deflate zout.state x (ZIP_BUFFER_SIZE C) Z_PARTIAL_FLUSH).produced.length
      ≤ ZIP_BUFFER_SIZE C) :
    ∃ o zip2 zout2, zip_buffer Z C w cptr (some (cstr x)) x.length flush = some o ∧
      emitted o = (Z.deflate zout.state x (ZIP_BUFFER_SIZE C) Z_PARTIAL_FLUSH).produced ∧
      o.cptr.zip = some zip2 ∧ zip2.out = some zout2 ∧ zip2.outcount = 0 ∧
      zout2.state = (Z.deflate zout.state x (ZIP_BUFFER_SIZE C) Z_PARTIAL_FLUSH).state := by
  have hacc : accumulated (zip_append zip (some (cstr x)) x.length) = x := by
    rw [accumulated_append_cstr zip x (by omega)]
    simp [accumulated, hc, readBytes_zero]
  have hout : (zip_append zip (some (cstr x)) x.length).out = some zout := by
    simpa [zip_append] using ho
  have hdef : zip_defer C cptr (zip_append zip (some (cstr x)) x.length).outcount flush
      = false := by
    simp [zip_defer, hf]
  have hzb : zip_buffer Z C w cptr (some (cstr x)) x.length flush
      = some (zip_compress Z C w cptr (zip_append zip (some (cstr x)) x.length) zout) := by
    simp only [zip_buffer, hz, hdef, hout, Bool.false_eq_true, if_false]
  have hdc : deflateCall Z C (zip_append zip (some (cstr x)) x.length) zout
      = Z.deflate zout.state x (ZIP_BUFFER_SIZE C) Z_PARTIAL_FLUSH := by
    show Z.deflate zout.state (accumulated (zip_append zip (some (cstr x)) x.length)) _ _ = _
    rw [hacc]
  have hret : (deflateCall Z C (zip_append zip (some (cstr x)) x.length) zout).ret = Z_OK := by
    rw [hdc]
    exact hok
  have hlen := zip_compress_ok_length Z C w cptr _ zout hret
  obtain ⟨zip2, zout2, hz2, ho2, hc2, hs2, hr2, hrb⟩ :=
    zip_compress_ok_state Z C w cptr _ zout hret
  rw [hdc] at hlen hrb hs2
  rw [List.take_of_length_le hfit] at hlen hrb
  refine ⟨_, zip2, zout2, hzb, ?_, hz2, ho2, hc2, hs2⟩
  simp only [emitted, hr2, hlen, Int.toNat_ofNat]
  exact hrb

theorem rle_deflate_first (q b room : Nat) (f : Int) (hroom : 2 * (q + 1) + 1 ≤ room) :
    rle_deflate [] (List.replicate (255 * (q + 1)) b) room f
      = { ret := Z_OK, consumed := 255 * (q + 1), produced := 120 :: runs (q + 1) b,
          msg := none, state := [1] } := by
  have hl := runs_length (q + 1) b
  simp only [rle_deflate, rle_encode_runs, List.length_replicate, if_true]
  rw [if_pos ⟨by simp only [List.length_cons, hl]; omega, by simp⟩]

theorem rle_deflate_next (q b room : Nat) (f : Int) (hroom : 2 * (q + 1) + 1 ≤ room) :
    rle_deflate [1] (List.replicate (255 * (q + 1)) b) room f
      = { ret := Z_OK, consumed := 255 * (q + 1), produced := runs (q + 1) b,
          msg := none, state := [1] } := by
  have hl := runs_length (q + 1) b
  have hne : ¬ (([1] : List Nat) = []) := by simp
  simp only [rle_deflate, rle_encode_runs, List.length_replicate, hne, if_false]
  rw [if_pos ⟨by omega, by rw [runs_succ]; simp⟩]

theorem rle_deflate_eq : rle.deflate = rle_deflate := rfl

theorem rle_inflate_eq : rle.inflate = rle_inflate := rfl

theorem rle_flush_run (q b : Nat) (hq : 2 * (q + 1) + 1 ≤ ZIP_BUFFER_SIZE cfg) :
    ∀ (k : Nat) (w : World) (cptr : aClient) (zip : aZdata) (zout : z_stream),
      cptr.zip = some zip → zip.out = some zout → zip.outcount = 0 → zout.state = [1] →
      zip_stream rle cfg w cptr (List.replicate k (List.replicate (255 * (q + 1)) b, 1))
        = runs ((q + 1) * k) b := by
  intro k
  induction k with
  | zero =>
    intro w cptr zip zout _ _ _ _
    simp [zip_stream, zip_outcomes, runs]
  | succ k ih =>
    intro w cptr zip zout hz ho hc hs
    have hd : rle.deflate zout.state (List.replicate (255 * (q + 1)) b) (ZIP_BUFFER_SIZE cfg)
        Z_PARTIAL_FLUSH
        = { ret := Z_OK, consumed := 255 * (q + 1), produced := runs (q + 1) b,
            msg := none, state := [1] } := by
      rw [hs, rle_deflate_eq]
      exact rle_deflate_next q b (ZIP_BUFFER_SIZE cfg) Z_PARTIAL_FLUSH hq
    have hl := runs_length (q + 1) b
    obtain ⟨o, zip2, zout2, hzb, hem, hz2, ho2, hc2, hs2⟩ :=
      zip_flush_emit rle cfg w cptr zip zout (List.replicate (255 * (q + 1)) b) 1 hz ho hc
        (by decide) (by rw [hd]) (by
          rw [hd]
          show (runs (q + 1) b).length ≤ _
          rw [hl]
          omega)
    rw [hd] at hem hs2
    simp only at hem hs2
    rw [List.replicate_succ, zip_stream_cons rle cfg w cptr _ 1 _ o hzb, hem,
      ih o.world o.cptr zip2 zout2 hz2 ho2 hc2 hs2, ← runs_add]
    congr 1
    ring

theorem unzip_packet_ok (Z : Zlib) (C : Config) (w : World) (cptr : aClient) (zip : aZdata)
    (zin : z_stream) (p : List Nat)
    (hz : cptr.zip = some zip) (hi : zip.in_ = some zin) (h0 : zip.incount = 0)
    (hok : (Z.inflate zin.state p (UNZIP_BUFFER_SIZE C) Z_PARTIAL_FLUSH).ret = Z_OK) :
    ∃ o, unzip_packet Z C w cptr (cstr p) p.length = some o ∧ o.ret = RetPtr.unzipbuf := by
  have hp : offeredIn w zip (cstr p) p.length = p := by
    rw [offeredIn_eq w zip (cstr p) p.length (by omega) (by omega)]
    simp [pending, h0, readBytes_zero, readBytes_cstr]
  simp only [offeredIn, scratch] at hp
  simp only [unzip_packet, hz, hi, inflate, zstep, offered, ite_self, hp, hok, if_true]
  exact ⟨_, rfl, rfl⟩

theorem flatten_replicate_replicate (k n a : Nat) :
    (List.replicate k (List.replicate n a)).flatten = List.replicate (k * n) a := by
  induction k with
  | zero => simp
  | succ k ih =>
    rw [List.replicate_succ, List.flatten_cons, ih, List.append_replicate_replicate]
    congr 1
    ring

theorem roundtrip_run :
    zip_stream rle cfg w0 (linkInit rle cfg linkFresh)
        (List.replicate 13 (List.replicate 8160 97, 1))
      = 120 :: runs 416 97 ∧
    unzip_stream rle cfg w0 (linkInit rle cfg linkFresh) [120 :: runs 416 97]
      = List.replicate 98304 97 ∧
    ((List.replicate 13 (List.replicate 8160 97, (1 : Int))).map Prod.fst).flatten
      = List.replicate 106080 97 := by
  obtain ⟨_, _, zip, zin, zout, hz, hi, ho, hic, hoc, hsi, hso⟩ :=
    zip_init_ok rle cfg zipFresh z0 z0 w0 linkFresh (by decide)
  have hsi2 : zin.state = [] := hsi
  have hso2 : zout.state = [] := hso
  have hzbs : ZIP_BUFFER_SIZE cfg = 24576 := rfl
  have hubs : UNZIP_BUFFER_SIZE cfg = 98304 := rfl
  refine ⟨?_, ?_, ?_⟩
  · have hd : rle.deflate zout.state (List.replicate (255 * (31 + 1)) 97) (ZIP_BUFFER_SIZE cfg)
        Z_PARTIAL_FLUSH
        = { ret := Z_OK, consumed := 255 * (31 + 1), produced := 120 :: runs (31 + 1) 97,
            msg := none, state := [1] } := by
      rw [hso2, rle_deflate_eq]
      exact rle_deflate_first 31 97 (ZIP_BUFFER_SIZE cfg) Z_PARTIAL_FLUSH (by rw [hzbs]; omega)
    have hl := runs_length (31 + 1) 97
    obtain ⟨o, zip2, zout2, hzb, hem, hz2, ho2, hc2, hs2⟩ :=
      zip_flush_emit rle cfg w0 (linkInit rle cfg linkFresh) zip zout
        (List.replicate (255 * (31 + 1)) 97) 1 hz ho hoc (by decide) (by rw [hd]) (by
          rw [hd]
          show (120 :: runs (31 + 1) 97).length ≤ _
          rw [List.length_cons, hl, hzbs]
          omega)
    rw [hd] at hem hs2
    simp only at hem hs2
    have hrest := rle_flush_run 31 97 (by rw [hzbs]; omega) 12 o.world o.cptr zip2 zout2
      hz2 ho2 hc2 hs2
    have e1 : List.replicate 13 (List.replicate 8160 97, (1 : Int))
        = (List.replicate (255 * (31 + 1)) 97, 1)
            :: List.replicate 12 (List.replicate (255 * (31 + 1)) 97, 1) := rfl
    rw [e1, zip_stream_cons rle cfg w0 _ _ 1 _ o hzb, hem, hrest, List.cons_append, ← runs_add]
  · have hin : rle.inflate zin.state (120 :: runs 416 97) (UNZIP_BUFFER_SIZE cfg) Z_PARTIAL_FLUSH
        = { ret := Z_OK, consumed := 773, produced := List.replicate 98304 97, msg := none,
            state := [2, 126, 97] } := by
      rw [hsi2, rle_inflate_eq, hubs]
      exact rle_inflate_full
    obtain ⟨o, hcall, hret⟩ := unzip_packet_ok rle cfg w0 (linkInit rle cfg linkFresh) zip zin
      (120 :: runs 416 97) hz hi hic (by rw [hin])
    obtain ⟨_, hlen, hrb, _⟩ := unzip_step rle cfg w0 (linkInit rle cfg linkFresh) zip zin
      (120 :: runs 416 97) o hz hi hic hcall hret
    rw [hin] at hlen hrb
    have htake : List.take (UNZIP_BUFFER_SIZE cfg) (List.replicate 98304 97)
        = List.replicate 98304 97 := by
      rw [hubs, List.take_replicate, Nat.min_self]
    rw [htake, List.length_replicate] at hlen hrb
    have hdel : delivered (120 :: runs 416 97) o = List.replicate 98304 97 := by
      unfold delivered
      rw [hret]
      show readBytes o.world.unzipbuf 0 o.length.toNat = _
      rw [hlen, Int.toNat_ofNat]
      exact hrb
    simp only [unzip_stream, unzip_outcomes, hcall, List.map_cons, List.map_nil,
      List.flatten_cons, List.flatten_nil, List.append_nil, hdel]
  · rw [List.map_replicate, flatten_replicate_replicate]

/-- C9 as stated fails.  With the run-length codec, thirteen chunks of 8160
bytes `a` are passed to `zip_buffer` on a fresh sending link, each with the
flush flag; the 833 bytes it emits are read in one piece by a fresh receiving
link.  `unzip_packet` returns 98304 bytes, which fill the decompressed scratch
buffer, and keeps the remaining 60 compressed bytes as carry-over: the
receiving side has delivered 98304 of the 106080 bytes sent. -/
theorem roundtrip_stops_at_full_scratch :
    ends_with_flush (List.replicate 13 (List.replicate 8160 97, 1)) = true ∧
    zip_stream rle cfg w0 (linkInit rle cfg linkFresh)
        (List.replicate 13 (List.replicate 8160 97, 1))
      = 120 :: runs 416 97 ∧
    unzip_stream rle cfg w0 (linkInit rle cfg linkFresh) [120 :: runs 416 97]
      = List.replicate 98304 97 ∧
    ((List.replicate 13 (List.replicate 8160 97, (1 : Int))).map Prod.fst).flatten
      = List.replicate 106080 97 ∧
    unzip_stream rle cfg w0 (linkInit rle cfg linkFresh)
        [zip_stream rle cfg w0 (linkInit rle cfg linkFresh)
          (List.replicate 13 (List.replicate 8160 97, 1))]
      ≠ ((List.replicate 13 (List.replicate 8160 97, (1 : Int))).map Prod.fst).flatten := by
  have main : zip_stream rle cfg w0 (linkInit rle cfg linkFresh)
        (List.replicate 13 (List.replicate 8160 97, 1))
      = 120 :: runs 416 97 ∧
    unzip_stream rle cfg w0 (linkInit rle cfg linkFresh) [120 :: runs 416 97]
      = List.replicate 98304 97 ∧
    ((List.replicate 13 (List.replicate 8160 97, (1 : Int))).map Prod.fst).flatten
      = List.replicate 106080 97 := by
    exact roundtrip_run
  obtain ⟨h1, h2, h3⟩ := main
  refine ⟨by decide, h1, h2, h3, ?_⟩
  rw [h1, h2, h3]
  intro h
  have hl := congrArg List.length h
  rw [List.length_replicate, List.length_replicate] at hl
  exact absurd hl (by decide)

/-! ## Other statuses, sizes, teardown -/

/-- C12.  For every value `inflate` returns other than `Z_OK`, `Z_BUF_ERROR` and
`Z_DATA_ERROR` (`Z_STREAM_END` among them), `unzip_packet` returns no data and
sets the length to -1; the carry-over (`inbuf`, `incount`) and the flags
(`flags2`, `caps`) of the link stay as they were. -/
theorem unzip_packet_other_status (Z : Zlib) (C : Config) (w : World)
    (cptr : aClient) (zip : aZdata) (zin : z_stream) (buffer : Mem) (length : Int)
    (hz : cptr.zip = some zip) (hi : zip.in_ = some zin)
    (h1 : (inflateCall Z C w zip zin buffer length).ret ≠ Z_OK)
    (h2 : (inflateCall Z C w zip zin buffer length).ret ≠ Z_BUF_ERROR)
    (h3 : (inflateCall Z C w zip zin buffer length).ret ≠ Z_DATA_ERROR) :
    ∃ o zip2, unzip_packet Z C w cptr buffer length = some o ∧
      o.ret = RetPtr.NULL ∧ o.length = -1 ∧
      o.cptr.zip = some zip2 ∧ zip2.incount = zip.incount ∧ zip2.inbuf = zip.inbuf ∧
      o.cptr.caps = cptr.caps ∧ o.cptr.flags2 = cptr.flags2 := by
  simp only [inflateCall, offeredIn, scratch] at h1 h2 h3
  simp only [unzip_packet, hz, hi, inflate, zstep, offered, ite_self, h1, h2, h3, if_false,
    false_and]
  exact ⟨_, _, rfl, rfl, rfl, rfl, rfl, rfl, rfl, rfl⟩

/-- C12, on a concrete input: `inflate` reports `Z_STREAM_END` on a fresh
link. -/
theorem unzip_packet_other_status_witness :
    ∃ o zip2, unzip_packet (scripted streamEnd) cfg w0 linkFresh mem0 4 = some o ∧
      o.ret = RetPtr.NULL ∧ o.length = -1 ∧
      o.cptr.zip = some zip2 ∧ zip2.incount = zipFresh.incount ∧ zip2.inbuf = zipFresh.inbuf ∧
      o.cptr.caps = linkFresh.caps ∧ o.cptr.flags2 = linkFresh.flags2 :=
  unzip_packet_other_status (scripted streamEnd) cfg w0 linkFresh zipFresh z0 mem0 4 rfl rfl
    (by decide) (by decide) (by decide)

/-- C13.  When `zip_buffer` invokes `deflate` and `deflate` returns anything but
`Z_OK`, `zip_buffer` returns no data and sets the length to -1. -/
theorem zip_buffer_deflate_error (Z : Zlib) (C : Config) (w : World) (cptr : aClient)
    (zip : aZdata) (zout : z_stream) (buffer : Option Mem) (length flush : Int)
    (hz : cptr.zip = some zip) (ho : zip.out = some zout)
    (hrun : zip_defer C cptr (zip_append zip buffer length).outcount flush = false)
    (herr : (deflateCall Z C (zip_append zip buffer length) zout).ret ≠ Z_OK) :
    ∃ o, zip_buffer Z C w cptr buffer length flush = some o ∧
      o.ret = RetPtr.NULL ∧ o.length = -1 ∧
      deflate_calls o.world.trace = deflate_calls w.trace + 1 := by
  have hout : (zip_append zip buffer length).out = some zout := by
    cases buffer <;> simpa [zip_append] using ho
  refine ⟨zip_compress Z C w cptr (zip_append zip buffer length) zout, ?_, ?_, ?_, ?_⟩
  · simp only [zip_buffer, hz, hrun, hout, Bool.false_eq_true, if_false]
  · simp only [deflateCall] at herr
    simp only [zip_compress, deflate, zstep, offered, herr, if_false]
  · exact zip_compress_fatal Z C w cptr _ zout herr
  · simp only [deflateCall] at herr
    simp only [zip_compress, deflate, zstep, offered, herr, if_false]
    simp [deflate_calls_append, deflate_calls]

/-- C13, on a concrete input: a second flush with nothing accumulated, on which
the store-only codec reports `Z_BUF_ERROR`. -/
theorem zip_buffer_deflate_error_witness :
    ∃ o, zip_buffer stored cfg w0 linkCarry none 0 1 = some o ∧
      o.ret = RetPtr.NULL ∧ o.length = -1 ∧
      deflate_calls o.world.trace = deflate_calls w0.trace + 1 :=
  zip_buffer_deflate_error stored cfg w0 linkCarry zipCarry z1 none 0 1 rfl rfl
    (by decide) (by decide)

/-- C14.  The compressed scratch capacity is `ZIP_MAXIMUM + READBUF_SIZE` and the
decompressed one is four times that.  On a call on which `inflate` returns
`Z_OK`, `inflate` was given the whole decompressed capacity as output space, and
the length returned is that capacity less the space `inflate` left unused, a
number from 0 to `4 * (ZIP_MAXIMUM + READBUF_SIZE)`. -/
theorem unzip_packet_length_range (Z : Zlib) (C : Config) (w : World)
    (cptr : aClient) (zip : aZdata) (zin : z_stream) (buffer : Mem) (length : Int)
    (hz : cptr.zip = some zip) (hi : zip.in_ = some zin)
    (hok : (inflateCall Z C w zip zin buffer length).ret = Z_OK) :
    ZIP_BUFFER_SIZE C = C.ZIP_MAXIMUM + READBUF_SIZE ∧
    UNZIP_BUFFER_SIZE C = 4 * ZIP_BUFFER_SIZE C ∧
    ∃ o, unzip_packet Z C w cptr buffer length = some o ∧
      o.world.trace = w.trace ++
        [Event.inflate (offeredIn w zip buffer length) (UNZIP_BUFFER_SIZE C) Z_PARTIAL_FLUSH] ∧
      o.ret = RetPtr.unzipbuf ∧
      o.length = (UNZIP_BUFFER_SIZE C : Int)
        - spaceLeft (UNZIP_BUFFER_SIZE C) (inflateCall Z C w zip zin buffer length) ∧
      0 ≤ o.length ∧ o.length ≤ 4 * ((C.ZIP_MAXIMUM : Int) + READBUF_SIZE) := by
  refine ⟨rfl, rfl, ?_⟩
  simp only [inflateCall, offeredIn, scratch, spaceLeft] at hok ⊢
  simp only [unzip_packet, hz, hi, inflate, zstep, offered, ite_self, hok, if_true]
  refine ⟨_, rfl, rfl, rfl, rfl, ?_, ?_⟩
  · simp only [List.length_take]
    omega
  · simp only [List.length_take, UNZIP_BUFFER_SIZE, ZIP_BUFFER_SIZE]
    push_cast
    omega

/-- C14, on a concrete input: three bytes arrive on a link in mid-stream that
carries one byte over. -/
theorem unzip_packet_length_range_witness :
    ZIP_BUFFER_SIZE cfg = cfg.ZIP_MAXIMUM + READBUF_SIZE ∧
    UNZIP_BUFFER_SIZE cfg = 4 * ZIP_BUFFER_SIZE cfg ∧
    ∃ o, unzip_packet stored cfg w0 linkCarry mem0 3 = some o ∧
      o.world.trace = w0.trace ++
        [Event.inflate (offeredIn w0 zipCarry mem0 3) (UNZIP_BUFFER_SIZE cfg) Z_PARTIAL_FLUSH] ∧
      o.ret = RetPtr.unzipbuf ∧
      o.length = (UNZIP_BUFFER_SIZE cfg : Int)
        - spaceLeft (UNZIP_BUFFER_SIZE cfg) (inflateCall stored cfg w0 zipCarry z1 mem0 3) ∧
      0 ≤ o.length ∧ o.length ≤ 4 * ((cfg.ZIP_MAXIMUM : Int) + READBUF_SIZE) :=
  unzip_packet_length_range stored cfg w0 linkCarry zipCarry z1 mem0 3 rfl rfl (by decide)

theorem inflateEnd_calls_append (a b : List Event) :
    inflateEnd_calls (a ++ b) = inflateEnd_calls a + inflateEnd_calls b := by
  induction a with
  | nil => simp [inflateEnd_calls]
  | cons e a ih =>
    cases e <;> simp [inflateEnd_calls, ih]
    omega

theorem deflateEnd_calls_append (a b : List Event) :
    deflateEnd_calls (a ++ b) = deflateEnd_calls a + deflateEnd_calls b := by
  induction a with
  | nil => simp [deflateEnd_calls]
  | cons e a ih =>
    cases e <;> simp [deflateEnd_calls, ih]
    omega

theorem clearBits_testBit (x m i : Nat) :
    (clearBits x m).testBit i = (x.testBit i && !m.testBit i) := by
  simp [clearBits, Nat.testBit_ldiff]

theorem clearBits_idem (x m : Nat) : clearBits (clearBits x m) m = clearBits x m := by
  apply Nat.eq_of_testBit_eq
  intro i
  simp only [clearBits_testBit]
  cases x.testBit i <;> cases m.testBit i <;> rfl

/-- C16.  For every link, whatever `zip_init` did or did not set up, `zip_free`
clears the bits of `FLAGS2_ZIP` in `flags2` and leaves every other bit as it
was, calls `inflateEnd` once if the link has an inbound stream and not at all
otherwise, likewise `deflateEnd` for the outbound stream, and leaves `zip`
null; a second `zip_free` changes nothing. -/
theorem zip_free_releases (C : Config) (w : World) (cptr : aClient) :
    (zip_free C w cptr).2.zip = none ∧
    (∀ i, (zip_free C w cptr).2.flags2.testBit i
      = (cptr.flags2.testBit i && !C.FLAGS2_ZIP.testBit i)) ∧
    (zip_free C w cptr).2.caps = cptr.caps ∧
    inflateEnd_calls (zip_free C w cptr).1.trace
      = inflateEnd_calls w.trace + (if has_in cptr = true then 1 else 0) ∧
    deflateEnd_calls (zip_free C w cptr).1.trace
      = deflateEnd_calls w.trace + (if has_out cptr = true then 1 else 0) ∧
    zip_free C (zip_free C w cptr).1 (zip_free C w cptr).2 = zip_free C w cptr := by
  cases hz : cptr.zip with
  | none =>
    simp only [zip_free, hz, has_in, has_out, clearBits_testBit, clearBits_idem]
    simp
  | some zip =>
    cases hi : zip.in_ <;> cases ho : zip.out <;>
      simp [zip_free, hz, hi, ho, has_in, has_out, clearBits_testBit, clearBits_idem,
        inflateEnd_calls_append, deflateEnd_calls_append, inflateEnd_calls, deflateEnd_calls]

/-! ## The carry-over is not bounded -/

theorem rle_inflate_overflow (rest : List Nat) :
    rle_inflate [] (120 :: (runs 385 97 ++ 255 :: 97 :: rest)) 98304 Z_PARTIAL_FLUSH
      = { ret := Z_OK, consumed := 773, produced := List.replicate 98304 97, msg := none,
          state := [2, 126, 97] } := by
  have hfeed : rle_feed [] (120 :: (runs 385 97 ++ 255 :: 97 :: rest)) 98304
      = { ret := Z_OK, consumed := 773, produced := List.replicate 98304 97, msg := none,
          state := [2, 126, 97] } := by
    rw [rle_feed_header, rle_feed_runs 97 _ 385 98304 (by omega),
      rle_feed_count 255 _ _ (by omega), rle_feed_byte_full 255 97 _ _ (by omega)]
    simp only [rle_took]
    rw [List.append_replicate_replicate]
  rw [rle_inflate_start, hfeed]
  exact if_neg (fun h => absurd h.2.1 (by decide))

theorem runs_8000 : runs 8000 97 = runs 385 97 ++ 255 :: 97 :: runs 7614 97 := by
  rw [show (8000 : Nat) = 385 + (7614 + 1) from rfl, runs_add, runs_succ 7614 97]

theorem readBytes_cstr_len (l : List Nat) (n : Nat) (h : l.length = n) :
    readBytes (cstr l) 0 n = l := by
  subst h
  exact readBytes_cstr l

/-- C11 (the code departs from the claim).  On a link that a successful
`zip_init` has just set up, one `unzip_packet` call with a chunk of at most
`READBUF_SIZE` bytes, on which `inflate` returns `Z_OK` and leaves more than
`ZIP_MAXIMUM` bytes of the chunk unconsumed, copies all of them to `inbuf`:
`incount` is the number of bytes left, above `ZIP_MAXIMUM`. -/
theorem unzip_packet_carry_unbounded (Z : Zlib) (C : Config) (m : aZdata)
    (s_in s_out : z_stream) (w : World) (cptr : aClient) (buffer : Mem) (length : Int)
    (hinit : (zip_init Z C m s_in s_out w cptr).2.2 = 0)
    (h0 : 0 ≤ length) (_hlen : length ≤ READBUF_SIZE)
    (hok : (Z.inflate Z.inflateInit.state (readBytes buffer 0 length.toNat)
      (UNZIP_BUFFER_SIZE C) Z_PARTIAL_FLUSH).ret = Z_OK)
    (hleft : C.ZIP_MAXIMUM < length.toNat - (Z.inflate Z.inflateInit.state
      (readBytes buffer 0 length.toNat) (UNZIP_BUFFER_SIZE C) Z_PARTIAL_FLUSH).consumed) :
    ∃ o zip2, unzip_packet Z C (zip_init Z C m s_in s_out w cptr).1
        (zip_init Z C m s_in s_out w cptr).2.1 buffer length = some o ∧
      o.ret = RetPtr.unzipbuf ∧ o.cptr.zip = some zip2 ∧
      zip2.incount = ((length.toNat - (Z.inflate Z.inflateInit.state
        (readBytes buffer 0 length.toNat) (UNZIP_BUFFER_SIZE C) Z_PARTIAL_FLUSH).consumed
          : Nat) : Int) ∧
      (C.ZIP_MAXIMUM : Int) < zip2.incount := by
  obtain ⟨_, _, zip, zin, zout, hz, hi, _, hic, _, hsi, _⟩ :=
    zip_init_ok Z C m s_in s_out w cptr hinit
  have hp : offeredIn (zip_init Z C m s_in s_out w cptr).1 zip buffer length
      = readBytes buffer 0 length.toNat := by
    rw [offeredIn_eq _ zip buffer length (by omega) h0]
    simp [pending, hic, readBytes_zero]
  simp only [offeredIn, scratch] at hp
  rw [← hsi] at hok hleft ⊢
  have hn : (zip.incount + length).toNat = length.toNat := by
    rw [hic]
    simp
  rw [hn] at hp
  have hne : length.toNat - min (Z.inflate zin.state (readBytes buffer 0 length.toNat)
      (UNZIP_BUFFER_SIZE C) Z_PARTIAL_FLUSH).consumed length.toNat ≠ 0 := by
    omega
  simp only [unzip_packet, hz, hi, inflate, zstep, offered, ite_self, hn, hp, hok, if_true,
    if_pos hne]
  refine ⟨_, _, rfl, rfl, rfl, ?_, ?_⟩
  · show ((_ : Nat) : Int) = _
    congr 1
    omega
  · show (C.ZIP_MAXIMUM : Int) < ((_ : Nat) : Int)
    omega

/-- C11, on a concrete input: with the run-length codec, a first chunk of 16001
bytes (the leading byte and 8000 pairs `255 a`) fills the decompressed scratch
buffer after 773 bytes; the other 15228 are carried over, more than the 8192
that `inbuf` holds. -/
theorem unzip_packet_carry_unbounded_witness :
    ∃ o zip2, unzip_packet rle cfg (zip_init rle cfg zipFresh z0 z0 w0 linkFresh).1
        (zip_init rle cfg zipFresh z0 z0 w0 linkFresh).2.1
        (cstr (120 :: runs 8000 97)) 16001 = some o ∧
      o.ret = RetPtr.unzipbuf ∧ o.cptr.zip = some zip2 ∧
      zip2.incount = (((16001 : Int).toNat - (rle.inflate rle.inflateInit.state
        (readBytes (cstr (120 :: runs 8000 97)) 0 (16001 : Int).toNat)
          (UNZIP_BUFFER_SIZE cfg) Z_PARTIAL_FLUSH).consumed : Nat) : Int) ∧
      (cfg.ZIP_MAXIMUM : Int) < zip2.incount :=
  have hl : (120 :: runs 8000 97).length = 16001 := by
    rw [List.length_cons, runs_length]
  have hr : readBytes (cstr (120 :: runs 8000 97)) 0 (16001 : Int).toNat
      = 120 :: (runs 385 97 ++ 255 :: 97 :: runs 7614 97) := by
    rw [show (16001 : Int).toNat = 16001 from rfl, readBytes_cstr_len _ 16001 hl, runs_8000]
  have hc : rle.inflate rle.inflateInit.state
      (readBytes (cstr (120 :: runs 8000 97)) 0 (16001 : Int).toNat)
      (UNZIP_BUFFER_SIZE cfg) Z_PARTIAL_FLUSH
      = { ret := Z_OK, consumed := 773, produced := List.replicate 98304 97, msg := none,
          state := [2, 126, 97] } := by
    rw [hr, rle_inflate_eq, show UNZIP_BUFFER_SIZE cfg = 98304 from rfl]
    exact rle_inflate_overflow _
  unzip_packet_carry_unbounded rle cfg zipFresh z0 z0 w0 linkFresh
    (cstr (120 :: runs 8000 97)) 16001 (by decide) (by decide) (by decide)
    (by rw [hc]) (by rw [hc]; decide)

/-! ## The shared scratch buffers -/

end S_zip

/-! # Theorems on `include/s_crypt.h` -/

namespace S_crypt

theorem and_flag_congr (a b f : Nat) (h : ∀ i, f.testBit i = true → a.testBit i = b.testBit i) :
    a &&& f = b &&& f := by
  apply Nat.eq_of_testBit_eq
  intro i
  rw [Nat.testBit_and, Nat.testBit_and]
  cases hf : f.testBit i
  · simp
  · rw [h i hf]

theorem testBit_ENCRYPT (i : Nat) : CRYPTFLAG_ENCRYPT.testBit i = decide (i = 0) := by
  rw [show CRYPTFLAG_ENCRYPT = 2 ^ 0 from rfl, Nat.testBit_two_pow]
  simp [eq_comm]

theorem testBit_DECRYPT (i : Nat) : CRYPTFLAG_DECRYPT.testBit i = decide (i = 1) := by
  rw [show CRYPTFLAG_DECRYPT = 2 ^ 1 from rfl, Nat.testBit_two_pow]
  simp [eq_comm]

/-- C21: the seven result codes of `s_crypt.h` are pairwise distinct; the two
direction flags are the distinct single bits `2^0` and `2^1`, so setting or
clearing the flag of one direction in any `flags` leaves the flag of the other
direction as it was. -/
theorem crypt_codes_enumeration :
    [CRYPT_OK, CRYPT_BADPARAM, CRYPT_ENCRYPTED, CRYPT_DECRYPTED, CRYPT_NOT_ENCRYPTED,
      CRYPT_NOT_DECRYPTED, CRYPT_ERROR].Nodup ∧
    CRYPTFLAG_ENCRYPT = 2 ^ 0 ∧ CRYPTFLAG_DECRYPT = 2 ^ 1 ∧
    CRYPTFLAG_ENCRYPT ≠ CRYPTFLAG_DECRYPT ∧
    CRYPTFLAG_ENCRYPT &&& CRYPTFLAG_DECRYPT = 0 ∧
    ∀ flags : Nat,
      testFlag (setFlag flags CRYPTFLAG_ENCRYPT) CRYPTFLAG_DECRYPT
        = testFlag flags CRYPTFLAG_DECRYPT ∧
      testFlag (clearFlag flags CRYPTFLAG_ENCRYPT) CRYPTFLAG_DECRYPT
        = testFlag flags CRYPTFLAG_DECRYPT ∧
      testFlag (setFlag flags CRYPTFLAG_DECRYPT) CRYPTFLAG_ENCRYPT
        = testFlag flags CRYPTFLAG_ENCRYPT ∧
      testFlag (clearFlag flags CRYPTFLAG_DECRYPT) CRYPTFLAG_ENCRYPT
        = testFlag flags CRYPTFLAG_ENCRYPT ∧
      testFlag (setFlag flags CRYPTFLAG_ENCRYPT) CRYPTFLAG_ENCRYPT = true ∧
      testFlag (clearFlag flags CRYPTFLAG_ENCRYPT) CRYPTFLAG_ENCRYPT = false ∧
      testFlag (setFlag flags CRYPTFLAG_DECRYPT) CRYPTFLAG_DECRYPT = true ∧
      testFlag (clearFlag flags CRYPTFLAG_DECRYPT) CRYPTFLAG_DECRYPT = false := by
  refine ⟨by decide, rfl, rfl, by decide, by decide, fun flags => ⟨?_, ?_, ?_, ?_, ?_, ?_, ?_, ?_⟩⟩
  · unfold testFlag setFlag
    rw [and_flag_congr (flags ||| CRYPTFLAG_ENCRYPT) flags CRYPTFLAG_DECRYPT]
    intro i hi
    rw [testBit_DECRYPT] at hi
    rw [Nat.testBit_or, testBit_ENCRYPT]
    have : i = 1 := by simpa using hi
    subst this; simp
  · unfold testFlag clearFlag
    rw [and_flag_congr (Nat.ldiff flags CRYPTFLAG_ENCRYPT) flags CRYPTFLAG_DECRYPT]
    intro i hi
    rw [testBit_DECRYPT] at hi
    rw [Nat.testBit_ldiff, testBit_ENCRYPT]
    have : i = 1 := by simpa using hi
    subst this; simp
  · unfold testFlag setFlag
    rw [and_flag_congr (flags ||| CRYPTFLAG_DECRYPT) flags CRYPTFLAG_ENCRYPT]
    intro i hi
    rw [testBit_ENCRYPT] at hi
    rw [Nat.testBit_or, testBit_DECRYPT]
    have : i = 0 := by simpa using hi
    subst this; simp
  · unfold testFlag clearFlag
    rw [and_flag_congr (Nat.ldiff flags CRYPTFLAG_DECRYPT) flags CRYPTFLAG_ENCRYPT]
    intro i hi
    rw [testBit_ENCRYPT] at hi
    rw [Nat.testBit_ldiff, testBit_DECRYPT]
    have : i = 0 := by simpa using hi
    subst this; simp
  · unfold testFlag setFlag
    rw [decide_eq_true_eq]
    intro h
    have := congrArg (fun x => x.testBit 0) h
    simp only [Nat.testBit_and, Nat.testBit_or, testBit_ENCRYPT, Nat.zero_testBit,
      decide_True, Bool.or_true, Bool.and_true] at this
    exact absurd this (by decide)
  · unfold testFlag clearFlag
    rw [decide_eq_false_iff_not, not_not]
    apply Nat.eq_of_testBit_eq
    intro i
    simp [Nat.testBit_and, Nat.testBit_ldiff, testBit_ENCRYPT]
  · unfold testFlag setFlag
    rw [decide_eq_true_eq]
    intro h
    have := congrArg (fun x => x.testBit 1) h
    simp only [Nat.testBit_and, Nat.testBit_or, testBit_DECRYPT, Nat.zero_testBit,
      decide_True, Bool.or_true, Bool.and_true] at this
    exact absurd this (by decide)
  · unfold testFlag clearFlag
    rw [decide_eq_false_iff_not, not_not]
    apply Nat.eq_of_testBit_eq
    intro i
    simp [Nat.testBit_and, Nat.testBit_ldiff, testBit_DECRYPT]

end S_crypt

/-! # Theorems on `src/match.c` -/

namespace Match

/-! ## The attribute table -/

set_option maxRecDepth 100000 in
/-- The codes whose entry in `CharAttrs` differs from the row label. -/
theorem CharAttrs_mislabelled :
    (List.range 256).filter (fun c => decide (CharAttrs.getD c [] ≠ labelled c))
      = [65, 95, 96] := by
  decide

set_option maxRecDepth 100000 in
/-- The table `CharAttrs` has 256 entries. -/
theorem CharAttrs_length : CharAttrs.length = 256 := by
  decide

set_option maxRecDepth 100000 in
/-- The entries of `CharAttrs` for the codes 65, 95 and 96. -/
theorem CharAttrs_at_65_95_96 :
    CharAttrs.getD 65 [] = [Attr.PRINT_C] ∧
    CharAttrs.getD 95 [] = [Attr.PRINT_C, Attr.ALPHA_C, Attr.NICK_C] ∧
    CharAttrs.getD 96 [] = [Attr.PRINT_C, Attr.NICK_C] := by
  decide

/-- C20: `CharAttrs` has 256 entries, but it is not indexed as its row labels
say: the row labelled `:;<=>` holds six entries for five characters, so every
entry from there to the row labelled `_` sits one place late. The entry of
`'A'` (65) is the second entry of the row labelled `?@`, plain `PRINT_C` with
neither `ALPHA_C` nor `NICK_C`; the entry of `'_'` (95) is the one labelled
`^` and has `ALPHA_C` set; the entry labelled `_` lands on code 96, for which
there is no label. The entries that differ from their labels are exactly those
of the codes 65, 95 and 96. -/
theorem CharAttrs_one_place_late :
    CharAttrs.length = 256 ∧
    CharAttrs.getD 65 [] = [Attr.PRINT_C] ∧
    hasAttr 65 Attr.ALPHA_C = false ∧ hasAttr 65 Attr.NICK_C = false ∧
    hasAttr 95 Attr.ALPHA_C = true ∧
    CharAttrs.getD 96 [] = labelled 95 ∧
    (List.range 256).filter (fun c => decide (CharAttrs.getD c [] ≠ labelled c))
      = [65, 95, 96] := by
  obtain ⟨h65, h95, h96⟩ := CharAttrs_at_65_95_96
  refine ⟨CharAttrs_length, h65, ?_, ?_, ?_, ?_, CharAttrs_mislabelled⟩
  · unfold hasAttr; rw [h65]; decide
  · unfold hasAttr; rw [h65]; decide
  · unfold hasAttr; rw [h95]; decide
  · rw [h96]; decide

/-! ## `irccmp` -/

set_option maxRecDepth 100000 in
/-- Only the terminator folds to 0 under `ToUpper`. -/
theorem ToUpper_pos_table : ∀ c < 256, 0 < c → 0 < ToUpper c := by
  decide

theorem ToUpper_zero : ToUpper 0 = 0 := by decide

theorem ToUpper_pos (c : Nat) (h0 : 0 < c) (h : c < 256) : 0 < ToUpper c :=
  ToUpper_pos_table c h h0

theorem isStr_cons (c : Nat) (s : List Nat) :
    isStr (c :: s) = true ↔ (0 < c ∧ c < 256) ∧ isStr s = true := by
  simp [isStr]

theorem irccmp_nil_nil : irccmp [] [] = 0 := by
  simp [irccmp]

theorem irccmp_nil_cons (d : Nat) (t : List Nat) :
    irccmp [] (d :: t) = -(ToUpper d : Int) := by
  simp only [irccmp, ToUpper_zero, List.headD_cons]
  split <;> omega

theorem irccmp_cons_nil (c : Nat) (s : List Nat) (h0 : 0 < c) (h : c < 256) :
    irccmp (c :: s) [] = (ToUpper c : Int) := by
  have := ToUpper_pos c h0 h
  simp only [irccmp, ToUpper_zero, List.headD_nil]
  rw [if_neg (by omega)]; omega

theorem irccmp_cons_cons (c d : Nat) (s t : List Nat) (h0 : 0 < c) :
    irccmp (c :: s) (d :: t) =
      if ToUpper c = ToUpper d then irccmp s t else (ToUpper c : Int) - (ToUpper d : Int) := by
  simp only [irccmp, List.headD_cons, List.tail_cons]
  by_cases h : ToUpper c = ToUpper d
  · rw [if_pos (by omega), if_neg (by omega), if_pos h]
  · rw [if_neg (by omega), if_neg h]

theorem irccmp_antisymm (s1 : List Nat) : ∀ s2 : List Nat,
    isStr s1 = true → isStr s2 = true → irccmp s2 s1 = -irccmp s1 s2 := by
  induction s1 with
  | nil =>
    intro s2 _ h2
    cases s2 with
    | nil => simp [irccmp_nil_nil]
    | cons d t =>
      obtain ⟨⟨hd0, hd⟩, _⟩ := (isStr_cons d t).1 h2
      rw [irccmp_nil_cons, irccmp_cons_nil d t hd0 hd]; omega
  | cons c s ih =>
    intro s2 h1 h2
    obtain ⟨⟨hc0, hc⟩, hs⟩ := (isStr_cons c s).1 h1
    cases s2 with
    | nil => rw [irccmp_nil_cons, irccmp_cons_nil c s hc0 hc]
    | cons d t =>
      obtain ⟨⟨hd0, hd⟩, ht⟩ := (isStr_cons d t).1 h2
      rw [irccmp_cons_cons c d s t hc0, irccmp_cons_cons d c t s hd0]
      by_cases h : ToUpper c = ToUpper d
      · rw [if_pos h, if_pos h.symm]; exact ih t hs ht
      · rw [if_neg h, if_neg (fun e => h e.symm)]; omega

theorem irccmp_eq_zero_iff (s1 : List Nat) : ∀ s2 : List Nat,
    isStr s1 = true → isStr s2 = true →
    (irccmp s1 s2 = 0 ↔
      s1.length = s2.length ∧
        ∀ i < s1.length, ToUpper (s1.getD i 0) = ToUpper (s2.getD i 0)) := by
  induction s1 with
  | nil =>
    intro s2 _ h2
    cases s2 with
    | nil => simp [irccmp_nil_nil]
    | cons d t =>
      obtain ⟨⟨hd0, hd⟩, _⟩ := (isStr_cons d t).1 h2
      have := ToUpper_pos d hd0 hd
      rw [irccmp_nil_cons]
      constructor
      · intro h; omega
      · intro h; simp at h
  | cons c s ih =>
    intro s2 h1 h2
    obtain ⟨⟨hc0, hc⟩, hs⟩ := (isStr_cons c s).1 h1
    have hcp := ToUpper_pos c hc0 hc
    cases s2 with
    | nil =>
      rw [irccmp_cons_nil c s hc0 hc]
      constructor
      · intro h; omega
      · intro h; simp at h
    | cons d t =>
      obtain ⟨⟨hd0, hd⟩, ht⟩ := (isStr_cons d t).1 h2
      rw [irccmp_cons_cons c d s t hc0]
      by_cases h : ToUpper c = ToUpper d
      · rw [if_pos h, ih t hs ht]
        constructor
        · rintro ⟨hl, hall⟩
          refine ⟨by simp [hl], ?_⟩
          intro i hi
          cases i with
          | zero => simpa using h
          | succ i =>
            simp only [List.length_cons, Nat.add_lt_add_iff_right] at hi
            simpa using hall i hi
        · rintro ⟨hl, hall⟩
          refine ⟨by simpa using hl, ?_⟩
          intro i hi
          have := hall (i + 1) (by simp [hi])
          simpa using this
      · rw [if_neg h]
        constructor
        · intro e; exact absurd (by omega) h
        · rintro ⟨_, hall⟩
          exact absurd (by simpa using hall 0 (by simp)) h

theorem irccmp_first_diff (s1 : List Nat) : ∀ s2 : List Nat,
    isStr s1 = true → isStr s2 = true → irccmp s1 s2 ≠ 0 →
    ∃ i, i ≤ s1.length ∧ i ≤ s2.length ∧
      (∀ j < i, ToUpper (s1.getD j 0) = ToUpper (s2.getD j 0)) ∧
      ToUpper (s1.getD i 0) ≠ ToUpper (s2.getD i 0) ∧
      irccmp s1 s2 = (ToUpper (s1.getD i 0) : Int) - (ToUpper (s2.getD i 0) : Int) := by
  induction s1 with
  | nil =>
    intro s2 _ h2 hne
    cases s2 with
    | nil => exact absurd irccmp_nil_nil hne
    | cons d t =>
      obtain ⟨⟨hd0, hd⟩, _⟩ := (isStr_cons d t).1 h2
      have := ToUpper_pos d hd0 hd
      refine ⟨0, by simp, by simp, by simp, ?_, ?_⟩
      · simp only [List.getD_nil, List.getD_cons_zero, ToUpper_zero]; omega
      · rw [irccmp_nil_cons]
        simp only [List.getD_nil, List.getD_cons_zero, ToUpper_zero]; omega
  | cons c s ih =>
    intro s2 h1 h2 hne
    obtain ⟨⟨hc0, hc⟩, hs⟩ := (isStr_cons c s).1 h1
    have hcp := ToUpper_pos c hc0 hc
    cases s2 with
    | nil =>
      refine ⟨0, by simp, by simp, by simp, ?_, ?_⟩
      · simp only [List.getD_nil, List.getD_cons_zero, ToUpper_zero]; omega
      · rw [irccmp_cons_nil c s hc0 hc]
        simp only [List.getD_nil, List.getD_cons_zero, ToUpper_zero]; omega
    | cons d t =>
      obtain ⟨⟨hd0, hd⟩, ht⟩ := (isStr_cons d t).1 h2
      rw [irccmp_cons_cons c d s t hc0] at hne ⊢
      by_cases h : ToUpper c = ToUpper d
      · rw [if_pos h] at hne ⊢
        obtain ⟨i, hi1, hi2, hall, hd, hres⟩ := ih t hs ht hne
        refine ⟨i + 1, by simpa using hi1, by simpa using hi2, ?_, by simpa using hd,
          by simpa using hres⟩
        intro j hj
        cases j with
        | zero => simpa using h
        | succ j => simpa using hall j (by omega)
      · rw [if_neg h]
        exact ⟨0, by simp, by simp, by simp, by simpa using h, by simp⟩

theorem irccmp_neg_iff (s1 : List Nat) : ∀ s2 : List Nat,
    isStr s1 = true → isStr s2 = true →
    (irccmp s1 s2 < 0 ↔ lexLt (upper s1) (upper s2) = true) := by
  induction s1 with
  | nil =>
    intro s2 _ h2
    cases s2 with
    | nil => simp [irccmp_nil_nil, upper, lexLt]
    | cons d t =>
      obtain ⟨⟨hd0, hd⟩, _⟩ := (isStr_cons d t).1 h2
      have := ToUpper_pos d hd0 hd
      rw [irccmp_nil_cons]
      simp only [upper, List.map_nil, List.map_cons, lexLt, iff_true]
      omega
  | cons c s ih =>
    intro s2 h1 h2
    obtain ⟨⟨hc0, hc⟩, hs⟩ := (isStr_cons c s).1 h1
    have hcp := ToUpper_pos c hc0 hc
    cases s2 with
    | nil =>
      rw [irccmp_cons_nil c s hc0 hc]
      simp only [upper, List.map_nil, List.map_cons, lexLt]
      constructor
      · intro h; omega
      · intro h; exact absurd h (by decide)
    | cons d t =>
      obtain ⟨⟨hd0, hd⟩, ht⟩ := (isStr_cons d t).1 h2
      rw [irccmp_cons_cons c d s t hc0]
      have ih2 := ih t hs ht
      simp only [upper] at ih2
      simp only [upper, List.map_cons, lexLt, Bool.or_eq_true, Bool.and_eq_true,
        decide_eq_true_eq]
      by_cases h : ToUpper c = ToUpper d
      · rw [if_pos h, ih2]
        constructor
        · intro e; exact Or.inr ⟨h, e⟩
        · rintro (e | ⟨_, e⟩)
          · omega
          · exact e
      · rw [if_neg h]
        constructor
        · intro e; exact Or.inl (by omega)
        · rintro (e | ⟨e, _⟩)
          · omega
          · exact absurd e h

/-- C19: `irccmp` is a case-insensitive lexicographic comparison. For C strings
`s1` and `s2` it returns 0 exactly when they have the same length and agree at
every position under `ToUpper`; otherwise there is a first position `i` where
the folded bytes differ (the terminator counting as 0) and the result is
`ToUpper(s1[i]) - ToUpper(s2[i])`; the result is negative exactly when the
folded `s1` is lexicographically less than the folded `s2`, positive exactly
when it is greater, and the sign flips when the arguments are swapped. -/
theorem irccmp_folded_lexicographic (s1 s2 : List Nat)
    (h1 : isStr s1 = true) (h2 : isStr s2 = true) :
    (irccmp s1 s2 = 0 ↔
      s1.length = s2.length ∧
        ∀ i < s1.length, ToUpper (s1.getD i 0) = ToUpper (s2.getD i 0)) ∧
    (irccmp s1 s2 ≠ 0 →
      ∃ i, i ≤ s1.length ∧ i ≤ s2.length ∧
        (∀ j < i, ToUpper (s1.getD j 0) = ToUpper (s2.getD j 0)) ∧
        ToUpper (s1.getD i 0) ≠ ToUpper (s2.getD i 0) ∧
        irccmp s1 s2 = (ToUpper (s1.getD i 0) : Int) - (ToUpper (s2.getD i 0) : Int)) ∧
    (irccmp s1 s2 < 0 ↔ lexLt (upper s1) (upper s2) = true) ∧
    (0 < irccmp s1 s2 ↔ lexLt (upper s2) (upper s1) = true) ∧
    Int.sign (irccmp s1 s2) = -Int.sign (irccmp s2 s1) := by
  refine ⟨irccmp_eq_zero_iff s1 s2 h1 h2, irccmp_first_diff s1 s2 h1 h2,
    irccmp_neg_iff s1 s2 h1 h2, ?_, ?_⟩
  · rw [← irccmp_neg_iff s2 s1 h2 h1, irccmp_antisymm s1 s2 h1 h2]; omega
  · rw [irccmp_antisymm s1 s2 h1 h2, Int.sign_neg, neg_neg]

/-- C19 at `"aB"` against `"Abc"`: the first folded difference is the
terminator of `"aB"` against `'c'`, and the result is `0 - ToUpper('c')`. -/
theorem irccmp_folded_lexicographic_witness :
    isStr [97, 66] = true ∧ isStr [65, 98, 99] = true ∧
    irccmp [97, 66] [65, 98, 99] = -67 ∧
    (irccmp [97, 66] [65, 98, 99] < 0 ↔
      lexLt (upper [97, 66]) (upper [65, 98, 99]) = true) ∧
    Int.sign (irccmp [97, 66] [65, 98, 99]) = -Int.sign (irccmp [65, 98, 99] [97, 66]) :=
  ⟨by decide, by decide, by decide,
    (irccmp_folded_lexicographic [97, 66] [65, 98, 99] (by decide) (by decide)).2.2.1,
    (irccmp_folded_lexicographic [97, 66] [65, 98, 99] (by decide) (by decide)).2.2.2.2⟩

/-! ## `collapse` -/

theorem isStr_ne_zero (s : List Nat) (h : isStr s = true) : ∀ c ∈ s, c ≠ 0 := by
  intro c hc
  have := List.all_eq_true.1 h c hc
  simp only [Bool.and_eq_true, decide_eq_true_eq] at this
  omega

theorem isStr_append (a b : List Nat) :
    isStr (a ++ b) = true ↔ isStr a = true ∧ isStr b = true := by
  simp [isStr, List.all_append]

/-- A run of `k + 1` stars before a string that does not start with a star is
squeezed to one star. -/
theorem squeezeStars_run (k : Nat) (r : List Nat) (hr : r.head? ≠ some 42) :
    squeezeStars (42 :: (List.replicate k 42 ++ r)) = 42 :: squeezeStars r := by
  induction k with
  | zero => simp [squeezeStars, hr]
  | succ k ih =>
    rw [List.replicate_succ, List.cons_append]
    rw [squeezeStars, if_pos ⟨rfl, by simp⟩]
    exact ih

/-- A byte other than a star is kept. -/
theorem squeezeStars_other (c : Nat) (r : List Nat) (hc : c ≠ 42) :
    squeezeStars (c :: r) = c :: squeezeStars r := by
  simp [squeezeStars, hc]

theorem exists_star_run (r : List Nat) :
    ∃ k r', r = List.replicate k 42 ++ r' ∧ r'.head? ≠ some 42 := by
  induction r with
  | nil => exact ⟨0, [], rfl, by simp⟩
  | cons c r ih =>
    by_cases hc : c = 42
    · obtain ⟨k, r', hr, hh⟩ := ih
      exact ⟨k + 1, r', by rw [hc, hr, List.replicate_succ, List.cons_append], hh⟩
    · exact ⟨0, c :: r, rfl, by simp [hc]⟩

theorem skipStars_run (pre r : List Nat) (hr : r.head? ≠ some 42) :
    ∀ (k : Nat) (fuel : Nat) (a : List Nat), k ≤ fuel →
      skipStars (pre ++ (a ++ (List.replicate k 42 ++ r))) fuel (pre.length + a.length)
        = pre.length + a.length + k := by
  intro k
  induction k with
  | zero =>
    intro fuel a _
    have h0 : (pre ++ (a ++ (List.replicate 0 42 ++ r))).getD (pre.length + a.length) 0 ≠ 42 := by
      rw [← List.append_assoc, List.getD_eq_getElem?_getD,
        List.getElem?_append_right (by simp)]
      simp only [List.length_append, Nat.sub_self, List.replicate_zero, List.nil_append]
      cases r with
      | nil => simp
      | cons c r => simpa using hr
    cases fuel with
    | zero => simp [skipStars]
    | succ f => rw [skipStars, if_neg h0]; rfl
  | succ k ih =>
    intro fuel a hk
    cases fuel with
    | zero => omega
    | succ f =>
      have h0 : (pre ++ (a ++ (List.replicate (k + 1) 42 ++ r))).getD
          (pre.length + a.length) 0 = 42 := by
        rw [← List.append_assoc, List.getD_eq_getElem?_getD,
          List.getElem?_append_right (by simp)]
        simp [List.replicate_succ]
      rw [skipStars, if_pos h0]
      have := ih f (a ++ [42]) (by omega)
      simp only [List.append_assoc, List.singleton_append, List.length_append,
        List.length_singleton] at this
      rw [List.replicate_succ, List.cons_append]
      rw [← Nat.add_assoc] at this
      rw [this]; omega

theorem copyDown_tail : ∀ (r a g : List Nat) (fuel : Nat), g ≠ [] →
    (∀ c ∈ r, c ≠ 0) → r.length + 1 ≤ fuel →
    copyDown fuel (a ++ (g ++ r)) a.length (a.length + g.length) = a ++ r := by
  intro r
  induction r with
  | nil =>
    intro a g fuel _ _ hf
    cases fuel with
    | zero => omega
    | succ f =>
      have h0 : (a ++ (g ++ [])).getD (a.length + g.length) 0 = 0 := by
        rw [List.getD_eq_getElem?_getD, List.getElem?_eq_none (by simp)]; rfl
      simp only [copyDown, h0, if_true]
      simp
  | cons v r ih =>
    intro a g fuel hg hr hf
    cases fuel with
    | zero => omega
    | succ f =>
      have hv : v ≠ 0 := hr v (by simp)
      have h0 : (a ++ (g ++ v :: r)).getD (a.length + g.length) 0 = v := by
        rw [← List.append_assoc, List.getD_eq_getElem?_getD,
          List.getElem?_append_right (by simp)]
        simp
      cases g with
      | nil => exact absurd rfl hg
      | cons g0 g' =>
        have hset : (a ++ (g0 :: g' ++ v :: r)).set a.length v
            = (a ++ [v]) ++ ((g' ++ [v]) ++ r) := by
          rw [List.set_append_right _ _ (Nat.le_refl _)]
          simp
        simp only [copyDown, h0, if_neg hv]
        rw [hset]
        have := ih (a ++ [v]) (g' ++ [v]) f (by simp)
          (fun c hc => hr c (List.mem_cons_of_mem _ hc))
          (by simp only [List.length_cons] at hf; omega)
        simp only [List.length_append, List.length_singleton, List.length_cons,
          List.length_nil, Nat.zero_add] at this ⊢
        rw [show a.length + (g'.length + 1) + 1 = a.length + 1 + (g'.length + 1) by omega]
        rw [this]; simp

theorem collapseLoop_eq : ∀ (fuel : Nat) (pre rest : List Nat),
    (∀ c ∈ rest, c ≠ 0) → rest.length + 1 ≤ fuel →
    collapseLoop fuel (pre ++ rest) pre.length = pre ++ squeezeStars rest := by
  intro fuel
  induction fuel with
  | zero => intro pre rest _ hf; omega
  | succ f ih =>
    intro pre rest hr hf
    cases rest with
    | nil =>
      have h0 : (pre ++ []).getD pre.length 0 = 0 := by
        rw [List.getD_eq_getElem?_getD, List.getElem?_eq_none (by simp)]; rfl
      simp only [collapseLoop, h0, if_true, squeezeStars]
    | cons c r =>
      have hc : c ≠ 0 := hr c (by simp)
      have hr' : ∀ x ∈ r, x ≠ 0 := fun x hx => hr x (List.mem_cons_of_mem _ hx)
      have h0 : (pre ++ c :: r).getD pre.length 0 = c := by
        rw [List.getD_eq_getElem?_getD, List.getElem?_append_right (Nat.le_refl _)]
        simp
      simp only [List.length_cons] at hf
      by_cases hs : c = 42
      · subst hs
        obtain ⟨k, r', hrr, hh⟩ := exists_star_run r
        subst hrr
        have hr'' : ∀ x ∈ r', x ≠ 0 := fun x hx => hr' x (List.mem_append_right _ hx)
        have ht : skipStars (pre ++ 42 :: (List.replicate k 42 ++ r'))
            (pre ++ 42 :: (List.replicate k 42 ++ r')).length (pre.length + 1)
            = pre.length + 1 + k := by
          have := skipStars_run pre r' hh k
            (pre ++ 42 :: (List.replicate k 42 ++ r')).length [42] (by simp; omega)
          simpa using this
        have hlen : r'.length + 1 ≤ f := by
          simp only [List.length_append, List.length_replicate] at hf; omega
        rw [squeezeStars_run k r' hh]
        simp only [collapseLoop, h0, if_neg hc, if_true, ht]
        by_cases hk : k = 0
        · subst hk
          simp only [Nat.add_zero, ne_eq, not_true_eq_false, if_false,
            List.replicate_zero, List.nil_append]
          have := ih (pre ++ [42]) r' hr'' hlen
          simpa using this
        · rw [if_pos (by omega)]
          have hcd := copyDown_tail r' (pre ++ [42]) (List.replicate k 42)
            ((pre ++ 42 :: (List.replicate k 42 ++ r')).length + 1)
            (by cases k with
              | zero => exact absurd rfl hk
              | succ k => simp [List.replicate_succ])
            hr'' (by simp; omega)
          simp only [List.append_assoc, List.singleton_append, List.length_append,
            List.length_singleton, List.length_replicate, List.length_cons,
            List.length_nil, Nat.zero_add] at hcd ⊢
          rw [hcd]
          have := ih (pre ++ [42]) r' hr'' hlen
          simpa using this
      · rw [squeezeStars_other c r hs]
        simp only [collapseLoop, h0, if_neg hc, if_neg (fun e : 42 = c => hs e.symm)]
        have := ih (pre ++ [c]) r hr' (by omega)
        simpa using this

theorem collapse_eq (pattern : List Nat) (h : isStr pattern = true) :
    collapse (some pattern) = some (squeezeStars pattern) := by
  have := collapseLoop_eq (pattern.length + 1) [] pattern (isStr_ne_zero pattern h)
    (Nat.le_refl _)
  simpa [collapse] using this

theorem squeezeStars_head (r : List Nat) : (squeezeStars r).head? = r.head? := by
  induction r with
  | nil => rfl
  | cons c r ih =>
    rw [squeezeStars]
    by_cases h : c = 42 ∧ r.head? = some 42
    · rw [if_pos h, ih, h.2, h.1]; rfl
    · rw [if_neg h]; rfl

theorem squeezeStars_noAdjacent (p : List Nat) :
    noAdjacentStars (squeezeStars p) = true := by
  induction p with
  | nil => rfl
  | cons c r ih =>
    rw [squeezeStars]
    by_cases h : c = 42 ∧ r.head? = some 42
    · rw [if_pos h]; exact ih
    · rw [if_neg h, noAdjacentStars, squeezeStars_head, ih]
      simp only [Bool.and_true, Bool.not_eq_true', Bool.and_eq_false_imp,
        decide_eq_true_eq, decide_eq_false_iff_not]
      exact fun hc hr => h ⟨hc, hr⟩

theorem squeezeStars_fixed (q : List Nat) (h : noAdjacentStars q = true) :
    squeezeStars q = q := by
  induction q with
  | nil => rfl
  | cons c r ih =>
    simp only [noAdjacentStars, Bool.and_eq_true, Bool.not_eq_true', Bool.and_eq_false_imp,
      decide_eq_true_eq, decide_eq_false_iff_not] at h
    rw [squeezeStars, if_neg (fun e => h.1 e.1 e.2), ih h.2]

theorem squeezeStars_length (p : List Nat) : (squeezeStars p).length ≤ p.length := by
  induction p with
  | nil => exact Nat.le_refl _
  | cons c r ih =>
    rw [squeezeStars]
    split
    · exact Nat.le_succ_of_le ih
    · exact Nat.succ_le_succ ih

theorem squeezeStars_others (p : List Nat) :
    (squeezeStars p).filter (fun c => decide (c ≠ 42)) = p.filter (fun c => decide (c ≠ 42)) := by
  induction p with
  | nil => rfl
  | cons c r ih =>
    rw [squeezeStars]
    by_cases h : c = 42 ∧ r.head? = some 42
    · rw [if_pos h, ih, h.1]; simp
    · rw [if_neg h, List.filter_cons, List.filter_cons, ih]

theorem squeezeStars_sublist (p : List Nat) : List.Sublist (squeezeStars p) p := by
  induction p with
  | nil => exact List.Sublist.slnil
  | cons c r ih =>
    rw [squeezeStars]
    split
    · exact List.Sublist.cons c ih
    · exact List.Sublist.cons₂ c ih

theorem squeezeStars_isStr (p : List Nat) (h : isStr p = true) :
    isStr (squeezeStars p) = true := by
  unfold isStr at h ⊢
  rw [List.all_eq_true] at h ⊢
  intro c hc
  exact h c ((squeezeStars_sublist p).subset hc)

/-- C18: `collapse` converts adjacent `'*'` to a single `'*'`. For a C string
`pattern` the call returns the pattern with each maximal run of `'*'` replaced
by one `'*'` and every other byte kept in place and order; the result has no two
adjacent `'*'`, is not longer than the input, and `collapse` applied to it
returns it unchanged. -/
theorem collapse_single_stars (pattern : List Nat) (h : isStr pattern = true) :
    ∃ q, collapse (some pattern) = some q ∧
      q = squeezeStars pattern ∧
      q.filter (fun c => decide (c ≠ 42)) = pattern.filter (fun c => decide (c ≠ 42)) ∧
      List.Sublist q pattern ∧
      noAdjacentStars q = true ∧
      q.length ≤ pattern.length ∧
      collapse (some q) = some q := by
  refine ⟨squeezeStars pattern, collapse_eq pattern h, rfl, squeezeStars_others pattern,
    squeezeStars_sublist pattern, squeezeStars_noAdjacent pattern,
    squeezeStars_length pattern, ?_⟩
  rw [collapse_eq _ (squeezeStars_isStr pattern h),
    squeezeStars_fixed _ (squeezeStars_noAdjacent pattern)]

/-- C18 at the pattern `"a**b*?***"`, which collapses to `"a*b*?*"`. -/
theorem collapse_single_stars_witness :
    isStr [97, 42, 42, 98, 42, 63, 42, 42, 42] = true ∧
    collapse (some [97, 42, 42, 98, 42, 63, 42, 42, 42]) = some [97, 42, 98, 42, 63, 42] ∧
    ∃ q, collapse (some [97, 42, 42, 98, 42, 63, 42, 42, 42]) = some q ∧
      q = squeezeStars [97, 42, 42, 98, 42, 63, 42, 42, 42] ∧
      q.filter (fun c => decide (c ≠ 42))
        = [97, 42, 42, 98, 42, 63, 42, 42, 42].filter (fun c => decide (c ≠ 42)) ∧
      List.Sublist q [97, 42, 42, 98, 42, 63, 42, 42, 42] ∧
      noAdjacentStars q = true ∧
      q.length ≤ [97, 42, 42, 98, 42, 63, 42, 42, 42].length ∧
      collapse (some q) = some q :=
  ⟨by decide, by decide,
    collapse_single_stars [97, 42, 42, 98, 42, 63, 42, 42, 42] (by decide)⟩

/-! ## `match`: the wildcard semantics by offsets -/

set_option maxRecDepth 100000 in
/-- Only the terminator folds to 0 under `ToLower`. -/
theorem ToLower_pos_table : ∀ c < 256, 0 < c → 0 < ToLower c := by
  decide

theorem ToLower_zero : ToLower 0 = 0 := by decide

theorem isStr_getD_pos (s : List Nat) (h : isStr s = true) (i : Nat) (hi : i < s.length) :
    0 < s.getD i 0 ∧ s.getD i 0 < 256 := by
  have hmem : s.getD i 0 ∈ s := by
    rw [List.getD_eq_getElem _ _ hi]; exact List.getElem_mem hi
  have := List.all_eq_true.1 h _ hmem
  simpa using this

theorem getD_eq_zero_iff (s : List Nat) (h : isStr s = true) (i : Nat) :
    s.getD i 0 = 0 ↔ s.length ≤ i := by
  constructor
  · intro h0
    by_contra hlt
    have := (isStr_getD_pos s h i (by omega)).1
    omega
  · intro hi
    rw [List.getD_eq_getElem?_getD, List.getElem?_eq_none hi]; rfl

theorem ToLower_getD_eq_zero_iff (s : List Nat) (h : isStr s = true) (i : Nat) :
    ToLower (s.getD i 0) = 0 ↔ s.length ≤ i := by
  constructor
  · intro h0
    by_contra hlt
    obtain ⟨hp, hb⟩ := isStr_getD_pos s h i (by omega)
    have := ToLower_pos_table _ hb hp
    omega
  · intro hi
    rw [(getD_eq_zero_iff s h i).2 hi]; exact ToLower_zero

theorem drop_eq_getD_cons (s : List Nat) (i : Nat) (hi : i < s.length) :
    s.drop i = s.getD i 0 :: s.drop (i + 1) := by
  rw [List.getD_eq_getElem _ _ hi]; exact List.drop_eq_getElem_cons hi

theorem wmatch_nil (name : List Nat) : wmatch [] name = name.isEmpty := by
  rw [wmatch.eq_def]

theorem wmatch_cons_star (mask name : List Nat) :
    wmatch (42 :: mask) name
      = (List.range (name.length + 1)).any (fun k => wmatch mask (name.drop k)) := by
  rw [wmatch.eq_def]; simp

theorem wmatch_cons_nil (c : Nat) (mask : List Nat) (hc : c ≠ 42) :
    wmatch (c :: mask) [] = false := by
  rw [wmatch.eq_def]; simp [hc]

theorem wmatch_cons_cons (c x : Nat) (mask name : List Nat) (hc : c ≠ 42) :
    wmatch (c :: mask) (x :: name)
      = ((decide (c = 63) || decide (ToLower c = ToLower x)) && wmatch mask name) := by
  rw [wmatch.eq_def]; simp [hc]

/-- The mask is used up: the name matches exactly when it is used up too. -/
theorem wmatch_end (M N : List Nat) (i j : Nat) (hi : M.length ≤ i) :
    wmatch (M.drop i) (N.drop j) = true ↔ N.length ≤ j := by
  rw [List.drop_eq_nil_of_le hi, wmatch_nil]
  simp [List.isEmpty_iff]

/-- A mask byte other than `'*'` takes one byte of the name. -/
theorem wmatch_char (M N : List Nat) (i j : Nat) (hi : i < M.length)
    (hc : M.getD i 0 ≠ 42) :
    wmatch (M.drop i) (N.drop j) = true ↔
      j < N.length ∧ (M.getD i 0 = 63 ∨ ToLower (M.getD i 0) = ToLower (N.getD j 0)) ∧
        wmatch (M.drop (i + 1)) (N.drop (j + 1)) = true := by
  rw [drop_eq_getD_cons M i hi]
  by_cases hj : j < N.length
  · rw [drop_eq_getD_cons N j hj, wmatch_cons_cons _ _ _ _ hc]
    simp [hj]
  · rw [List.drop_eq_nil_of_le (show N.length ≤ j by omega), wmatch_cons_nil _ _ hc]
    simp [hj]

/-- A `'*'` in the mask takes any number of bytes of the name. -/
theorem wmatch_star (M N : List Nat) (i j : Nat) (hi : i < M.length)
    (hc : M.getD i 0 = 42) (hj : j ≤ N.length) :
    wmatch (M.drop i) (N.drop j) = true ↔
      ∃ p, j ≤ p ∧ p ≤ N.length ∧ wmatch (M.drop (i + 1)) (N.drop p) = true := by
  rw [drop_eq_getD_cons M i hi, hc, wmatch_cons_star, List.any_eq_true]
  constructor
  · rintro ⟨k, hk, hw⟩
    rw [List.mem_range, List.length_drop] at hk
    rw [List.drop_drop] at hw
    refine ⟨j + k, by omega, by omega, ?_⟩
    exact hw
  · rintro ⟨p, hp1, hp2, hw⟩
    refine ⟨p - j, ?_, ?_⟩
    · rw [List.mem_range, List.length_drop]; omega
    · rw [List.drop_drop]
      rw [show j + (p - j) = p by omega]; exact hw

theorem skipStars_spec (M : List Nat) : ∀ (fuel t : Nat), M.length ≤ t + fuel →
    t ≤ skipStars M fuel t ∧
    (∀ k, t ≤ k → k < skipStars M fuel t → M.getD k 0 = 42) ∧
    M.getD (skipStars M fuel t) 0 ≠ 42 ∧
    (t ≤ M.length → skipStars M fuel t ≤ M.length) := by
  intro fuel
  induction fuel with
  | zero =>
    intro t ht
    have h0 : M.getD t 0 = 0 := by
      rw [List.getD_eq_getElem?_getD, List.getElem?_eq_none (by omega)]; rfl
    refine ⟨Nat.le_refl _, ?_, ?_, fun h => h⟩
    · intro k h1 h2; simp only [skipStars] at h2; omega
    · simp only [skipStars]; omega
  | succ f ih =>
    intro t ht
    by_cases h : M.getD t 0 = 42
    · obtain ⟨h1, h2, h3, h4⟩ := ih (t + 1) (by omega)
      have ht' : t < M.length := by
        by_contra hge
        rw [List.getD_eq_getElem?_getD, List.getElem?_eq_none (by omega)] at h
        exact absurd h (by decide)
      simp only [skipStars, if_pos h]
      refine ⟨by omega, ?_, h3, fun _ => h4 (by omega)⟩
      intro k hk1 hk2
      by_cases hkt : k = t
      · rw [hkt]; exact h
      · exact h2 k (by omega) hk2
    · simp only [skipStars, if_neg h]
      exact ⟨Nat.le_refl _, fun k h1 h2 => by omega, h, fun h => h⟩

theorem skipStars_id (M : List Nat) (fuel t : Nat) (h : M.getD t 0 ≠ 42) :
    skipStars M fuel t = t := by
  cases fuel with
  | zero => rfl
  | succ f => simp only [skipStars, if_neg h]

/-- A run of `d` stars in the mask takes any number of bytes of the name. -/
theorem wmatch_stars (M N : List Nat) : ∀ (d i j : Nat), 0 < d → i + d ≤ M.length →
    (∀ k, i ≤ k → k < i + d → M.getD k 0 = 42) → j ≤ N.length →
    (wmatch (M.drop i) (N.drop j) = true ↔
      ∃ p, j ≤ p ∧ p ≤ N.length ∧ wmatch (M.drop (i + d)) (N.drop p) = true) := by
  intro d
  induction d with
  | zero => intro i j h; omega
  | succ d ih =>
    intro i j _ hi hall hj
    rw [wmatch_star M N i j (by omega) (hall i (Nat.le_refl _) (by omega)) hj]
    by_cases hd : d = 0
    · subst hd; rfl
    · constructor
      · rintro ⟨p, hp1, hp2, hw⟩
        obtain ⟨q, hq1, hq2, hw2⟩ :=
          (ih (i + 1) p (by omega) (by omega) (fun k h1 h2 => hall k (by omega) (by omega)) hp2).1 hw
        refine ⟨q, by omega, hq2, ?_⟩
        rw [show i + (d + 1) = i + 1 + d by omega]; exact hw2
      · rintro ⟨q, hq1, hq2, hw⟩
        refine ⟨j, Nat.le_refl _, hj, ?_⟩
        rw [ih (i + 1) j (by omega) (by omega) (fun k h1 h2 => hall k (by omega) (by omega)) hj]
        exact ⟨q, hq1, hq2, by rw [show i + 1 + d = i + (d + 1) by omega]; exact hw⟩

/-- A mask tail of `d` question marks matches a name tail of `d` bytes. -/
theorem wmatch_quests (M N : List Nat) : ∀ (d i j : Nat), i + d = M.length →
    j + d = N.length → (∀ k, i ≤ k → k < M.length → M.getD k 0 = 63) →
    wmatch (M.drop i) (N.drop j) = true := by
  intro d
  induction d with
  | zero =>
    intro i j hi hj _
    exact (wmatch_end M N i j (by omega)).2 (by omega)
  | succ d ih =>
    intro i j hi hj hall
    have h63 := hall i (Nat.le_refl _) (by omega)
    rw [wmatch_char M N i j (by omega) (by rw [h63]; decide)]
    exact ⟨by omega, Or.inl h63,
      ih (i + 1) (j + 1) (by omega) (by omega) (fun k h1 h2 => hall k (by omega) h2)⟩

/-- A star-free stretch of the mask that agrees with the name byte by byte can
be taken off both. -/
theorem wmatch_seg (M N : List Nat) : ∀ (d ma na : Nat), ma + d ≤ M.length →
    na + d ≤ N.length →
    (∀ k, k < d → M.getD (ma + k) 0 ≠ 42 ∧
      (M.getD (ma + k) 0 = 63 ∨ ToLower (M.getD (ma + k) 0) = ToLower (N.getD (na + k) 0))) →
    (wmatch (M.drop ma) (N.drop na) = true ↔
      wmatch (M.drop (ma + d)) (N.drop (na + d)) = true) := by
  intro d
  induction d with
  | zero => intro ma na _ _ _; rfl
  | succ d ih =>
    intro ma na hm hn hall
    have h0 := hall 0 (by omega)
    simp only [Nat.add_zero] at h0
    rw [wmatch_char M N ma na (by omega) h0.1]
    rw [show ma + (d + 1) = ma + 1 + d by omega, show na + (d + 1) = na + 1 + d by omega]
    rw [← ih (ma + 1) (na + 1) (by omega) (by omega)
      (fun k hk => by
        have := hall (k + 1) (by omega)
        rw [show ma + (k + 1) = ma + 1 + k by omega,
          show na + (k + 1) = na + 1 + k by omega] at this
        exact this)]
    constructor
    · rintro ⟨_, _, h⟩; exact h
    · intro h; exact ⟨by omega, h0.2, h⟩

/-- A star-free stretch of the mask of `d` bytes takes `d` bytes of the name. -/
theorem wmatch_seg_any (M N : List Nat) : ∀ (d ma p : Nat), ma + d ≤ M.length →
    p ≤ N.length → (∀ k, k < d → M.getD (ma + k) 0 ≠ 42) →
    wmatch (M.drop ma) (N.drop p) = true →
    p + d ≤ N.length ∧ wmatch (M.drop (ma + d)) (N.drop (p + d)) = true := by
  intro d
  induction d with
  | zero => intro ma p _ hp _ hw; exact ⟨hp, hw⟩
  | succ d ih =>
    intro ma p hm hp hall hw
    have h0 := hall 0 (by omega)
    simp only [Nat.add_zero] at h0
    rw [wmatch_char M N ma p (by omega) h0] at hw
    obtain ⟨h1, h2⟩ := ih (ma + 1) (p + 1) (by omega) (by omega)
      (fun k hk => by
        have := hall (k + 1) (by omega)
        rw [show ma + (k + 1) = ma + 1 + k by omega] at this
        exact this) hw.2.2
    refine ⟨by omega, ?_⟩
    rw [show ma + (d + 1) = ma + 1 + d by omega, show p + (d + 1) = p + 1 + d by omega]
    exact h2

theorem backScan_spec (M : List Nat) : ∀ (fuel : Nat) (m : Int), m < fuel → -1 ≤ m →
    -1 ≤ backScan M fuel m ∧ backScan M fuel m ≤ m ∧
    (∀ k : Int, backScan M fuel m < k → k ≤ m → byteAt M k = 63) ∧
    ¬(backScan M fuel m > 0 ∧ byteAt M (backScan M fuel m) = 63) := by
  intro fuel
  induction fuel with
  | zero =>
    intro m h1 h2
    simp only [backScan]
    refine ⟨h2, Int.le_refl _, fun k hk1 hk2 => by omega, fun h => ?_⟩
    have := h.1
    simp at h1
    omega
  | succ f ih =>
    intro m h1 h2
    by_cases h : m > 0 ∧ byteAt M m = 63
    · simp only [backScan, if_pos h]
      obtain ⟨a, b, c, d⟩ := ih (m - 1) (by push_cast at h1; omega) (by omega)
      refine ⟨a, by omega, ?_, d⟩
      intro k hk1 hk2
      by_cases hkm : k = m
      · rw [hkm]; exact h.2
      · exact c k hk1 (by omega)
    · simp only [backScan, if_neg h]
      exact ⟨h2, Int.le_refl _, fun k hk1 hk2 => by omega, h⟩

/-! ## `match`: the loop invariant -/

theorem MatchInv_start (M N : List Nat) : MatchInv M N matchStart := by
  refine ⟨Nat.le_refl _, Nat.zero_le _, Nat.zero_le _, rfl, ?_, fun _ => ⟨rfl, rfl⟩, ?_⟩
  · intro k hk; simp [matchStart] at hk
  · simp [matchStart]

/-- Under the invariant the current alignment decides the mask from `ma`
against the name from `na`. -/
theorem MatchInv_here (M N : List Nat) (s : MatchState) (h : MatchInv M N s) :
    wmatch (M.drop s.ma) (N.drop s.na) = true ↔ wmatch (M.drop s.m) (N.drop s.n) = true := by
  obtain ⟨h1, h2, h3, h4, h5, _, _⟩ := h
  have := wmatch_seg M N (s.m - s.ma) s.ma s.na (by omega) (by omega) h5
  rw [this, show s.ma + (s.m - s.ma) = s.m by omega, h4]

/-- Under the invariant, if the mask from `m` matches the name from `n` then
the whole name matches the whole mask. -/
theorem MatchInv_sound (M N : List Nat) (s : MatchState) (h : MatchInv M N s)
    (hw : wmatch (M.drop s.m) (N.drop s.n) = true) : wmatch M N = true := by
  have hh := (MatchInv_here M N s h).2 hw
  obtain ⟨h1, h2, h3, h4, h5, h6, h7⟩ := h
  rw [h7]
  by_cases hwild : s.wild = true
  · rw [if_pos hwild]; exact ⟨s.na, Nat.le_refl _, by omega, hh⟩
  · rw [if_neg hwild]; exact hh

/-- Under the invariant, if a mask byte other than `'*'` stands at `m` and the
whole name matches the whole mask, then some alignment not before `na` matches
and leaves at least one byte of the name at and after `n`. -/
theorem MatchInv_complete (M N : List Nat) (s : MatchState) (h : MatchInv M N s)
    (hw : wmatch M N = true) :
    ∃ p, s.na ≤ p ∧ p + (s.m - s.ma) ≤ N.length ∧ (s.wild = false → p = s.na) ∧
      wmatch (M.drop s.ma) (N.drop p) = true ∧
      wmatch (M.drop s.m) (N.drop (p + (s.m - s.ma))) = true := by
  obtain ⟨h1, h2, h3, h4, h5, h6, h7⟩ := h
  rw [h7] at hw
  by_cases hwild : s.wild = true
  · rw [if_pos hwild] at hw
    obtain ⟨p, hp1, hp2, hp3⟩ := hw
    obtain ⟨ha, hb⟩ := wmatch_seg_any M N (s.m - s.ma) s.ma p (by omega) hp2
      (fun k hk => (h5 k hk).1) hp3
    rw [show s.ma + (s.m - s.ma) = s.m by omega] at hb
    exact ⟨p, hp1, ha, fun hf => absurd hwild (by rw [hf]; decide), hp3, hb⟩
  · rw [if_neg hwild] at hw
    obtain ⟨ha, hb⟩ := wmatch_seg_any M N (s.m - s.ma) s.ma s.na (by omega) (by omega)
      (fun k hk => (h5 k hk).1) hw
    rw [show s.ma + (s.m - s.ma) = s.m by omega] at hb
    exact ⟨s.na, Nat.le_refl _, ha, fun _ => rfl, hw, hb⟩

theorem matchStar_spec (M N : List Nat) (s : MatchState) (h : MatchInv M N s) :
    MatchInv M N (matchStar M s) ∧ M.getD (matchStar M s).m 0 ≠ 42 ∧
      matchPhi M N (matchStar M s) ≤ matchPhi M N s := by
  by_cases h42 : M.getD s.m 0 = 42
  · obtain ⟨k1, k2, k3, k4⟩ := skipStars_spec M M.length s.m (by omega)
    have hinv := h
    obtain ⟨h1, h2, h3, h4, h5, h6, h7⟩ := h
    have k4 := k4 h2
    have hlt : s.m < skipStars M M.length s.m := by
      rcases Nat.lt_or_ge s.m (skipStars M M.length s.m) with hlt | hge
      · exact hlt
      · have : skipStars M M.length s.m = s.m := by omega
        rw [this] at k3; exact absurd h42 k3
    have hstars := wmatch_stars M N (skipStars M M.length s.m - s.m) s.m
    simp only [matchStar, if_pos h42]
    refine ⟨⟨Nat.le_refl _, k4, h3, by simp, fun k hk => by simp at hk, fun hf => by simp at hf, ?_⟩,
      k3, ?_⟩
    · simp only [if_true]
      constructor
      · intro hw
        obtain ⟨p, hp1, hp2, _, _, hp3⟩ := MatchInv_complete M N s hinv hw
        have := (hstars (p + (s.m - s.ma)) (by omega) (by omega)
          (fun k ha hb => k2 k ha (by omega)) hp2).1 hp3
        obtain ⟨q, hq1, hq2, hq3⟩ := this
        rw [show s.m + (skipStars M M.length s.m - s.m) = skipStars M M.length s.m by omega] at hq3
        exact ⟨q, by omega, hq2, hq3⟩
      · rintro ⟨q, hq1, hq2, hq3⟩
        apply MatchInv_sound M N s hinv
        rw [hstars s.n (by omega) (by omega) (fun k ha hb => k2 k ha (by omega)) h3]
        exact ⟨q, hq1, hq2, by
          rw [show s.m + (skipStars M M.length s.m - s.m) = skipStars M M.length s.m by omega]
          exact hq3⟩
    · unfold matchPhi
      exact Nat.add_le_add (Nat.mul_le_mul_right _ (by simp only []; omega)) (by simp only []; omega)
  · simp only [matchStar, if_neg h42]
    exact ⟨h, h42, Nat.le_refl _⟩

theorem matchPhi_reset (a K c d : Nat) (ha : 0 < a) (hd : d < K) :
    (a - 1) * K + d < a * K + c := by
  cases a with
  | zero => omega
  | succ b =>
    rw [Nat.succ_mul, Nat.add_sub_cancel]
    generalize b * K = x
    omega

/-- The step `m = ma; n = ++na;` of `match` keeps the invariant when the
alignment at `na` has failed, and lowers the measure. -/
theorem MatchInv_reset (M N : List Nat) (s : MatchState) (h : MatchInv M N s)
    (hwild : s.wild = true) (hna : s.na < N.length)
    (hfail : ¬wmatch (M.drop s.ma) (N.drop s.na) = true) :
    MatchInv M N { s with m := s.ma, n := s.na + 1, na := s.na + 1 } ∧
      matchPhi M N { s with m := s.ma, n := s.na + 1, na := s.na + 1 } < matchPhi M N s := by
  obtain ⟨h1, h2, h3, h4, h5, h6, h7⟩ := h
  refine ⟨⟨Nat.le_refl _, by simp only []; omega, by simp only []; omega, by simp,
    fun k hk => by simp at hk, fun hf => absurd hwild (by simp only [] at hf; rw [hf]; decide),
    ?_⟩, ?_⟩
  · rw [h7]
    simp only [hwild, if_true]
    constructor
    · rintro ⟨p, hp1, hp2, hp3⟩
      have : p ≠ s.na := fun e => hfail (e ▸ hp3)
      exact ⟨p, by omega, hp2, hp3⟩
    · rintro ⟨p, hp1, hp2, hp3⟩
      exact ⟨p, by omega, hp2, hp3⟩
  · unfold matchPhi
    simp only []
    rw [show N.length - (s.na + 1) = (N.length - s.na) - 1 by omega]
    exact matchPhi_reset _ _ _ _ (by omega) (by omega)

theorem matchCompare_spec (M N : List Nat) (hM : isStr M = true) (hN : isStr N = true)
    (s : MatchState) (h : MatchInv M N s) (h42 : M.getD s.m 0 ≠ 42)
    (hpre : s.m < M.length → s.n < N.length) :
    (∀ v, matchCompare M N s = MatchStep.ret v → v = 0 ∧ ¬wmatch M N = true) ∧
    (∀ t, matchCompare M N s = MatchStep.next t →
      MatchInv M N t ∧ matchPhi M N t ≤ matchPhi M N s ∧
        (s.m < M.length → matchPhi M N t < matchPhi M N s)) := by
  have hinv := h
  obtain ⟨h1, h2, h3, h4, h5, h6, h7⟩ := h
  by_cases hmis : ToLower (M.getD s.m 0) ≠ ToLower (N.getD s.n 0) ∧ M.getD s.m 0 ≠ 63
  · -- the bytes differ
    have hn : s.n < N.length := by
      by_cases hm : s.m < M.length
      · exact hpre hm
      · by_contra hge
        have e1 := (ToLower_getD_eq_zero_iff M hM s.m).2 (by omega)
        have e2 := (ToLower_getD_eq_zero_iff N hN s.n).2 (by omega)
        exact hmis.1 (by rw [e1, e2])
    have hfail : ¬wmatch (M.drop s.m) (N.drop s.n) = true := by
      by_cases hm : s.m < M.length
      · rw [wmatch_char M N s.m s.n hm h42]
        rintro ⟨_, hc, _⟩
        rcases hc with hc | hc
        · exact hmis.2 hc
        · exact hmis.1 hc
      · rw [wmatch_end M N s.m s.n (by omega)]; omega
    have hfail2 : ¬wmatch (M.drop s.ma) (N.drop s.na) = true := by
      rw [MatchInv_here M N s hinv]; exact hfail
    by_cases hwild : s.wild = true
    · have hr := MatchInv_reset M N s hinv hwild (by omega) hfail2
      have heq : matchCompare M N s
          = MatchStep.next { s with m := s.ma, n := s.na + 1, na := s.na + 1 } := by
        simp only [matchCompare, if_pos hmis, hwild, Bool.not_true, Bool.false_eq_true, if_false]
      rw [heq]
      refine ⟨fun v hv => (by cases hv), fun t ht => ?_⟩
      cases ht
      exact ⟨hr.1, Nat.le_of_lt hr.2, fun _ => hr.2⟩
    · have hw : s.wild = false := by simpa using hwild
      have heq : matchCompare M N s = MatchStep.ret 0 := by
        simp only [matchCompare, if_pos hmis, hw, Bool.not_false, if_true]
      rw [heq]
      refine ⟨fun v hv => ?_, fun t ht => by cases ht⟩
      cases hv
      refine ⟨rfl, ?_⟩
      rw [h7, if_neg hwild]; exact hfail2
  · -- the bytes agree, or the mask has a question mark
    have hcm : M.getD s.m 0 = 63 ∨ ToLower (M.getD s.m 0) = ToLower (N.getD s.n 0) := by
      by_cases h63 : M.getD s.m 0 = 63
      · exact Or.inl h63
      · by_cases hl : ToLower (M.getD s.m 0) = ToLower (N.getD s.n 0)
        · exact Or.inr hl
        · exact absurd ⟨hl, h63⟩ hmis
    have heq : matchCompare M N s = MatchStep.next { s with
        m := if M.getD s.m 0 ≠ 0 then s.m + 1 else s.m,
        n := if N.getD s.n 0 ≠ 0 then s.n + 1 else s.n } := by
      simp only [matchCompare, if_neg hmis]
    rw [heq]
    refine ⟨fun v hv => (by cases hv), fun t ht => ?_⟩
    cases ht
    by_cases hm : s.m < M.length
    · have hn := hpre hm
      have hm0 : M.getD s.m 0 ≠ 0 := fun e => by
        have := (getD_eq_zero_iff M hM s.m).1 e; omega
      have hn0 : N.getD s.n 0 ≠ 0 := fun e => by
        have := (getD_eq_zero_iff N hN s.n).1 e; omega
      simp only [ne_eq, hm0, hn0, not_false_eq_true, if_true]
      refine ⟨⟨by simp only []; omega, by simp only []; omega, by simp only []; omega,
        by simp only []; omega, ?_, h6, h7⟩, ?_, fun _ => ?_⟩
      · intro k hk
        simp only [] at hk ⊢
        by_cases hk2 : k < s.m - s.ma
        · exact h5 k hk2
        · have hk3 : k = s.m - s.ma := by omega
          rw [hk3, show s.ma + (s.m - s.ma) = s.m by omega, h4]
          exact ⟨h42, hcm⟩
      · unfold matchPhi; simp only []; omega
      · unfold matchPhi; simp only []; omega
    · have hm0 : M.getD s.m 0 = 0 := (getD_eq_zero_iff M hM s.m).2 (by omega)
      have hn0 : N.getD s.n 0 = 0 := by
        rcases hcm with hc | hc
        · rw [hm0] at hc; exact absurd hc (by decide)
        · rw [hm0, ToLower_zero] at hc
          exact (getD_eq_zero_iff N hN s.n).2
            ((ToLower_getD_eq_zero_iff N hN s.n).1 hc.symm)
      simp only [ne_eq, hm0, hn0, not_true_eq_false, if_false]
      exact ⟨hinv, Nat.le_refl _, fun hlt => absurd hlt hm⟩

theorem byteAt_ofNat (M : List Nat) (k : Nat) : byteAt M (k : Int) = M.getD k 0 := by
  unfold byteAt
  rw [if_neg (by omega)]
  rfl

/-- One round of the loop of `match` under the invariant: a returned 1 means
the name matches, a returned 0 means it does not, and a round that goes on
keeps the invariant and lowers the measure. -/
theorem matchBody_spec (M N : List Nat) (hM : isStr M = true) (hN : isStr N = true)
    (s : MatchState) (h : MatchInv M N s) :
    (∀ v, matchBody M N s = MatchStep.ret v →
      (v = 1 ∧ wmatch M N = true) ∨ (v = 0 ∧ ¬wmatch M N = true)) ∧
    (∀ t, matchBody M N s = MatchStep.next t →
      MatchInv M N t ∧ matchPhi M N t < matchPhi M N s) := by
  obtain ⟨hinv, h42, hphi⟩ := matchStar_spec M N s h
  unfold matchBody
  simp only []
  generalize matchStar M s = s1 at hinv h42 hphi ⊢
  have hinv' := hinv
  obtain ⟨h1, h2, h3, h4, h5, h6, h7⟩ := hinv'
  by_cases hm0 : M.getD s1.m 0 = 0
  · have hm : M.length ≤ s1.m := (getD_eq_zero_iff M hM s1.m).1 hm0
    rw [if_pos hm0]
    by_cases hn0 : N.getD s1.n 0 = 0
    · -- both strings are used up
      have hn : N.length ≤ s1.n := (getD_eq_zero_iff N hN s1.n).1 hn0
      rw [if_pos hn0]
      refine ⟨fun v hv => ?_, fun t ht => (by cases ht)⟩
      cases hv
      exact Or.inl ⟨rfl, MatchInv_sound M N s1 hinv ((wmatch_end M N s1.m s1.n hm).2 hn)⟩
    · have hn : s1.n < N.length := by
        by_contra hge
        exact hn0 ((getD_eq_zero_iff N hN s1.n).2 (by omega))
      have hfail : ¬wmatch (M.drop s1.ma) (N.drop s1.na) = true := by
        rw [MatchInv_here M N s1 hinv, wmatch_end M N s1.m s1.n hm]; omega
      rw [if_neg hn0]
      by_cases hsc : byteAt M (backScan M M.length ((s1.m : Int) - 1)) = 42 ∧
          backScan M M.length ((s1.m : Int) - 1) > 0
      · -- the mask ends in a star and question marks
        rw [if_pos hsc]
        refine ⟨fun v hv => ?_, fun t ht => (by cases ht)⟩
        cases hv
        refine Or.inl ⟨rfl, ?_⟩
        obtain ⟨b1, b2, b3, _⟩ := backScan_spec M M.length ((s1.m : Int) - 1)
          (by omega) (by omega)
        generalize backScan M M.length ((s1.m : Int) - 1) = r at hsc b1 b2 b3
        obtain ⟨hr42, hrpos⟩ := hsc
        obtain ⟨r', rfl⟩ : ∃ r' : Nat, r = (r' : Int) := ⟨r.toNat, by omega⟩
        rw [byteAt_ofNat] at hr42
        have hrma : r' < s1.ma := by
          by_contra hge
          have := (h5 (r' - s1.ma) (by omega)).1
          rw [show s1.ma + (r' - s1.ma) = r' by omega] at this
          exact this hr42
        have hwild : s1.wild = true := by
          by_contra hf
          have := (h6 (by simpa using hf)).1
          omega
        have hq : ∀ k, s1.ma ≤ k → k < M.length → M.getD k 0 = 63 := by
          intro k hk1 hk2
          have := b3 (k : Int) (by omega) (by omega)
          rwa [byteAt_ofNat] at this
        have hw := wmatch_quests M N (M.length - s1.ma) s1.ma (N.length - (M.length - s1.ma))
          (by omega) (by omega) hq
        rw [h7, if_pos hwild]
        exact ⟨_, by omega, by omega, hw⟩
      · rw [if_neg hsc]
        by_cases hwild : s1.wild = true
        · -- try the next alignment
          have hnw : ¬((!s1.wild) = true) := by simp [hwild]
          rw [if_neg hnw]
          obtain ⟨ri, rphi⟩ := MatchInv_reset M N s1 hinv hwild (by omega) hfail
          have hma42 : M.getD s1.ma 0 ≠ 42 := by
            by_cases e : s1.ma = s1.m
            · rw [e]; exact h42
            · have := (h5 0 (by omega)).1
              simpa using this
          obtain ⟨c1, c2⟩ := matchCompare_spec M N hM hN
            { s1 with m := s1.ma, n := s1.na + 1, na := s1.na + 1 } ri hma42
            (by simp only []; intro hlt; omega)
          refine ⟨fun v hv => Or.inr (c1 v hv), fun t ht => ?_⟩
          obtain ⟨d1, d2, _⟩ := c2 t ht
          exact ⟨d1, by omega⟩
        · have hw : s1.wild = false := by simpa using hwild
          simp only [hw, Bool.not_false, if_true]
          refine ⟨fun v hv => ?_, fun t ht => (by cases ht)⟩
          cases hv
          refine Or.inr ⟨rfl, ?_⟩
          rw [h7, if_neg hwild]; exact hfail
  · have hm : s1.m < M.length := by
      by_contra hge
      exact hm0 ((getD_eq_zero_iff M hM s1.m).2 (by omega))
    rw [if_neg hm0]
    by_cases hn0 : N.getD s1.n 0 = 0
    · -- the name is used up, the mask is not
      have hn : N.length ≤ s1.n := (getD_eq_zero_iff N hN s1.n).1 hn0
      rw [if_pos hn0, skipStars_id M M.length s1.m h42, if_neg hm0]
      refine ⟨fun v hv => ?_, fun t ht => (by cases ht)⟩
      cases hv
      refine Or.inr ⟨rfl, fun hw => ?_⟩
      obtain ⟨p, hp1, hp2, _, _, hp3⟩ := MatchInv_complete M N s1 hinv hw
      rw [wmatch_char M N s1.m _ hm h42] at hp3
      omega
    · have hn : s1.n < N.length := by
        by_contra hge
        exact hn0 ((getD_eq_zero_iff N hN s1.n).2 (by omega))
      rw [if_neg hn0]
      obtain ⟨c1, c2⟩ := matchCompare_spec M N hM hN s1 hinv h42 (fun _ => hn)
      refine ⟨fun v hv => Or.inr (c1 v hv), fun t ht => ?_⟩
      obtain ⟨d1, _, d3⟩ := c2 t ht
      exact ⟨d1, by have := d3 hm; omega⟩

/-! ## `match`: the loop -/

/-- Whatever the loop of `match` returns from inside is the right answer. -/
theorem matchLoop_spec (M N : List Nat) (hM : isStr M = true) (hN : isStr N = true) :
    ∀ (fuel : Nat) (s : MatchState), MatchInv M N s →
      ∀ v, matchLoop M N fuel s = some v →
        (v = 1 ∧ wmatch M N = true) ∨ (v = 0 ∧ ¬wmatch M N = true) := by
  intro fuel
  induction fuel with
  | zero => intro s _ v hv; simp [matchLoop] at hv
  | succ f ih =>
    intro s hinv v hv
    obtain ⟨b1, b2⟩ := matchBody_spec M N hM hN s hinv
    cases hb : matchBody M N s with
    | ret u =>
      simp only [matchLoop, hb, Option.some.injEq] at hv
      subst hv
      exact b1 u hb
    | next t =>
      simp only [matchLoop, hb] at hv
      exact ih t (b2 t hb).1 v hv

/-- The loop of `match` returns from inside once it is given more rounds than
the measure of the state it starts in. -/
theorem matchLoop_terminates (M N : List Nat) (hM : isStr M = true) (hN : isStr N = true) :
    ∀ (fuel : Nat) (s : MatchState), MatchInv M N s → matchPhi M N s < fuel →
      ∃ v, matchLoop M N fuel s = some v := by
  intro fuel
  induction fuel with
  | zero => intro s _ h; omega
  | succ f ih =>
    intro s hinv hphi
    obtain ⟨_, b2⟩ := matchBody_spec M N hM hN s hinv
    cases hb : matchBody M N s with
    | ret u => exact ⟨u, by simp only [matchLoop, hb]⟩
    | next t =>
      obtain ⟨hi, hlt⟩ := b2 t hb
      obtain ⟨v, hv⟩ := ih t hi (by omega)
      exact ⟨v, by simp only [matchLoop, hb]; exact hv⟩

theorem matchPhi_start (M N : List Nat) :
    matchPhi M N matchStart + 1 = (M.length + 1) * (N.length + 1) := by
  simp only [matchPhi, matchStart, Nat.sub_zero]
  rw [Nat.mul_comm (M.length + 1) (N.length + 1), Nat.succ_mul]
  omega

theorem getD_replicate_lt (L c k : Nat) (h : k < L) : (List.replicate L c).getD k 0 = c := by
  rw [List.getD_eq_getElem _ _ (by simpa using h)]
  simp

/-- On a mask and a name that are both `L` times `'a'`, a round of the loop
of `match` at offset `k < L` moves on to offset `k + 1`. -/
theorem matchBody_replicate (L k : Nat) (h : k < L) :
    matchBody (List.replicate L 97) (List.replicate L 97)
        { m := k, n := k, ma := 0, na := 0, wild := false }
      = MatchStep.next { m := k + 1, n := k + 1, ma := 0, na := 0, wild := false } := by
  have hg := getD_replicate_lt L 97 k h
  have hl : ToLower 97 = 97 := by decide
  have hg2 : (List.replicate L 97)[k]?.getD 0 = 97 := by
    rw [← List.getD_eq_getElem?_getD]; exact hg
  simp [matchBody, matchStar, matchCompare, hg2, hl]

theorem matchLoop_replicate (L : Nat) : ∀ (fuel k : Nat), k + fuel ≤ L →
    matchLoop (List.replicate L 97) (List.replicate L 97) fuel
      { m := k, n := k, ma := 0, na := 0, wild := false } = none := by
  intro fuel
  induction fuel with
  | zero => intro k _; rfl
  | succ f ih =>
    intro k hk
    rw [matchLoop, matchBody_replicate L k (by omega)]
    exact ih (k + 1) (by omega)

theorem wmatch_replicate (L : Nat) :
    wmatch (List.replicate L 97) (List.replicate L 97) = true := by
  induction L with
  | zero => rfl
  | succ L ih =>
    rw [List.replicate_succ, wmatch_cons_cons 97 97 _ _ (by decide), ih]
    simp

theorem isStr_replicate (L : Nat) : isStr (List.replicate L 97) = true := by
  unfold isStr
  rw [List.all_eq_true]
  intro c hc
  rw [(List.mem_replicate.1 hc).2]
  decide

theorem match_replicate (L : Nat) (h : MATCH_MAX_CALLS ≤ L) :
    match_ (List.replicate L 97) (List.replicate L 97) = 0 := by
  unfold match_
  rw [show matchStart = { m := 0, n := 0, ma := 0, na := 0, wild := false } from rfl,
    matchLoop_replicate L MATCH_MAX_CALLS 0 (by omega)]
  rfl

set_option maxRecDepth 100000 in
/-- The mask `"a*?"` against the name `"abc"`. -/
theorem match_a_star_quest : match_ [97, 42, 63] [97, 98, 99] = 1 := by
  decide

/-- C17 as claimed fails on the cap: the mask and the name are both 512 times
`'a'`, so the name matches the mask, but the 512 rounds of the loop run out
with one byte compared in each and `match` returns 0. -/
theorem match_cap_misses_match :
    isStr (List.replicate 512 97) = true ∧
    wmatch (List.replicate 512 97) (List.replicate 512 97) = true ∧
    match_ (List.replicate 512 97) (List.replicate 512 97) = 0 :=
  ⟨isStr_replicate 512, wmatch_replicate 512, match_replicate 512 (Nat.le_refl _)⟩

/-- C17, amended: `match` is a boolean wildcard matcher up to its cap of
`MATCH_MAX_CALLS` rounds. For C strings `mask` and `name` it returns 1 or 0; a
returned 1 means that the name matches the mask; when the loop returns from
inside within the cap, the result is 1 if the name matches and 0 if it does
not, and when the rounds run out the result is 0; the loop always returns from
inside within `(len mask + 1) * (len name + 1)` rounds, so the result is exact
whenever that product is at most `MATCH_MAX_CALLS`. -/
theorem match_exact_within_cap (mask name : List Nat)
    (hm : isStr mask = true) (hn : isStr name = true) :
    (match_ mask name = 1 ∨ match_ mask name = 0) ∧
    (match_ mask name = 1 → wmatch mask name = true) ∧
    (∀ v, matchLoop mask name MATCH_MAX_CALLS matchStart = some v →
      match_ mask name = v ∧ (v = 1 ∨ v = 0) ∧ (v = 1 ↔ wmatch mask name = true)) ∧
    (matchLoop mask name MATCH_MAX_CALLS matchStart = none → match_ mask name = 0) ∧
    (∃ v, matchLoop mask name ((mask.length + 1) * (name.length + 1)) matchStart = some v ∧
      (v = 1 ∨ v = 0) ∧ (v = 1 ↔ wmatch mask name = true)) ∧
    ((mask.length + 1) * (name.length + 1) ≤ MATCH_MAX_CALLS →
      (match_ mask name = 1 ↔ wmatch mask name = true) ∧
      (match_ mask name = 0 ↔ ¬wmatch mask name = true)) := by
  have hspec := matchLoop_spec mask name hm hn
  have hstart := MatchInv_start mask name
  have key : ∀ fuel v, matchLoop mask name fuel matchStart = some v →
      (v = 1 ∨ v = 0) ∧ (v = 1 ↔ wmatch mask name = true) ∧
        (v = 0 ↔ ¬wmatch mask name = true) := by
    intro fuel v hv
    rcases hspec fuel matchStart hstart v hv with ⟨h1, h2⟩ | ⟨h1, h2⟩
    · subst h1
      exact ⟨Or.inl rfl, ⟨fun _ => h2, fun _ => rfl⟩,
        ⟨fun h => absurd h (by decide), fun h => absurd h2 h⟩⟩
    · subst h1
      exact ⟨Or.inr rfl, ⟨fun h => absurd h (by decide), fun h => absurd h h2⟩,
        ⟨fun _ => h2, fun _ => rfl⟩⟩
  have hcap : ∀ v, matchLoop mask name MATCH_MAX_CALLS matchStart = some v →
      match_ mask name = v := by
    intro v hv; unfold match_; rw [hv]; rfl
  have hnone : matchLoop mask name MATCH_MAX_CALLS matchStart = none →
      match_ mask name = 0 := by
    intro hv; unfold match_; rw [hv]; rfl
  refine ⟨?_, ?_, ?_, hnone, ?_, ?_⟩
  · cases hl : matchLoop mask name MATCH_MAX_CALLS matchStart with
    | none => exact Or.inr (hnone hl)
    | some v => rw [hcap v hl]; exact (key _ v hl).1
  · intro h1
    cases hl : matchLoop mask name MATCH_MAX_CALLS matchStart with
    | none => rw [hnone hl] at h1; exact absurd h1 (by decide)
    | some v => rw [hcap v hl] at h1; exact (key _ v hl).2.1.1 h1
  · intro v hv
    exact ⟨hcap v hv, (key _ v hv).1, (key _ v hv).2.1⟩
  · obtain ⟨v, hv⟩ := matchLoop_terminates mask name hm hn
      ((mask.length + 1) * (name.length + 1)) matchStart hstart
      (by have := matchPhi_start mask name; omega)
    exact ⟨v, hv, (key _ v hv).1, (key _ v hv).2.1⟩
  · intro hle
    obtain ⟨v, hv⟩ := matchLoop_terminates mask name hm hn MATCH_MAX_CALLS matchStart hstart
      (by have := matchPhi_start mask name; omega)
    rw [hcap v hv]
    exact ⟨(key _ v hv).2.1, (key _ v hv).2.2⟩

/-- C17, amended, at the mask `"a*?"` and the name `"abc"`: the product of the
lengths plus one is 16, and `match` returns 1. -/
theorem match_exact_within_cap_witness :
    isStr [97, 42, 63] = true ∧ isStr [97, 98, 99] = true ∧
    match_ [97, 42, 63] [97, 98, 99] = 1 ∧
    wmatch [97, 42, 63] [97, 98, 99] = true :=
  ⟨by decide, by decide, match_a_star_quest,
    (match_exact_within_cap [97, 42, 63] [97, 98, 99] (by decide) (by decide)).2.1
      match_a_star_quest⟩

/-! ## `match`: soundness -/

set_option maxRecDepth 100000 in
/-- The mask `"*B?"` against the name `"abc"`. -/
theorem match_star_B_quest : match_ [42, 66, 63] [97, 98, 99] = 1 := by
  decide

/-- C22: `match` is sound whatever the cap on its rounds. For C strings `mask`
and `name`, with any number of rounds allowed, a value returned from inside the
loop is 1 only if the name matches the mask under the wildcard semantics; so
with the cap of `MATCH_MAX_CALLS` rounds a result of 1 means a match, and a
name that does not match gets 0. -/
theorem match_sound (mask name : List Nat)
    (hm : isStr mask = true) (hn : isStr name = true) :
    (∀ fuel, (matchLoop mask name fuel matchStart).getD 0 = 1 → wmatch mask name = true) ∧
    (match_ mask name = 1 → wmatch mask name = true) ∧
    (wmatch mask name = false → match_ mask name = 0) := by
  have key : ∀ fuel, (matchLoop mask name fuel matchStart).getD 0 = 1 →
      wmatch mask name = true := by
    intro fuel h
    cases hl : matchLoop mask name fuel matchStart with
    | none => rw [hl] at h; exact absurd h (by decide)
    | some v =>
      rw [hl] at h
      have hv : v = 1 := h
      rcases matchLoop_spec mask name hm hn fuel matchStart (MatchInv_start mask name) v hl
        with ⟨_, h2⟩ | ⟨h1, _⟩
      · exact h2
      · rw [hv] at h1; exact absurd h1 (by decide)
  refine ⟨key, key MATCH_MAX_CALLS, fun hf => ?_⟩
  cases hl : matchLoop mask name MATCH_MAX_CALLS matchStart with
  | none => unfold match_; rw [hl]; rfl
  | some v =>
    rcases matchLoop_spec mask name hm hn _ matchStart (MatchInv_start mask name) v hl
      with ⟨_, h2⟩ | ⟨h1, _⟩
    · rw [hf] at h2; exact absurd h2 (by decide)
    · unfold match_; rw [hl, h1]; rfl

/-- C22 at the mask `"*B?"` and the name `"abc"`, on which `match` returns 1. -/
theorem match_sound_witness :
    isStr [42, 66, 63] = true ∧ isStr [97, 98, 99] = true ∧
    match_ [42, 66, 63] [97, 98, 99] = 1 ∧
    wmatch [42, 66, 63] [97, 98, 99] = true :=
  ⟨by decide, by decide, match_star_B_quest,
    (match_sound [42, 66, 63] [97, 98, 99] (by decide) (by decide)).2.1 match_star_B_quest⟩

/-! ## `match` on masks without wildcards -/

set_option maxRecDepth 100000 in
/-- Folding to lower case and then to upper case is folding to upper case. -/
theorem ToUpper_ToLower_table : ∀ c < 256, ToUpper (ToLower c) = ToUpper c := by
  decide

set_option maxRecDepth 100000 in
/-- Folding to upper case and then to lower case is folding to lower case. -/
theorem ToLower_ToUpper_table : ∀ c < 256, ToLower (ToUpper c) = ToLower c := by
  decide

/-- The two foldings identify the same bytes. -/
theorem ToLower_eq_iff_ToUpper_eq (a b : Nat) (ha : a < 256) (hb : b < 256) :
    ToLower a = ToLower b ↔ ToUpper a = ToUpper b := by
  constructor
  · intro h
    rw [← ToUpper_ToLower_table a ha, ← ToUpper_ToLower_table b hb, h]
  · intro h
    rw [← ToLower_ToUpper_table a ha, ← ToLower_ToUpper_table b hb, h]

theorem noWild_cons (c : Nat) (r : List Nat) :
    noWild (c :: r) = true ↔ (c ≠ 42 ∧ c ≠ 63) ∧ noWild r = true := by
  simp [noWild]

theorem noWild_getD (M : List Nat) (h : noWild M = true) (i : Nat) : M.getD i 0 ≠ 42 := by
  by_cases hi : i < M.length
  · have hmem : M.getD i 0 ∈ M := by
      rw [List.getD_eq_getElem _ _ hi]; exact List.getElem_mem hi
    have := List.all_eq_true.1 h _ hmem
    simp only [Bool.and_eq_true, decide_eq_true_eq] at this
    exact this.1
  · rw [List.getD_eq_getElem?_getD, List.getElem?_eq_none (by omega)]
    decide

/-- On a mask without `'*'`, a round of the loop of `match` that goes on has
moved one byte forward in the mask and has not set `wild`. -/
theorem matchBody_noStar (M N : List Nat) (hM : isStr M = true)
    (hns : ∀ i, M.getD i 0 ≠ 42) (s t : MatchState) (hw : s.wild = false)
    (h : matchBody M N s = MatchStep.next t) :
    t.wild = false ∧ t.m = s.m + 1 ∧ s.m < M.length := by
  have hstar : matchStar M s = s := by
    unfold matchStar; rw [if_neg (hns s.m)]
  unfold matchBody at h
  simp only [hstar] at h
  by_cases hm0 : M.getD s.m 0 = 0
  · rw [if_pos hm0] at h
    by_cases hn0 : N.getD s.n 0 = 0
    · rw [if_pos hn0] at h; cases h
    · rw [if_neg hn0] at h
      split at h
      · cases h
      · rw [if_pos (by rw [hw]; rfl)] at h; cases h
  · rw [if_neg hm0] at h
    have hm : s.m < M.length := by
      by_contra hge
      exact hm0 ((getD_eq_zero_iff M hM s.m).2 (by omega))
    by_cases hn0 : N.getD s.n 0 = 0
    · rw [if_pos hn0] at h; cases h
    · rw [if_neg hn0] at h
      unfold matchCompare at h
      split at h
      · rw [if_pos (by rw [hw]; rfl)] at h; cases h
      · cases h
        simp only [ne_eq, hm0, not_false_eq_true, if_true]
        exact ⟨hw, trivial, hm⟩

/-- On a mask without `'*'` the loop of `match` returns from inside within one
round more than the mask has bytes left. -/
theorem matchLoop_terminates_noStar (M N : List Nat) (hM : isStr M = true)
    (hns : ∀ i, M.getD i 0 ≠ 42) : ∀ (fuel : Nat) (s : MatchState), s.wild = false →
      M.length - s.m < fuel → ∃ v, matchLoop M N fuel s = some v := by
  intro fuel
  induction fuel with
  | zero => intro s _ h; omega
  | succ f ih =>
    intro s hw hlt
    cases hb : matchBody M N s with
    | ret u => exact ⟨u, by simp only [matchLoop, hb]⟩
    | next t =>
      obtain ⟨h1, h2, h3⟩ := matchBody_noStar M N hM hns s t hw hb
      obtain ⟨v, hv⟩ := ih t h1 (by omega)
      exact ⟨v, by simp only [matchLoop, hb]; exact hv⟩

/-- On a mask without wildcards the wildcard semantics is equality under
folding, which is what `irccmp` tests. -/
theorem wmatch_noWild_iff_irccmp (M : List Nat) : ∀ N : List Nat,
    isStr M = true → isStr N = true → noWild M = true →
    (wmatch M N = true ↔ irccmp M N = 0) := by
  induction M with
  | nil =>
    intro N _ hN _
    cases N with
    | nil => simp [wmatch_nil, irccmp_nil_nil]
    | cons d t =>
      obtain ⟨⟨hd0, hd⟩, _⟩ := (isStr_cons d t).1 hN
      have := ToUpper_pos d hd0 hd
      rw [wmatch_nil, irccmp_nil_cons]
      constructor
      · intro h; exact absurd h (by simp)
      · intro h; omega
  | cons c r ih =>
    intro N hM hN hW
    obtain ⟨⟨hc0, hc⟩, hr⟩ := (isStr_cons c r).1 hM
    obtain ⟨⟨hc42, hc63⟩, hWr⟩ := (noWild_cons c r).1 hW
    cases N with
    | nil =>
      have := ToUpper_pos c hc0 hc
      rw [wmatch_cons_nil c r hc42, irccmp_cons_nil c r hc0 hc]
      constructor
      · intro h; exact absurd h (by decide)
      · intro h; omega
    | cons d t =>
      obtain ⟨⟨hd0, hd⟩, ht⟩ := (isStr_cons d t).1 hN
      rw [wmatch_cons_cons c d r t hc42, irccmp_cons_cons c d r t hc0]
      have hfold := ToLower_eq_iff_ToUpper_eq c d hc hd
      by_cases hu : ToUpper c = ToUpper d
      · rw [if_pos hu, ← ih t hr ht hWr]
        simp [hfold.2 hu]
      · rw [if_neg hu]
        have hl : ¬ToLower c = ToLower d := fun e => hu (hfold.1 e)
        constructor
        · intro h; simp [hc63, hl] at h
        · intro h; omega

/-- C24: on a mask without `'*'` and `'?'` and shorter than `MATCH_MAX_CALLS`
bytes, `match` agrees with `irccmp`: for every name, `match` returns 1 exactly
when `irccmp` returns 0. The two fold with different tables, `ToLower` and
`ToUpper`, which identify the same bytes. -/
theorem match_iff_irccmp (mask name : List Nat)
    (hm : isStr mask = true) (hn : isStr name = true)
    (hw : noWild mask = true) (hlen : mask.length < MATCH_MAX_CALLS) :
    (match_ mask name = 1 ↔ irccmp mask name = 0) ∧
    (match_ mask name = 0 ↔ irccmp mask name ≠ 0) ∧
    (∀ a b, a < 256 → b < 256 → (ToLower a = ToLower b ↔ ToUpper a = ToUpper b)) := by
  obtain ⟨v, hv⟩ := matchLoop_terminates_noStar mask name hm (noWild_getD mask hw)
    MATCH_MAX_CALLS matchStart rfl (by simp only [matchStart]; omega)
  have hval : match_ mask name = v := by unfold match_; rw [hv]; rfl
  have hiff := wmatch_noWild_iff_irccmp mask name hm hn hw
  refine ⟨?_, ?_, fun a b ha hb => ToLower_eq_iff_ToUpper_eq a b ha hb⟩
  · rw [hval, ← hiff]
    rcases matchLoop_spec mask name hm hn _ matchStart (MatchInv_start mask name) v hv
      with ⟨h1, h2⟩ | ⟨h1, h2⟩
    · exact ⟨fun _ => h2, fun _ => h1⟩
    · exact ⟨fun e => absurd (h1 ▸ e) (by decide), fun e => absurd e h2⟩
  · rw [hval, ne_eq, ← hiff]
    rcases matchLoop_spec mask name hm hn _ matchStart (MatchInv_start mask name) v hv
      with ⟨h1, h2⟩ | ⟨h1, h2⟩
    · exact ⟨fun e => absurd (h1 ▸ e) (by decide), fun e => absurd h2 e⟩
    · exact ⟨fun _ => h2, fun _ => h1⟩

set_option maxRecDepth 100000 in
/-- The mask `"Nick[1]"` against the name `"nICK{1}"`. -/
theorem match_nick : match_ [78, 105, 99, 107, 91, 49, 93] [110, 73, 67, 75, 123, 49, 125] = 1 := by
  decide

/-- C24 at the mask `"Nick[1]"` and the name `"nICK{1}"`, equal under both
foldings: `match` returns 1 and `irccmp` returns 0. -/
theorem match_iff_irccmp_witness :
    isStr [78, 105, 99, 107, 91, 49, 93] = true ∧
    isStr [110, 73, 67, 75, 123, 49, 125] = true ∧
    noWild [78, 105, 99, 107, 91, 49, 93] = true ∧
    match_ [78, 105, 99, 107, 91, 49, 93] [110, 73, 67, 75, 123, 49, 125] = 1 ∧
    irccmp [78, 105, 99, 107, 91, 49, 93] [110, 73, 67, 75, 123, 49, 125] = 0 :=
  ⟨by decide, by decide, by decide, match_nick,
    (match_iff_irccmp [78, 105, 99, 107, 91, 49, 93] [110, 73, 67, 75, 123, 49, 125]
      (by decide) (by decide) (by decide) (by decide)).1.1 match_nick⟩

/-! ## `match` after `collapse` -/

theorem wmatch_cons_star_iff (mask name : List Nat) :
    wmatch (42 :: mask) name = true ↔
      ∃ k, k ≤ name.length ∧ wmatch mask (name.drop k) = true := by
  rw [wmatch_cons_star, List.any_eq_true]
  constructor
  · rintro ⟨k, hk, hw⟩
    exact ⟨k, by rw [List.mem_range] at hk; omega, hw⟩
  · rintro ⟨k, hk, hw⟩
    exact ⟨k, by rw [List.mem_range]; omega, hw⟩

/-- Two stars in a row match what one star matches. -/
theorem wmatch_star_star (mask name : List Nat) :
    wmatch (42 :: 42 :: mask) name = wmatch (42 :: mask) name := by
  rw [Bool.eq_iff_iff, wmatch_cons_star_iff, wmatch_cons_star_iff]
  constructor
  · rintro ⟨k, hk, hw⟩
    rw [wmatch_cons_star_iff] at hw
    obtain ⟨j, hj, hw2⟩ := hw
    rw [List.length_drop] at hj
    rw [List.drop_drop] at hw2
    exact ⟨k + j, by omega, hw2⟩
  · rintro ⟨k, hk, hw⟩
    refine ⟨k, hk, ?_⟩
    rw [wmatch_cons_star_iff]
    exact ⟨0, Nat.zero_le _, by simpa using hw⟩

/-- Squeezing the runs of stars of a mask does not change what it matches
under the wildcard semantics. -/
theorem wmatch_squeezeStars (p : List Nat) : ∀ name : List Nat,
    wmatch (squeezeStars p) name = wmatch p name := by
  induction p with
  | nil => intro name; rfl
  | cons c r ih =>
    intro name
    rw [squeezeStars]
    by_cases h : c = 42 ∧ r.head? = some 42
    · rw [if_pos h, ih name]
      obtain ⟨hc, hr⟩ := h
      cases r with
      | nil => simp at hr
      | cons d r' =>
        have hd : d = 42 := by simpa using hr
        rw [hc, hd, wmatch_star_star]
    · rw [if_neg h]
      by_cases hc : c = 42
      · rw [hc, wmatch_cons_star, wmatch_cons_star]
        congr 1
        funext k
        exact ih _
      · cases name with
        | nil => rw [wmatch_cons_nil c _ hc, wmatch_cons_nil c _ hc]
        | cons x t => rw [wmatch_cons_cons c x _ _ hc, wmatch_cons_cons c x _ _ hc, ih t]

/-- Within `(len mask + 1) * (len name + 1)` rounds allowed by the cap, `match`
returns the exact answer. -/
theorem match_exact (M N : List Nat) (hM : isStr M = true) (hN : isStr N = true)
    (hb : (M.length + 1) * (N.length + 1) ≤ MATCH_MAX_CALLS) :
    (match_ M N = 1 ∧ wmatch M N = true) ∨ (match_ M N = 0 ∧ ¬wmatch M N = true) := by
  obtain ⟨v, hv⟩ := matchLoop_terminates M N hM hN MATCH_MAX_CALLS matchStart
    (MatchInv_start M N) (by have := matchPhi_start M N; omega)
  have hval : match_ M N = v := by unfold match_; rw [hv]; rfl
  rw [hval]
  exact matchLoop_spec M N hM hN _ matchStart (MatchInv_start M N) v hv

/-- The first round of `match` on the mask `"**"` and a name that starts with
`'a'` returns 1 through the back-scan shortcut. -/
theorem matchBody_two_stars (L : Nat) (h : 0 < L) :
    matchBody [42, 42] (List.replicate L 97) matchStart = MatchStep.ret 1 := by
  have hg : (List.replicate L 97)[0]?.getD 0 = 97 := by
    rw [← List.getD_eq_getElem?_getD]; exact getD_replicate_lt L 97 0 h
  simp [matchBody, matchStar, matchStart, skipStars, backScan, byteAt, hg]

theorem match_two_stars (L : Nat) (h : 0 < L) :
    match_ [42, 42] (List.replicate L 97) = 1 := by
  unfold match_
  rw [show MATCH_MAX_CALLS = 511 + 1 from rfl, matchLoop, matchBody_two_stars L h]
  rfl

/-- The first round of `match` on the mask `"*"` and a name of at least two
`'a'` moves `na` two bytes on. -/
theorem matchBody_star_first (L : Nat) (h : 1 < L) :
    matchBody [42] (List.replicate L 97) matchStart
      = MatchStep.next { m := 1, n := 2, ma := 1, na := 2, wild := true } := by
  have hg0 : (List.replicate L 97)[0]?.getD 0 = 97 := by
    rw [← List.getD_eq_getElem?_getD]; exact getD_replicate_lt L 97 0 (by omega)
  have hg1 : (List.replicate L 97)[1]?.getD 0 = 97 := by
    rw [← List.getD_eq_getElem?_getD]; exact getD_replicate_lt L 97 1 h
  have hl : ToLower 97 = 97 := by decide
  simp [matchBody, matchStar, matchCompare, matchStart, skipStars, backScan, byteAt,
    hg0, hg1, hl, ToLower_zero]

/-- A later round of `match` on the mask `"*"` and a name of `'a'` moves `na`
two bytes on as well. -/
theorem matchBody_star_step (L j : Nat) (h : 2 * j + 1 < L) :
    matchBody [42] (List.replicate L 97)
        { m := 1, n := 2 * j, ma := 1, na := 2 * j, wild := true }
      = MatchStep.next { m := 1, n := 2 * j + 2, ma := 1, na := 2 * j + 2, wild := true } := by
  have hg0 : (List.replicate L 97)[2 * j]?.getD 0 = 97 := by
    rw [← List.getD_eq_getElem?_getD]; exact getD_replicate_lt L 97 (2 * j) (by omega)
  have hg1 : (List.replicate L 97)[2 * j + 1]?.getD 0 = 97 := by
    rw [← List.getD_eq_getElem?_getD]; exact getD_replicate_lt L 97 (2 * j + 1) h
  have hl : ToLower 97 = 97 := by decide
  simp [matchBody, matchStar, matchCompare, skipStars, backScan, byteAt,
    hg0, hg1, hl, ToLower_zero]

theorem matchLoop_star (L : Nat) : ∀ (fuel j : Nat), 2 * (j + fuel) ≤ L →
    matchLoop [42] (List.replicate L 97) fuel
      { m := 1, n := 2 * j, ma := 1, na := 2 * j, wild := true } = none := by
  intro fuel
  induction fuel with
  | zero => intro j _; rfl
  | succ f ih =>
    intro j hj
    rw [matchLoop, matchBody_star_step L j (by omega)]
    exact ih (j + 1) (by omega)

theorem match_star_long (L : Nat) (h : 2 * MATCH_MAX_CALLS ≤ L) :
    match_ [42] (List.replicate L 97) = 0 := by
  have h2 : 1024 ≤ L := h
  unfold match_
  rw [show MATCH_MAX_CALLS = 511 + 1 from rfl, matchLoop, matchBody_star_first L (by omega)]
  have := matchLoop_star L 511 1 (by omega)
  simp only [Nat.mul_one] at this
  show (matchLoop [42] (List.replicate L 97) 511
    { m := 1, n := 2, ma := 1, na := 2, wild := true }).getD 0 = 0
  rw [this]
  rfl

/-- C23 as claimed fails on the cap: the pattern `"**"` collapses to `"*"`;
against a name of 1024 times `'a'` the pattern `"**"` gives 1 in the first
round, through the shortcut for a mask that ends in a star not at its start,
while `"*"` moves two bytes of the name on per round, runs out of its 512
rounds and gives 0. -/
theorem match_collapse_differs :
    isStr [42, 42] = true ∧ isStr (List.replicate 1024 97) = true ∧
    collapse (some [42, 42]) = some [42] ∧
    match_ [42, 42] (List.replicate 1024 97) = 1 ∧
    match_ [42] (List.replicate 1024 97) = 0 :=
  ⟨by decide, isStr_replicate 1024, by decide, match_two_stars 1024 (by decide),
    match_star_long 1024 (by decide)⟩

/-- C23, amended: collapsing a mask does not change what it matches under the
wildcard semantics, and `match` gives the same result on the collapsed and on
the original pattern whenever both loops return from inside within the cap, as
they do when `(len pattern + 1) * (len name + 1)` is at most
`MATCH_MAX_CALLS`. -/
theorem match_collapse_within_cap (pattern name : List Nat)
    (hp : isStr pattern = true) (hn : isStr name = true) :
    ∃ q, collapse (some pattern) = some q ∧ isStr q = true ∧
      wmatch q name = wmatch pattern name ∧
      (∀ v w, matchLoop q name MATCH_MAX_CALLS matchStart = some v →
        matchLoop pattern name MATCH_MAX_CALLS matchStart = some w → v = w) ∧
      ((pattern.length + 1) * (name.length + 1) ≤ MATCH_MAX_CALLS →
        match_ q name = match_ pattern name) := by
  have hq := squeezeStars_isStr pattern hp
  have hw := wmatch_squeezeStars pattern name
  refine ⟨squeezeStars pattern, collapse_eq pattern hp, hq, hw, ?_, ?_⟩
  · intro v w hv hw2
    rcases matchLoop_spec _ name hq hn _ matchStart (MatchInv_start _ name) v hv
      with ⟨a1, a2⟩ | ⟨a1, a2⟩ <;>
    rcases matchLoop_spec pattern name hp hn _ matchStart (MatchInv_start _ name) w hw2
      with ⟨b1, b2⟩ | ⟨b1, b2⟩
    · rw [a1, b1]
    · rw [hw] at a2; exact absurd a2 b2
    · rw [hw] at a2; exact absurd b2 a2
    · rw [a1, b1]
  · intro hb
    have hb2 : ((squeezeStars pattern).length + 1) * (name.length + 1) ≤ MATCH_MAX_CALLS :=
      Nat.le_trans (Nat.mul_le_mul_right _ (Nat.succ_le_succ (squeezeStars_length pattern))) hb
    rcases match_exact _ name hq hn hb2 with ⟨a1, a2⟩ | ⟨a1, a2⟩ <;>
    rcases match_exact pattern name hp hn hb with ⟨b1, b2⟩ | ⟨b1, b2⟩
    · rw [a1, b1]
    · rw [hw] at a2; exact absurd a2 b2
    · rw [hw] at a2; exact absurd b2 a2
    · rw [a1, b1]

/-- C23, amended, at the pattern `"a**?"`, which collapses to `"a*?"`, and the
name `"abc"`. -/
theorem match_collapse_within_cap_witness :
    isStr [97, 42, 42, 63] = true ∧ isStr [97, 98, 99] = true ∧
    collapse (some [97, 42, 42, 63]) = some [97, 42, 63] ∧
    ∃ q, collapse (some [97, 42, 42, 63]) = some q ∧ isStr q = true ∧
      wmatch q [97, 98, 99] = wmatch [97, 42, 42, 63] [97, 98, 99] ∧
      (∀ v w, matchLoop q [97, 98, 99] MATCH_MAX_CALLS matchStart = some v →
        matchLoop [97, 42, 42, 63] [97, 98, 99] MATCH_MAX_CALLS matchStart = some w → v = w) ∧
      (([97, 42, 42, 63].length + 1) * ([97, 98, 99].length + 1) ≤ MATCH_MAX_CALLS →
        match_ q [97, 98, 99] = match_ [97, 42, 42, 63] [97, 98, 99]) :=
  ⟨by decide, by decide, by decide,
    match_collapse_within_cap [97, 42, 42, 63] [97, 98, 99] (by decide) (by decide)⟩

end Match
